import Mathlib

/-!
# itertools: push iterators, the pull adapter and the combinators built on them

A Go push iterator `Iter[T] = func(yield func(T) bool) bool` is embedded by the
interaction it has with its `yield`: a finitely branching, well-founded tree
`Co Bool T Bool` whose nodes are the calls of `yield` and whose leaves are the
value the iterator returns.  Closures with captured variables become functions
that pass the captured variables explicitly.  Unbounded `for` loops take a fuel
argument and return `none` when it runs out.
-/

namespace Itertools

/-! ## Interaction trees of functions that call a `yield` -/

/-- One call of a function body that may call `yield`: it either returns `r`,
or calls `yield o` and continues with what `yield` returned. -/
inductive Co (I O R : Type) where
  | ret : R → Co I O R
  | yield : O → (I → Co I O R) → Co I O R

namespace Co

variable {I O R R2 σ : Type}

/-- Sequencing: run `t`, then `f` on its result. -/
def bind : Co I O R → (R → Co I O R2) → Co I O R2
  | ret r, f => f r
  | yield o k, f => yield o (fun i => bind (k i) f)

/-- Drive a body with a caller-supplied, stateful `yield`. -/
def drive (y : O → σ → I × σ) : Co I O R → σ → R × σ
  | ret r, s => (r, s)
  | yield o k, s => drive y (k (y o s).1) (y o s).2

/-- The values a push iterator hands to a `yield` that always answers `true`. -/
def elems : Co Bool O R → List O
  | ret _ => []
  | yield o k => o :: elems (k true)

/-- The value a push iterator returns when its `yield` always answers `true`. -/
def result : Co Bool O R → R
  | ret r => r
  | yield _ k => result (k true)

/-- A push iterator is well behaved when it makes no further call of `yield`
once `yield` has returned `false`. -/
def WellBehaved : Co Bool O R → Prop
  | ret _ => True
  | yield _ k => (∃ r, k false = ret r) ∧ WellBehaved (k true)

end Co

/-- The Go type `Iter[T]`, as the behaviour of one call of the iterator. -/
abbrev Iter (T : Type) := Co Bool T Bool

/-- A consumer that keeps every element and never stops the iterator:
`for v := range it { out = append(out, v) }`. -/
def collectAll {T : Type} (v : T) (out : List T) : Bool × List T := (true, out ++ [v])

/-- A consumer that keeps every element and breaks out of the loop once it
holds `limit` elements. -/
def collectUpTo {T : Type} (limit : Nat) (v : T) (out : List T) : Bool × List T :=
  (decide ((out ++ [v]).length < limit), out ++ [v])

/-! ## Simple generators -/

/-- FromSlice yields every element in s. -/
def FromSlice {T : Type} : List T → Iter T
  | [] => Co.ret true
  | v :: s => Co.yield v (fun b => if !b then Co.ret false else FromSlice s)

/-! ## The coroutine primitive and `Pull` -/

/-- Modelled from the spec: the package `internal/coro` is not part of the
sources.  A coroutine created by `coro.New(body)` is either live, holding the
rest of the body as a function of the next input (the body itself before the
first resumption, the continuation of the pending `yieldBack` afterwards), or
dead once the body has returned. -/
inductive Coro (I O : Type) where
  | live : (I → Co I O O) → Coro I O
  | dead : Coro I O

namespace Coro

variable {I O : Type}

/-- Modelled from the spec: `coro.New(body)`; the body starts only on the first
resumption, with that resumption's input. -/
def New (body : I → Co I O O) : Coro I O := live body

/-- Modelled from the spec: `resume(in)`.  A live coroutine runs until the body
calls `yieldBack(v)`, giving `(v, true)`, or returns `v`, giving `(v, false)` and
a dead coroutine; a dead coroutine is not resumed and gives `(zero, false)`. -/
def resume [Inhabited O] : Coro I O → I → (O × Bool) × Coro I O
  | dead, _ => ((default, false), dead)
  | live k, i =>
    match k i with
    | Co.ret o => ((o, false), dead)
    | Co.yield o k2 => ((o, true), live k2)

/-- Whether a resumption of this coroutine hands its input to the body. -/
def delivers : Coro I O → Bool
  | dead => false
  | live _ => true

end Coro

section PullDefs

variable {V : Type} [Inhabited V]

/-- The body `copush` of `Pull`: `if more { push(yield) }; return zero`. -/
def copush (push : Iter V) (more : Bool) : Co Bool V V :=
  if more then Co.bind push (fun _ => Co.ret default) else Co.ret default

/-- Pull converts a push iterator to a pull iterator; the pair `(pull, stop)`
shares the coroutine, which is the state passed explicitly here. -/
def Pull (push : Iter V) : Coro Bool V := Coro.New (copush push)

/-- The closure `pull` of `Pull`: `resume(true)`. -/
def pull (c : Coro Bool V) : (V × Bool) × Coro Bool V := c.resume true

/-- The closure `stop` of `Pull`: `resume(false)`, result dropped. -/
def stop (c : Coro Bool V) : Coro Bool V := (c.resume false).2

/-- The results of `j` successive calls of `pull`, and the adapter afterwards. -/
def pulls : Nat → Coro Bool V → List (V × Bool) × Coro Bool V
  | 0, c => ([], c)
  | j + 1, c => ((pull c).1 :: (pulls j (pull c).2).1, (pulls j (pull c).2).2)

/-- The adapter after `k` successive calls of `stop`. -/
def stops : Nat → Coro Bool V → Coro Bool V
  | 0, c => c
  | k + 1, c => stops k (stop c)

end PullDefs

/-! ### What a pull adapter still has to deliver -/

namespace Coro

variable {V : Type}

/-- The values the adapter delivers to a caller that keeps calling `pull`. -/
def rest : Coro Bool V → List V
  | dead => []
  | live k => Co.elems (k true)

/-- The body of the adapter returns the zero value when it runs to its end. -/
def ZeroEnd [Inhabited V] : Coro Bool V → Prop
  | dead => True
  | live k => Co.result (k true) = default

/-- The body of the adapter makes no call of `yieldBack` after one that
returned `false`, nor when its first input is `false`. -/
def Obedient : Coro Bool V → Prop
  | dead => True
  | live k => (∃ r, k false = Co.ret r) ∧ Co.WellBehaved (k true)

end Coro

/-! ## Generators over machine integers -/

/-- A Go integer type: its width in bits and whether it is signed. -/
structure IntType where
  bits : Nat
  signed : Bool

namespace IntType

/-- The least value of the type. -/
def minVal (ty : IntType) : Int := if ty.signed then -(2 ^ (ty.bits - 1)) else 0

/-- The greatest value of the type. -/
def maxVal (ty : IntType) : Int :=
  if ty.signed then 2 ^ (ty.bits - 1) - 1 else 2 ^ ty.bits - 1

/-- Reduction of a mathematical integer to the value stored in the type
(arithmetic modulo `2 ^ bits`). -/
def wrap (ty : IntType) (x : Int) : Int :=
  (x - ty.minVal) % 2 ^ ty.bits + ty.minVal

/-- The Go type `int` on a 64-bit platform. -/
def int : IntType := ⟨64, true⟩

end IntType

/-- The loop of `CountBy`: `for n >= start { if !yield(n) { return false }; n += step }`
followed by `return true`.  One unit of fuel is spent per iteration. -/
def CountBy.loop (ty : IntType) (start step : Int) : Nat → Int → Co Bool Int (Option Bool)
  | 0, _ => Co.ret none
  | fuel + 1, n =>
    if n ≥ start then
      Co.yield n (fun b =>
        if !b then Co.ret (some false)
        else CountBy.loop ty start step fuel (ty.wrap (n + step)))
    else Co.ret (some true)

/-- CountBy yields start, start+step, start+2*step, ... -/
def CountBy (ty : IntType) (start step : Int) (fuel : Nat) : Co Bool Int (Option Bool) :=
  CountBy.loop ty start step fuel start

/-- Count yields start, start+1, start+2, ... -/
def Count (ty : IntType) (start : Int) (fuel : Nat) : Co Bool Int (Option Bool) :=
  CountBy ty start 1 fuel

/-- The loop of the closure returned by `RepeatN`:
`for n > 0 { if !yield(elem) { return false }; n-- }; return true`.
The variable `n` is the parameter of `RepeatN` captured by the closure, so its
value at the return is part of the result. -/
def RepeatN.loop {T : Type} (elem : T) : Nat → Int → Co Bool T (Option (Bool × Int))
  | 0, _ => Co.ret none
  | fuel + 1, n =>
    if n > 0 then
      Co.yield elem (fun b =>
        if !b then Co.ret (some (false, n))
        else RepeatN.loop elem fuel (n - 1))
    else Co.ret (some (true, n))

/-- One invocation of the closure returned by `RepeatN(elem, n)`, started with
the captured variable holding `n`. -/
def RepeatN {T : Type} (elem : T) (fuel : Nat) (n : Int) : Co Bool T (Option (Bool × Int)) :=
  RepeatN.loop elem fuel n

/-- Two successive invocations of one closure returned by `RepeatN(elem, n)`,
each driven by its own consumer: what each consumer received and what each
invocation returned. -/
def RepeatN.twice {T : Type} (elem : T) (fuel : Nat) (n : Int)
    (y1 y2 : T → List T → Bool × List T) : Option ((Bool × List T) × (Bool × List T)) :=
  match Co.drive y1 (RepeatN elem fuel n) [] with
  | (none, _) => none
  | (some (r1, n1), out1) =>
    match Co.drive y2 (RepeatN elem fuel n1) [] with
    | (none, _) => none
    | (some (r2, _), out2) => some ((r1, out1), (r2, out2))

/-! ## Compress -/

/-- The loop of `Compress`; the two pull adapters are local state. -/
def Compress.loop {T : Type} [Inhabited T] :
    Nat → Coro Bool T → Coro Bool Bool → Co Bool T (Option (Bool × Coro Bool T × Coro Bool Bool))
  | 0, _, _ => Co.ret none
  | fuel + 1, cd, cs =>
    match pull cd with
    | ((d, ok), cd) =>
      if !ok then Co.ret (some (true, cd, cs))
      else
        match pull cs with
        | ((s, ok), cs) =>
          if !ok then Co.ret (some (true, cd, cs))
          else if s then
            Co.yield d (fun b =>
              if !b then Co.ret (some (false, cd, cs))
              else Compress.loop fuel cd cs)
          else Compress.loop fuel cd cs

/-- Compress yields (d[0] if s[0]), (d[1] if s[1]), ...  The deferred
`stopsel()` and `stopdata()` run when the body returns; the adapters they leave
behind are returned next to the result. -/
def Compress {T : Type} [Inhabited T] (data : Iter T) (selectors : Iter Bool) (fuel : Nat) :
    Co Bool T (Option (Bool × Coro Bool T × Coro Bool Bool)) :=
  Co.bind (Compress.loop fuel (Pull data) (Pull selectors)) (fun r =>
    match r with
    | none => Co.ret none
    | some (b, cd, cs) => Co.ret (some (b, stop cd, stop cs)))

/-! ## GroupBy -/

/-- The variables of one call of the `GroupBy` closure that the closure
`groupIter` shares with it: the pull adapter (`pull`, `stop`), `val`, `ok`,
`key`, and the `advance` of the current iteration of the outer loop. -/
structure GroupVars (K E : Type) where
  co : Coro Bool E
  val : E
  ok : Bool
  key : K
  advance : Bool

/-- The closure `groupIter`, called with a stateful `yield`:
`for { if !yield(val) { return false }; val, ok = pull(); if !ok { return true };
if k := keyFunc(val); k != key { advance = false; key = k; return true } }`. -/
def groupIter {K E ρ : Type} [DecidableEq K] [Inhabited E] (keyFunc : E → K)
    (yield : E → ρ → Bool × ρ) : Nat → GroupVars K E × ρ → Option (Bool × GroupVars K E × ρ)
  | 0, _ => none
  | fuel + 1, (g, r) =>
    match yield g.val r with
    | (b, r) =>
      if !b then some (false, g, r)
      else
        let p := pull g.co
        let g := { g with co := p.2, val := p.1.1, ok := p.1.2 }
        if !g.ok then some (true, g, r)
        else
          let k := keyFunc g.val
          if k ≠ g.key then some (true, { g with advance := false, key := k }, r)
          else groupIter keyFunc yield fuel (g, r)

/-- The type of the closure `groupIter` as the consumer of `GroupBy` sees it:
given a stateful `yield` it acts on the shared variables. -/
abbrev GroupIter (K E ρ : Type) :=
  (E → ρ → Bool × ρ) → GroupVars K E × ρ → Option (Bool × GroupVars K E × ρ)

/-- The empty loop body of `for range groupIter {}`. -/
def skipElem {E : Type} (_ : E) (u : Unit) : Bool × Unit := (true, u)

/-- The loop `for ok { ... }` of `GroupBy`.  The consumer's `yield` receives the
key and the closure `groupIter`; `ρ` is the consumer's own state and `ρi` the
state of the `yield` it hands to `groupIter`. -/
def GroupBy.loop {K E ρ ρi : Type} [DecidableEq K] [Inhabited E] (keyFunc : E → K)
    (inner : Nat)
    (yield : K → GroupIter K E ρi → GroupVars K E × ρ → Option (Bool × GroupVars K E × ρ)) :
    Nat → GroupVars K E × ρ → Option (Bool × GroupVars K E × ρ)
  | 0, _ => none
  | fuel + 1, (g, r) =>
    if g.ok then
      let g := { g with advance := true }
      match yield g.key (fun y => groupIter keyFunc y inner) (g, r) with
      | none => none
      | some (b, g, r) =>
        if !b then some (false, g, r)
        else if g.advance then
          match groupIter keyFunc skipElem inner (g, ()) with
          | none => none
          | some (_, g, _) => GroupBy.loop keyFunc inner yield fuel (g, r)
        else GroupBy.loop keyFunc inner yield fuel (g, r)
    else some (true, g, r)

/-- GroupBy returns an iteration over consecutive keys and groups from seq.
The result is what the closure returns and the consumer's state; the deferred
`stop()` runs on every return.  `fuel` bounds the outer loop and `inner` each
run of a `groupIter` loop. -/
def GroupBy {K E ρ ρi : Type} [DecidableEq K] [Inhabited E] (seq : Iter E)
    (keyFunc : E → K) (fuel inner : Nat)
    (yield : K → GroupIter K E ρi → GroupVars K E × ρ → Option (Bool × GroupVars K E × ρ))
    (r : ρ) : Option (Bool × Coro Bool E × ρ) :=
  let p := pull (Pull seq)
  if !p.1.2 then some (true, stop p.2, r)
  else
    let g : GroupVars K E :=
      { co := p.2, val := p.1.1, ok := p.1.2, key := keyFunc p.1.1, advance := true }
    match GroupBy.loop keyFunc inner yield fuel (g, r) with
    | none => none
    | some (b, g, r) => some (b, stop g.co, r)

/-- How a consumer of `GroupBy` treats one group. -/
inductive GroupUse where
  | ignore : GroupUse
  | drain : GroupUse
  | upTo : Nat → GroupUse

/-- A consumer of `GroupBy` that records every key with the elements it takes
from the group, treats the `j`-th group as `use j` says (not calling the group
iterator, ranging over all of it, or breaking out of the range loop once it
holds `t` elements of that group, at least one), and never stops the outer
iteration. -/
def groupConsumer {K E : Type} (use : Nat → GroupUse) (key : K) (g : GroupIter K E (List E))
    (s : GroupVars K E × List (K × List E)) : Option (Bool × GroupVars K E × List (K × List E)) :=
  match use s.2.length with
  | GroupUse.ignore => some (true, s.1, s.2 ++ [(key, [])])
  | GroupUse.drain =>
    match g collectAll (s.1, []) with
    | none => none
    | some (_, vars, es) => some (true, vars, s.2 ++ [(key, es)])
  | GroupUse.upTo t =>
    match g (collectUpTo t) (s.1, []) with
    | none => none
    | some (_, vars, es) => some (true, vars, s.2 ++ [(key, es)])

/-! ## Tee -/

/-- The local type `chunk` of `Tee`.  `vals` is the array `[64]T`; `next` is
the pointer to the following chunk, an address in the heap of chunks. -/
structure chunk (T : Type) where
  size : Nat
  done : Bool
  vals : List T
  next : Option Nat

/-- The value `chunk{}`: all fields zero. -/
def chunk.zero {T : Type} [Inhabited T] : chunk T :=
  { size := 0, done := false, vals := List.replicate 64 default, next := none }

/-- The variables of one call of `Tee` shared by the closures it returns: the
pull adapter (`next`, `stop`), the chunks allocated so far (`head` is at
address 0) and `running`.  `nextCalls`, `fetched` and `stopCalls` are
bookkeeping that the code does not hold: the number of calls of `next()`, the
values those calls delivered, and the number of calls of `stop()`. -/
structure TeeVars (T : Type) where
  co : Coro Bool T
  heap : List (chunk T)
  running : Int
  nextCalls : Nat
  fetched : List T
  stopCalls : Nat

/-- The first statement of `nextFromChunk`, for a non-nil `c` at address `a`
holding `ch`:
`if i >= c.size && c.size >= len(c.vals) && !c.done {
   if c.next == nil { c.next = &chunk{} }; c = c.next; i = 0 }`.
The result is the heap with the new values of `c` and `i`. -/
def nextFromChunk.advance {T : Type} [Inhabited T] (s : TeeVars T) (a : Nat) (ch : chunk T)
    (i : Nat) : TeeVars T × Nat × Nat :=
  if i ≥ ch.size ∧ ch.size ≥ 64 ∧ ch.done = false then
    match ch.next with
    | none =>
      ({ s with heap := s.heap.set a { ch with next := some s.heap.length } ++ [chunk.zero] },
        s.heap.length, 0)
    | some b => (s, b, 0)
  else (s, a, i)

/-- The rest of `nextFromChunk`:
`if i >= c.size { if c.done { return zero, 0, nil, false };
   var ok bool; c.vals[c.size], ok = next();
   if !ok { c.done = true; return zero, 0, nil, false }; c.size++ };
 return c.vals[i], i + 1, c, true`. -/
def nextFromChunk.fetch {T : Type} [Inhabited T] (s : TeeVars T) (a : Nat) (i : Nat) :
    Option ((T × Nat × Option Nat × Bool) × TeeVars T) :=
  match s.heap.get? a with
  | none => none
  | some ch =>
    if i ≥ ch.size then
      if ch.done then some ((default, 0, none, false), s)
      else
        let p := pull s.co
        let s := { s with co := p.2, nextCalls := s.nextCalls + 1 }
        if ch.size < 64 then
          let ch := { ch with vals := ch.vals.set ch.size p.1.1 }
          if !p.1.2 then
            some ((default, 0, none, false),
              { s with heap := s.heap.set a { ch with done := true } })
          else
            let ch := { ch with size := ch.size + 1 }
            match ch.vals.get? i with
            | none => none
            | some v =>
              some ((v, i + 1, some a, true),
                { s with heap := s.heap.set a ch, fetched := s.fetched ++ [p.1.1] })
        else none
    else
      match ch.vals.get? i with
      | none => none
      | some v => some ((v, i + 1, some a, true), s)

/-- The closure `nextFromChunk`.  The result is `none` when the call panics
(a nil `c`, or an index outside the array `vals`). -/
def nextFromChunk {T : Type} [Inhabited T] (s : TeeVars T) (c : Option Nat) (i : Nat) :
    Option ((T × Nat × Option Nat × Bool) × TeeVars T) :=
  match c with
  | none => none
  | some a =>
    match s.heap.get? a with
    | none => none
    | some ch =>
      nextFromChunk.fetch (nextFromChunk.advance s a ch i).1
        (nextFromChunk.advance s a ch i).2.1 (nextFromChunk.advance s a ch i).2.2

/-- Where one of the closures returned by `Tee` stands: not yet invoked,
suspended in a call of `yield` (with its local `i`), or returned. -/
inductive Phase where
  | fresh : Phase
  | waiting : Nat → Phase
  | returned : Bool → Phase
deriving DecidableEq

/-- One of the closures `iters[nn]`: its captured variable `c`, where its single
invocation stands, and the values its `yield` has been called with. -/
structure Consumer (T : Type) where
  c : Option Nat
  phase : Phase
  out : List T

/-- A call of `Tee(seq, n)` in progress. -/
structure TeeState (T : Type) where
  vars : TeeVars T
  iters : List (Consumer T)

/-- The deferred function of a closure `iters[nn]`:
`running--; if running == 0 { stop() }`. -/
def teeDeferred {T : Type} [Inhabited T] (s : TeeVars T) : TeeVars T :=
  let s := { s with running := s.running - 1 }
  if s.running = 0 then { s with co := stop s.co, stopCalls := s.stopCalls + 1 } else s

/-- One pass of the loop of a closure `iters[nn]`, from the call of
`nextFromChunk` to the next call of `yield` or to the return. -/
def teeLoop {T : Type} [Inhabited T] (s : TeeVars T) (k : Consumer T) (i : Nat) :
    Option (TeeVars T × Consumer T) :=
  match nextFromChunk s k.c i with
  | none => none
  | some ((v, i, c, ok), s) =>
    if !ok then some (teeDeferred s, { k with c := c, phase := Phase.returned true })
    else some (s, { c := c, phase := Phase.waiting i, out := k.out ++ [v] })

/-- The caller lets the closure `iters[nn]` run up to its next call of `yield` or
to its return: a fresh closure is invoked, one suspended in `yield` gets `ans` as
the value of that call, one that has returned is not invoked again. -/
def teeResume {T : Type} [Inhabited T] (s : TeeVars T) (k : Consumer T) (ans : Bool) :
    Option (TeeVars T × Consumer T) :=
  match k.phase with
  | Phase.fresh => teeLoop s k 0
  | Phase.waiting i =>
    if !ans then some (teeDeferred s, { k with phase := Phase.returned false })
    else teeLoop s k i
  | Phase.returned _ => some (s, k)

/-- One step of a caller that interleaves the `n` closures: it lets `iters[nn]`
run; an index that names no closure does nothing. -/
def TeeState.step {T : Type} [Inhabited T] (st : TeeState T) (nn : Nat) (ans : Bool) :
    Option (TeeState T) :=
  match st.iters.get? nn with
  | none => some st
  | some k =>
    match teeResume st.vars k ans with
    | none => none
    | some (s, k) => some { vars := s, iters := st.iters.set nn k }

/-- Tee splits one iterator into n: the state right after `Tee(seq, n)` returns. -/
def Tee {T : Type} [Inhabited T] (seq : Iter T) (n : Nat) : TeeState T :=
  { vars := { co := Pull seq, heap := [chunk.zero], running := n,
              nextCalls := 0, fetched := [], stopCalls := 0 },
    iters := List.replicate n { c := some 0, phase := Phase.fresh, out := [] } }

/-- A caller's schedule: which closure runs next and what its pending `yield`
returns.  The state after the whole schedule, `none` after a panic. -/
def TeeState.run {T : Type} [Inhabited T] : TeeState T → List (Nat × Bool) → Option (TeeState T)
  | st, [] => some st
  | st, (nn, ans) :: rest =>
    match st.step nn ans with
    | none => none
    | some st => TeeState.run st rest

/-- The schedule of `TestTee`: rounds in which closure `i` is resumed `i + 1`
times, all of its `yield` calls returning true. -/
def roundRobin (n rounds : Nat) : List (Nat × Bool) :=
  (List.replicate rounds ((List.range n).flatMap (fun i => List.replicate (i + 1) (i, true)))).flatten

/-- The elements `Compress` is to yield: `d[i]` for the positions `i` that both
sequences have and at which the selector is true. -/
def selected {T : Type} (data : List T) (selectors : List Bool) : List T :=
  ((data.zip selectors).filter (fun p => p.2)).map (fun p => p.1)

/-! ### What `GroupBy` is to deliver -/

/-- The part of a group that a consumer treating it as `u` takes. -/
def GroupUse.taken {E : Type} (u : GroupUse) (g : List E) : List E :=
  match u with
  | GroupUse.ignore => []
  | GroupUse.drain => g
  | GroupUse.upTo t => g.take (max t 1)

/-- The maximal runs of consecutive elements with equal key, each paired with
its key and cut down to what a consumer treating the `j`-th run as `use j`
takes of it; `j` counts from `j0`. -/
def seenRuns {K E : Type} [DecidableEq K] (keyFunc : E → K) (use : Nat → GroupUse) :
    Nat → List E → List (K × List E)
  | _, [] => []
  | j0, x :: xs =>
    (keyFunc x, (use j0).taken (x :: xs.takeWhile (fun e => keyFunc e = keyFunc x)))
      :: seenRuns keyFunc use (j0 + 1) (xs.dropWhile (fun e => keyFunc e = keyFunc x))
termination_by _ xs => xs.length
decreasing_by
  simp only [List.length_cons]
  exact Nat.lt_succ_of_le (List.Sublist.length_le (List.dropWhile_sublist _))

/-- The keys of the maximal runs of consecutive elements with equal key. -/
def runKeys {K E : Type} [DecidableEq K] (keyFunc : E → K) : List E → List K
  | [] => []
  | [x] => [keyFunc x]
  | x :: y :: rest =>
    if keyFunc x = keyFunc y then runKeys keyFunc (y :: rest)
    else keyFunc x :: runKeys keyFunc (y :: rest)

/-- The shared variables `g2` stand at the end of the run that `g` is in, where
`rs` is what the adapter of `g` still has to deliver: either the source is
exhausted, or `val` is the first element with another key and `advance` has
been cleared. -/
def GroupDone {K E : Type} [DecidableEq K] [Inhabited E] (keyFunc : E → K) (key : K)
    (adv : Bool) (rs : List E) (g2 : GroupVars K E) : Prop :=
  g2.co.ZeroEnd ∧
  ((rs.dropWhile (fun e => keyFunc e = key) = [] ∧ g2.ok = false ∧ g2.co.rest = [] ∧
      g2.advance = adv ∧ g2.key = key) ∨
    (∃ w ws, rs.dropWhile (fun e => keyFunc e = key) = w :: ws ∧ g2.val = w ∧ g2.ok = true ∧
      g2.key = keyFunc w ∧ g2.advance = false ∧ g2.co.rest = ws))

/-- The shared variables `g1` stand inside the run that started with what the
adapter had still to deliver being `rs`: the key and `advance` are untouched
and the adapter is still within that run. -/
def GroupMid {K E : Type} [DecidableEq K] [Inhabited E] (keyFunc : E → K) (key : K)
    (adv : Bool) (rs : List E) (g1 : GroupVars K E) : Prop :=
  g1.co.ZeroEnd ∧ g1.key = key ∧ g1.advance = adv ∧
  g1.co.rest.dropWhile (fun e => keyFunc e = key) = rs.dropWhile (fun e => keyFunc e = key) ∧
  g1.co.rest.length ≤ rs.length

/-- A consumer that ignores the first group, breaks out of the second after one
element and ranges over all of every later group. -/
def mixedUse (j : Nat) : GroupUse :=
  if j = 0 then GroupUse.ignore else if j = 1 then GroupUse.upTo 1 else GroupUse.drain

/-! ### The invariant of a `Tee` in progress -/

/-- The chunk `ch` at address `a` of a heap of `len` chunks buffers its part of
the source `xs`: slot `t` holds element `64 * a + t`, a chunk with a successor
is full and not done, and the successor is the next address. -/
structure ChunkOk {T : Type} (xs : List T) (len a : Nat) (ch : chunk T) : Prop where
  vals_len : ch.vals.length = 64
  size_le : ch.size ≤ 64
  in_src : 64 * a + ch.size ≤ xs.length
  vals_eq : ∀ t, t < ch.size → ch.vals[t]? = xs[64 * a + t]?
  inner : a + 1 < len → ch.size = 64 ∧ ch.done = false ∧ ch.next = some (a + 1)
  last : a + 1 = len → ch.next = none

/-- The chunks buffer a prefix of the source `xs`, and the bookkeeping agrees
with the last chunk. -/
structure VarsOk {T : Type} (xs : List T) (s : TeeVars T) : Prop where
  nonempty : 0 < s.heap.length
  chunks : ∀ a ch, s.heap[a]? = some ch → ChunkOk xs s.heap.length a ch
  tail : ∀ a ch, s.heap[a]? = some ch → a + 1 = s.heap.length →
    s.fetched = xs.take (64 * a + ch.size) ∧
    s.nextCalls = 64 * a + ch.size + (if ch.done then 1 else 0) ∧
    (ch.done = true → 64 * a + ch.size = xs.length)

/-- The pull adapter has still to deliver what the chunks do not hold yet. -/
structure CoOk {T : Type} [Inhabited T] (xs : List T) (s : TeeVars T) : Prop where
  zeroEnd : s.co.ZeroEnd
  rest : ∀ a ch, s.heap[a]? = some ch → a + 1 = s.heap.length →
    s.co.rest = xs.drop (64 * a + ch.size)

/-- Every chunk of `s` is still there in `s2`, holding at least as much. -/
def HeapGrows {T : Type} (s s2 : TeeVars T) : Prop :=
  ∀ (b : Nat) (chb : chunk T), s.heap[b]? = some chb →
    ∃ chb2 : chunk T, s2.heap[b]? = some chb2 ∧ chb.size ≤ chb2.size

/-- The last chunk is marked done: the source is exhausted. -/
def Exhausted {T : Type} (s : TeeVars T) : Prop :=
  ∃ (a : Nat) (ch : chunk T), s.heap[a]? = some ch ∧ a + 1 = s.heap.length ∧ ch.done = true

/-- Whether the invocation of the closure has returned. -/
def Consumer.isReturned {T : Type} (k : Consumer T) : Bool :=
  match k.phase with
  | Phase.returned _ => true
  | _ => false

/-- What a closure `iters[nn]` has handed to its `yield` is the part of the
source `xs` before its cursor; one that returned at the end of the source has
handed over all of `xs`. -/
def ConsumerOk {T : Type} (xs : List T) (s : TeeVars T) (k : Consumer T) : Prop :=
  match k.phase with
  | Phase.fresh => k.c = some 0 ∧ k.out = []
  | Phase.waiting i =>
    ∃ (a : Nat) (ch : chunk T), k.c = some a ∧ s.heap[a]? = some ch ∧ i ≤ ch.size ∧
      k.out = xs.take (64 * a + i)
  | Phase.returned true => k.out = xs ∧ Exhausted s
  | Phase.returned false => ∃ j : Nat, k.out = xs.take j

/-- The invariant of a `Tee` over a source delivering `xs`. -/
structure TeeInv {T : Type} [Inhabited T] (xs : List T) (st : TeeState T) : Prop where
  vars : VarsOk xs st.vars
  co : st.iters.countP Consumer.isReturned < st.iters.length → CoOk xs st.vars
  consumers : ∀ (nn : Nat) (k : Consumer T), st.iters[nn]? = some k → ConsumerOk xs st.vars k
  running : st.vars.running = (st.iters.length : Int) - (st.iters.countP Consumer.isReturned : Int)
  stops : st.vars.stopCalls
    = if st.iters.countP Consumer.isReturned = st.iters.length ∧ 0 < st.iters.length then 1 else 0

/-- How often a schedule lets the closure `iters[nn]` run. -/
def resumes (nn : Nat) (sched : List (Nat × Bool)) : Nat :=
  (sched.map (fun e => e.1)).count nn

/-! ## Range-over-func loops and the combinators written with them -/

/-- One call of an iterator that may fail to return: the result is `none` when
a generator runs out of fuel before it returns, or when the run-time panics. -/
abbrev Gen (T : Type) := Co Bool T (Option Bool)

/-- A finite iterator as one that returns whatever the fuel. -/
def Iter.gen {T : Type} : Iter T → Gen T
  | Co.ret b => Co.ret (some b)
  | Co.yield v k => Co.yield v (fun b => Iter.gen (k b))

/-- The iterator returns as soon as its `yield` has returned `false`. -/
def Gen.Stops {T : Type} : Gen T → Prop
  | Co.ret _ => True
  | Co.yield _ k => (∃ b, k false = Co.ret (some b)) ∧ Gen.Stops (k true)

/-- The iterator returns when its `yield` always answers `true`: it is finite
and does not run out of fuel. -/
def Gen.Finite {T : Type} (seq : Gen T) : Prop := Co.result seq ≠ none

/-- The iterator `seq` cut off after `n` elements: asked for more, it never
returns. -/
def Gen.truncate {T : Type} : Nat → Gen T → Gen T
  | 0, _ => Co.ret none
  | _ + 1, Co.ret r => Co.ret r
  | n + 1, Co.yield v k => Co.yield v (fun b => if b then Gen.truncate n (k true) else k false)

/-- How the body of a `for ... range` loop, or the whole loop, ends: by reaching
the end of the body or `continue` (for a loop: by going on after the loop), by
`break`, by `return r` from the enclosing function, or not at all. -/
inductive Flow (σ R : Type) where
  | next : σ → Flow σ R
  | brk : σ → Flow σ R
  | ret : R → Flow σ R
  | stuck : Flow σ R

/-- The body of a `for ... range seq` loop has ended by `break` or `return`, so
the `yield` that `seq` called returns `false` and `seq` has to return; a `seq`
that calls `yield` again makes the run-time panic. -/
def leaveRange {T R0 σ R : Type} : Co Bool T (Option R0) → Flow σ R → Flow σ R
  | Co.ret (some _), f => f
  | Co.ret none, _ => Flow.stuck
  | Co.yield _ _, _ => Flow.stuck

/-- The loop `for v := range seq { body }` inside a function that yields values
of type `U`, has local variables `σ` and returns values of type `R`. -/
def forRange {T R0 U σ R : Type} :
    Co Bool T (Option R0) → (T → σ → Co Bool U (Flow σ R)) → σ → Co Bool U (Flow σ R)
  | Co.ret none, _, _ => Co.ret Flow.stuck
  | Co.ret (some _), _, s => Co.ret (Flow.next s)
  | Co.yield v k, body, s =>
    Co.bind (body v s) (fun f =>
      match f with
      | Flow.next s2 => forRange (k true) body s2
      | Flow.brk s2 => Co.ret (leaveRange (k false) (Flow.next s2))
      | Flow.ret r => Co.ret (leaveRange (k false) (Flow.ret r))
      | Flow.stuck => Co.ret Flow.stuck)

/-- The statement `return b` after a loop: the function returns `b` unless the
loop has returned already. -/
def endWith {U σ : Type} (b : Bool) : Flow σ Bool → Gen U
  | Flow.next _ => Co.ret (some b)
  | Flow.brk _ => Co.ret (some b)
  | Flow.ret r => Co.ret (some r)
  | Flow.stuck => Co.ret none

/-- The statement `if !yield(v) { return false }` at the end of a loop body. -/
def yieldOrReturn {U σ : Type} (v : U) (s : σ) : Co Bool U (Flow σ Bool) :=
  Co.yield v (fun b => if !b then Co.ret (Flow.ret false) else Co.ret (Flow.next s))

/-- Enumerate yields (0, p0), (1, p1), (2, p2), ...  The counter `i` is a Go
`int`; no run reaches the 2^63 elements after which it would wrap around, and
it is kept as an unbounded integer.  This is the loop and the final
`return true`, with `i` at a given value. -/
def Enumerate.loop {T : Type} (i : Int) (it : Gen T) : Gen (Int × T) :=
  Co.bind (forRange it (fun v (i : Int) => yieldOrReturn (i, v) (i + 1)) i) (endWith true)

/-- The same, from the declaration `i := 0` on. -/
def Enumerate {T : Type} (it : Gen T) : Gen (Int × T) := Enumerate.loop 0 it

/-- ChainFromIter yields every element produced by each input iterator. -/
def ChainFromIter {T : Type} (iters : Gen (Gen T)) : Gen T :=
  Co.bind
    (forRange iters (fun it (u : Unit) => forRange it (fun v (u : Unit) => yieldOrReturn v u) u) ())
    (endWith true)

/-- Chain yields every element in iters[0], followed by every element in iters[1], etc. -/
def Chain {T : Type} (iters : List (Gen T)) : Gen T :=
  ChainFromIter (Iter.gen (FromSlice iters))

/-- TakeWhile yields seq[0], seq[1], ..., until pred returns false. -/
def TakeWhile {T : Type} (seq : Gen T) (pred : T → Bool) : Gen T :=
  Co.bind
    (forRange seq (fun v (u : Unit) =>
      if !pred v then Co.ret (Flow.brk u) else yieldOrReturn v u) ())
    (endWith true)

/-- The result of a function that returns a bool, next to the state in which
the predicate it was given is left. -/
def endWithState {U π : Type} (b : Bool) : Flow (Bool × π) (Bool × π) → Co Bool U (Option (Bool × π))
  | Flow.next s => Co.ret (some (b, s.2))
  | Flow.brk s => Co.ret (some (b, s.2))
  | Flow.ret r => Co.ret (some r)
  | Flow.stuck => Co.ret none

/-- The loop body of `DropWhile`, with the local `ok` and the state of the
predicate as loop state:
`if !ok { if pred(v) { continue }; ok = true }; if !yield(v) { return false }`. -/
def DropWhile.body {T π : Type} (pred : T → π → Bool × π) (v : T) (s : Bool × π) :
    Co Bool T (Flow (Bool × π) (Bool × π)) :=
  if !s.1 then
    if (pred v s.2).1 then Co.ret (Flow.next (false, (pred v s.2).2))
    else
      Co.yield v (fun b =>
        if !b then Co.ret (Flow.ret (false, (pred v s.2).2))
        else Co.ret (Flow.next (true, (pred v s.2).2)))
  else
    Co.yield v (fun b =>
      if !b then Co.ret (Flow.ret (false, s.2)) else Co.ret (Flow.next s))

/-- DropWhile yields seq[n], seq[n+1], ..., starting when pred returns false.
The predicate is a Go closure; here it carries its own state `π`, so that its
calls can be observed. -/
def DropWhile {T π : Type} (seq : Gen T) (pred : T → π → Bool × π) (p0 : π) :
    Co Bool T (Option (Bool × π)) :=
  Co.bind (forRange seq (DropWhile.body pred) (false, p0)) (endWithState true)

/-- A predicate without effects of its own that records the elements it is
called with. -/
def recording {T : Type} (q : T → Bool) (v : T) (log : List T) : Bool × List T :=
  (q v, log ++ [v])

/-- The loop body of `Slice`:
`if i < start { continue }; if i >= end { break }; if !yield(v) { return false }`. -/
def Slice.body {T : Type} (start stopAt : Int) (p : Int × T) (u : Unit) :
    Co Bool T (Flow Unit Bool) :=
  if p.1 < start then Co.ret (Flow.next u)
  else if p.1 ≥ stopAt then Co.ret (Flow.brk u)
  else yieldOrReturn p.2 u

/-- Slice yields elements from [start,end). -/
def Slice {T : Type} (seq : Gen T) (start stopAt : Int) : Gen T :=
  Co.bind (forRange (Enumerate seq) (Slice.body start stopAt) ()) (endWith true)

/-- The loop body of `Accumulate`, with `acc` as loop state:
`if i == 0 { acc = v } else { acc = f(acc, v) }; if !yield(acc) { return false }`. -/
def Accumulate.body {T : Type} (f : T → T → T) (p : Int × T) (acc : T) :
    Co Bool T (Flow T Bool) :=
  yieldOrReturn (if p.1 = 0 then p.2 else f acc p.2) (if p.1 = 0 then p.2 else f acc p.2)

/-- Accumulate yields p0, f(p0, p1), f(f(p0, p1), p2), ... -/
def Accumulate {T : Type} [Inhabited T] (it : Gen T) (f : T → T → T) : Gen T :=
  Co.bind (forRange (Enumerate it) (Accumulate.body f) default) (endWith true)

/-- The loop body of `Pairwise`, with `first` and `last` as loop state:
`if !first && !yield(last, v) { return false }; first = false; last = v`. -/
def Pairwise.body {T : Type} (v : T) (s : Bool × T) : Co Bool (T × T) (Flow (Bool × T) Bool) :=
  if !s.1 then yieldOrReturn (s.2, v) (false, v) else Co.ret (Flow.next (false, v))

/-- Pairwise yields (p0, p1), (p1, p2), (p2, p3), ... -/
def Pairwise {T : Type} [Inhabited T] (seq : Gen T) : Gen (T × T) :=
  Co.bind (forRange seq Pairwise.body (true, default)) (endWith true)

/-- The left fold of `f` over a non-empty list seeded with its first element. -/
def prefixFold {T : Type} (f : T → T → T) : List T → Option T
  | [] => none
  | p0 :: ps => some (ps.foldl f p0)

/-- The running values of `acc` after a first value: `f(acc, p1)`,
`f(f(acc, p1), p2)`, ... -/
def accumulated {T : Type} (f : T → T → T) : T → List T → List T
  | _, [] => []
  | acc, v :: xs => f acc v :: accumulated f (f acc v) xs

/-- Two finite inputs of a chain, `[1, 2]` and `[3, 4]`. -/
def chainInputs : List (Iter Nat) := [FromSlice [1, 2], FromSlice [3, 4]]

/-- An input that never returns once it is ranged over. -/
def stuckInput : Gen Nat := Co.ret none

/-- A consumer of `GroupBy` that ranges over every group twice, to the end each
time, before it lets the outer iteration go on, and records the key with what
each of the two invocations of the group iterator handed over. -/
def groupTwice {K E : Type} (key : K) (g : GroupIter K E (List E))
    (s : GroupVars K E × List (K × List E × List E)) :
    Option (Bool × GroupVars K E × List (K × List E × List E)) :=
  match g collectAll (s.1, []) with
  | none => none
  | some (_, vars, es1) =>
    match g collectAll (vars, []) with
    | none => none
    | some (_, vars2, es2) => some (true, vars2, s.2 ++ [(key, es1, es2)])

/-- The elements buffered by the chain of chunks that starts at `c`, read by
following the `next` pointers: of every chunk the slots `vals[0 .. size)`.  The
fuel bounds the number of chunks visited. -/
def chunkChain {T : Type} (heap : List (chunk T)) : Nat → Option Nat → List T
  | 0, _ => []
  | _ + 1, none => []
  | fuel + 1, some a =>
    match heap.get? a with
    | none => []
    | some ch => ch.vals.take ch.size ++ chunkChain heap fuel ch.next

/-- Every chunk of `s` that is marked done is the same chunk in `s2`: same
size, same slots, same `next`. -/
def DoneKept {T : Type} (s s2 : TeeVars T) : Prop :=
  ∀ (b : Nat) (chb : chunk T), s.heap[b]? = some chb → chb.done = true → s2.heap[b]? = some chb

end Itertools


/-! # Properties -/

namespace Itertools

/-! ## Interaction trees -/

section CoLemmas

variable {O R R2 : Type}

theorem Co.elems_bind_ret (t : Co Bool O R) (r2 : R2) :
    Co.elems (Co.bind t (fun _ => Co.ret r2)) = Co.elems t := by
  induction t with
  | ret r => rfl
  | yield o k ih => simp [Co.bind, Co.elems, ih]

theorem Co.result_bind_ret (t : Co Bool O R) (r2 : R2) :
    Co.result (Co.bind t (fun _ => Co.ret r2)) = r2 := by
  induction t with
  | ret r => rfl
  | yield o k ih => simp [Co.bind, Co.result, ih]

theorem Co.wellBehaved_bind_ret (t : Co Bool O R) (r2 : R2) (h : Co.WellBehaved t) :
    Co.WellBehaved (Co.bind t (fun _ => Co.ret r2)) := by
  induction t with
  | ret r => simp [Co.bind, Co.WellBehaved]
  | yield o k ih =>
    obtain ⟨⟨r, hr⟩, hk⟩ := h
    refine ⟨⟨r2, ?_⟩, ih true hk⟩
    simp [hr, Co.bind]

theorem Co.drive_collectAll (t : Co Bool O R) (acc : List O) :
    Co.drive collectAll t acc = (Co.result t, acc ++ Co.elems t) := by
  induction t generalizing acc with
  | ret r => simp [Co.drive, Co.result, Co.elems]
  | yield o k ih => simp [Co.drive, Co.result, Co.elems, collectAll, ih]

theorem FromSlice_elems {T : Type} (xs : List T) : Co.elems (FromSlice xs) = xs := by
  induction xs with
  | nil => rfl
  | cons x xs ih => simp [FromSlice, Co.elems, ih]

theorem FromSlice_wellBehaved {T : Type} (xs : List T) : Co.WellBehaved (FromSlice xs) := by
  induction xs with
  | nil => simp [FromSlice, Co.WellBehaved]
  | cons x xs ih => exact ⟨⟨false, by simp⟩, by simpa using ih⟩

end CoLemmas

/-! ## The pull adapter -/

section PullLemmas

variable {V : Type} [Inhabited V]

theorem Pull_rest (S : Iter V) : (Pull S).rest = Co.elems S := by
  simp [Pull, Coro.New, Coro.rest, copush, Co.elems_bind_ret]

theorem Pull_zeroEnd (S : Iter V) : (Pull S).ZeroEnd := by
  simp [Pull, Coro.New, Coro.ZeroEnd, copush, Co.result_bind_ret]

theorem Pull_obedient (S : Iter V) (h : Co.WellBehaved S) : (Pull S).Obedient := by
  refine ⟨⟨default, ?_⟩, ?_⟩
  · simp [copush]
  · simpa [copush] using Co.wellBehaved_bind_ret S default h

theorem pull_dead : pull (Coro.dead : Coro Bool V) = ((default, false), Coro.dead) := rfl

theorem pull_nil (c : Coro Bool V) (hz : c.ZeroEnd) (hr : c.rest = []) :
    pull c = ((default, false), Coro.dead) := by
  cases c with
  | dead => rfl
  | live k =>
    simp only [Coro.rest] at hr
    simp only [Coro.ZeroEnd] at hz
    simp only [pull, Coro.resume]
    cases hk : k true with
    | ret o => rw [hk] at hz; simp [Co.result] at hz; simp [hz]
    | yield o k2 => rw [hk] at hr; simp [Co.elems] at hr

theorem pull_cons (c : Coro Bool V) (x : V) (xs : List V) (hr : c.rest = x :: xs) :
    (pull c).1 = (x, true) ∧ (pull c).2.rest = xs ∧ (c.ZeroEnd → (pull c).2.ZeroEnd) ∧
      (c.Obedient → (pull c).2.Obedient) := by
  cases c with
  | dead => simp [Coro.rest] at hr
  | live k =>
    simp only [Coro.rest] at hr
    simp only [pull, Coro.resume]
    cases hk : k true with
    | ret o => rw [hk] at hr; simp [Co.elems] at hr
    | yield o k2 =>
      rw [hk] at hr
      simp only [Co.elems, List.cons.injEq] at hr
      refine ⟨by simp [hr.1], by simp [Coro.rest, hr.2], ?_, ?_⟩
      · intro hz
        simpa [Coro.ZeroEnd, hk, Co.result] using hz
      · intro ho
        have := ho.2
        rw [hk] at this
        exact this

theorem pull_obedient (c : Coro Bool V) (h : c.Obedient) : (pull c).2.Obedient := by
  cases hr : c.rest with
  | nil =>
    cases c with
    | dead => exact h
    | live k =>
      simp only [Coro.rest] at hr
      simp only [pull, Coro.resume]
      cases hk : k true with
      | ret o => trivial
      | yield o k2 => rw [hk] at hr; simp [Co.elems] at hr
  | cons x xs => exact (pull_cons c x xs hr).2.2.2 h

theorem pulls_obedient (j : Nat) (c : Coro Bool V) (h : c.Obedient) :
    (pulls j c).2.Obedient := by
  induction j generalizing c with
  | zero => exact h
  | succ j ih => exact ih _ (pull_obedient c h)

theorem stop_of_obedient (c : Coro Bool V) (h : c.Obedient) : stop c = Coro.dead := by
  cases c with
  | dead => rfl
  | live k =>
    obtain ⟨⟨r, hr⟩, -⟩ := h
    simp [stop, Coro.resume, hr]

theorem stops_dead (k : Nat) : stops k (Coro.dead : Coro Bool V) = Coro.dead := by
  induction k with
  | zero => rfl
  | succ k ih => simpa [stops, stop, Coro.resume] using ih

theorem pulls_dead (m : Nat) :
    pulls m (Coro.dead : Coro Bool V) = (List.replicate m (default, false), Coro.dead) := by
  induction m with
  | zero => rfl
  | succ m ih => simp [pulls, pull_dead, ih, List.replicate_succ]

theorem pulls_of_rest (c : Coro Bool V) (hz : c.ZeroEnd) (xs : List V) (hr : c.rest = xs)
    (j : Nat) :
    (pulls (xs.length + j) c).1
      = xs.map (fun v => (v, true)) ++ List.replicate j (default, false) := by
  induction xs generalizing c with
  | nil =>
    cases j with
    | zero => rfl
    | succ j => simp [pulls, pull_nil c hz hr, pulls_dead, List.replicate_succ]
  | cons x xs ih =>
    obtain ⟨h1, h2, h3, -⟩ := pull_cons c x xs hr
    have := ih (pull c).2 (h3 hz) h2
    simp only [List.length_cons, Nat.add_right_comm xs.length 1 j, pulls, h1, this, List.map_cons,
      List.cons_append]

end PullLemmas

/-- C2 (pull/push equivalence).  Let `xs` be what a consumer that never stops
receives when it drives the push iterator `S` directly.  Then the first
`xs.length + j` calls of `next()` on `Pull(S)` return `(x, true)` for each `x`
of `xs` in order, followed by `j` times `(zero, false)`. -/
theorem pull_push_equivalence {V : Type} [Inhabited V] (S : Iter V) (j : Nat) :
    (pulls ((Co.drive collectAll S []).2.length + j) (Pull S)).1
      = (Co.drive collectAll S []).2.map (fun v => (v, true))
          ++ List.replicate j (default, false) := by
  have h := pulls_of_rest (Pull S) (Pull_zeroEnd S) (Co.elems S) (Pull_rest S) j
  simpa [Co.drive_collectAll] using h

/-- C3 (idempotent stop).  For a well-behaved push iterator `S`, at the point
reached by any number `j` of calls of `next()` on `Pull(S)`: `k ≥ 1` calls of
`stop()` leave the adapter exactly as one call does, after the first `stop()`
no resumption reaches the wrapped iterator any more (so it sees at most the one
`false` of that first call), and every later `next()` returns `(zero, false)`. -/
theorem stop_idempotent {V : Type} [Inhabited V] (S : Iter V) (hS : Co.WellBehaved S)
    (j k : Nat) (hk : 0 < k) :
    stops k (pulls j (Pull S)).2 = stop (pulls j (Pull S)).2 ∧
    (stop (pulls j (Pull S)).2).delivers = false ∧
    ∀ m, pulls m (stops k (pulls j (Pull S)).2)
      = (List.replicate m (default, false), stops k (pulls j (Pull S)).2) := by
  have hd : stop (pulls j (Pull S)).2 = Coro.dead :=
    stop_of_obedient _ (pulls_obedient j _ (Pull_obedient S hS))
  have hs : stops k (pulls j (Pull S)).2 = Coro.dead := by
    cases k with
    | zero => omega
    | succ k => simp [stops, hd, stops_dead]
  refine ⟨by rw [hs, hd], by rw [hd]; rfl, fun m => ?_⟩
  rw [hs]
  exact pulls_dead m

/-- C3 at a concrete adapter: two elements pulled out of three, then three
calls of `stop()`. -/
theorem stop_idempotent_witness :
    Co.WellBehaved (FromSlice [1, 2, 3]) ∧ 0 < 3 ∧
    (stops 3 (pulls 2 (Pull (FromSlice [1, 2, 3]))).2
        = stop (pulls 2 (Pull (FromSlice [1, 2, 3]))).2 ∧
      (stop (pulls 2 (Pull (FromSlice [1, 2, 3]))).2).delivers = false ∧
      ∀ m, pulls m (stops 3 (pulls 2 (Pull (FromSlice [1, 2, 3]))).2)
        = (List.replicate m (default, false), stops 3 (pulls 2 (Pull (FromSlice [1, 2, 3]))).2)) :=
  ⟨FromSlice_wellBehaved _, by decide,
    stop_idempotent (FromSlice [1, 2, 3]) (FromSlice_wellBehaved _) 2 3 (by decide)⟩

theorem Co.drive_bind {I O R R2 σ : Type} (y : O → σ → I × σ) (t : Co I O R)
    (f : R → Co I O R2) (s : σ) :
    Co.drive y (Co.bind t f) s = Co.drive y (f (Co.drive y t s).1) (Co.drive y t s).2 := by
  induction t generalizing s with
  | ret r => rfl
  | yield o k ih => simp [Co.bind, Co.drive, ih]

theorem pull_cons_eq {V : Type} [Inhabited V] (c : Coro Bool V) (x : V) (xs : List V)
    (hr : c.rest = x :: xs) :
    ∃ c2, pull c = ((x, true), c2) ∧ c2.rest = xs ∧ (c.ZeroEnd → c2.ZeroEnd) := by
  obtain ⟨h1, h2, h3, -⟩ := pull_cons c x xs hr
  exact ⟨(pull c).2, Prod.ext h1 rfl, h2, h3⟩

/-! ## CountBy and RepeatN -/

/-- C9 at a negative step: `CountBy(10, -1)` over `int`, ranged over by a loop
that breaks once it holds three elements, hands over `10` only and returns
`true` by itself, because `9 >= 10` fails. -/
theorem CountBy_negative_step_stops :
    Co.drive (collectUpTo 3) (CountBy IntType.int 10 (-1) 5) [] = (some true, [10]) := by
  decide

theorem RepeatN_drain {T : Type} (elem : T) (n extra : Nat) (acc : List T) :
    Co.drive collectAll (RepeatN.loop elem (n + 1 + extra) (n : Int)) acc
      = (some (true, 0), acc ++ List.replicate n elem) := by
  induction n generalizing acc with
  | zero => simp [RepeatN.loop, Co.drive, Nat.add_comm 1 extra]
  | succ n ih =>
    have h1 : n + 1 + 1 + extra = (n + 1 + extra) + 1 := by omega
    have h2 : ((n + 1 : Nat) : Int) > 0 := by omega
    have h3 : ((n + 1 : Nat) : Int) - 1 = (n : Int) := by omega
    rw [h1, RepeatN.loop, if_pos h2]
    simp only [Co.drive, collectAll, Bool.not_true, Bool.false_eq_true, if_false, h3, ih]
    simp [List.replicate_succ]

/-- C10, second invocation: after one closure returned by `RepeatN(7, 3)` has
been ranged over to its end (three elements), ranging over the same closure
again gives no element at all. -/
theorem RepeatN_second_invocation_empty :
    RepeatN.twice 7 10 3 collectAll collectAll = some ((true, [7, 7, 7]), (true, [])) := by
  decide

/-- The same for every count: the first full run of the closure leaves the
captured `n` at zero, so a second run delivers nothing. -/
theorem RepeatN_twice_drained {T : Type} (elem : T) (n extra : Nat) :
    RepeatN.twice elem (n + 1 + extra) (n : Int) collectAll collectAll
      = some ((true, List.replicate n elem), (true, [])) := by
  have h1 := RepeatN_drain elem n extra []
  have h2 := RepeatN_drain elem 0 (n + extra) []
  have h3 : 0 + 1 + (n + extra) = n + 1 + extra := by omega
  rw [h3] at h2
  simp only [RepeatN.twice, RepeatN]
  rw [h1]
  simp only [List.nil_append]
  simp only [Nat.cast_zero] at h2
  rw [h2]
  simp

/-! ## Compress -/

theorem selected_nil_left {T : Type} (ys : List Bool) : selected ([] : List T) ys = [] := by
  simp [selected]

theorem selected_nil_right {T : Type} (xs : List T) : selected xs [] = [] := by
  simp [selected]

theorem selected_cons {T : Type} (x : T) (xs : List T) (y : Bool) (ys : List Bool) :
    selected (x :: xs) (y :: ys) = if y then x :: selected xs ys else selected xs ys := by
  cases y <;> simp [selected]

theorem Compress.loop_drive {T : Type} [Inhabited T] (fuel : Nat) (cd : Coro Bool T)
    (cs : Coro Bool Bool) (hzd : cd.ZeroEnd) (hzs : cs.ZeroEnd) (acc : List T)
    (hf : min cd.rest.length cs.rest.length < fuel) :
    ∃ cd2 cs2, Co.drive collectAll (Compress.loop fuel cd cs) acc
      = (some (true, cd2, cs2), acc ++ selected cd.rest cs.rest) := by
  induction fuel generalizing cd cs acc with
  | zero => omega
  | succ fuel ih =>
    cases hd : cd.rest with
    | nil =>
      refine ⟨Coro.dead, cs, ?_⟩
      simp [Compress.loop, pull_nil cd hzd hd, Co.drive, selected_nil_left]
    | cons x xs =>
      obtain ⟨cd2, hp, hr2, hz2⟩ := pull_cons_eq cd x xs hd
      cases hs : cs.rest with
      | nil =>
        refine ⟨cd2, Coro.dead, ?_⟩
        simp [Compress.loop, hp, pull_nil cs hzs hs, Co.drive, selected_nil_right]
      | cons y ys =>
        obtain ⟨cs2, hq, hr3, hz3⟩ := pull_cons_eq cs y ys hs
        have hf2 : min cd2.rest.length cs2.rest.length < fuel := by
          rw [hd, hs] at hf
          rw [hr2, hr3]
          simp only [List.length_cons] at hf
          omega
        cases y with
        | false =>
          obtain ⟨a, b, hab⟩ := ih cd2 cs2 (hz2 hzd) (hz3 hzs) acc hf2
          refine ⟨a, b, ?_⟩
          simp [Compress.loop, hp, hq, hab, selected_cons, hr2, hr3]
        | true =>
          obtain ⟨a, b, hab⟩ := ih cd2 cs2 (hz2 hzd) (hz3 hzs) (acc ++ [x]) hf2
          refine ⟨a, b, ?_⟩
          simp [Compress.loop, hp, hq, Co.drive, collectAll, hab, selected_cons, hr2, hr3]

/-- C8 (Compress).  With enough fuel for the loop (more than the length of the
shorter input), a consumer that never stops `Compress(data, selectors)`
receives, in order, exactly the `data[i]` at the positions `i` present in both
inputs with `selectors[i]` true, and the iterator returns `true`. -/
theorem Compress_yields_selected {T : Type} [Inhabited T] (data : Iter T) (selectors : Iter Bool)
    (fuel : Nat) (hf : min (Co.elems data).length (Co.elems selectors).length < fuel) :
    ∃ cd cs, Co.drive collectAll (Compress data selectors fuel) []
      = (some (true, cd, cs), selected (Co.elems data) (Co.elems selectors)) := by
  have hf2 : min (Pull data).rest.length (Pull selectors).rest.length < fuel := by
    simpa [Pull_rest] using hf
  obtain ⟨a, b, hab⟩ := Compress.loop_drive fuel (Pull data) (Pull selectors)
    (Pull_zeroEnd data) (Pull_zeroEnd selectors) [] hf2
  refine ⟨stop a, stop b, ?_⟩
  simp [Compress, Co.drive_bind, hab, Co.drive, Pull_rest]

/-- C8 on the example of the tests: data A..F (as 1..6) and selectors
T,F,T,F,T,T give A, C, E, F. -/
theorem Compress_yields_selected_witness :
    min (Co.elems (FromSlice [1, 2, 3, 4, 5, 6])).length
        (Co.elems (FromSlice [true, false, true, false, true, true])).length < 7 ∧
    ∃ cd cs, Co.drive collectAll
        (Compress (FromSlice [1, 2, 3, 4, 5, 6])
          (FromSlice [true, false, true, false, true, true]) 7) []
      = (some (true, cd, cs),
          selected (Co.elems (FromSlice [1, 2, 3, 4, 5, 6]))
            (Co.elems (FromSlice [true, false, true, false, true, true]))) :=
  ⟨by decide, Compress_yields_selected _ _ 7 (by decide)⟩

/-! ## GroupBy -/

section GroupByLemmas

variable {K E ρ : Type} [DecidableEq K] [Inhabited E]

theorem groupIter_stop (keyFunc : E → K) (y : E → ρ → Bool × ρ) (fuel : Nat)
    (g : GroupVars K E) (r : ρ) (h : (y g.val r).1 = false) :
    groupIter keyFunc y (fuel + 1) (g, r) = some (false, g, (y g.val r).2) := by
  simp [groupIter, h]

theorem groupIter_end (keyFunc : E → K) (y : E → ρ → Bool × ρ) (fuel : Nat)
    (g : GroupVars K E) (r : ρ) (h : (y g.val r).1 = true) (hz : g.co.ZeroEnd)
    (hr : g.co.rest = []) :
    groupIter keyFunc y (fuel + 1) (g, r)
      = some (true, { g with co := Coro.dead, val := default, ok := false }, (y g.val r).2) := by
  simp [groupIter, h, pull_nil g.co hz hr]

theorem groupIter_change (keyFunc : E → K) (y : E → ρ → Bool × ρ) (fuel : Nat)
    (g : GroupVars K E) (r : ρ) (h : (y g.val r).1 = true) (w : E) (ws : List E)
    (hr : g.co.rest = w :: ws) (hk : keyFunc w ≠ g.key) :
    ∃ c2, c2.rest = ws ∧ (g.co.ZeroEnd → c2.ZeroEnd) ∧
      groupIter keyFunc y (fuel + 1) (g, r)
        = some (true, { co := c2, val := w, ok := true, key := keyFunc w, advance := false },
            (y g.val r).2) := by
  obtain ⟨c2, hp, hr2, hz2⟩ := pull_cons_eq g.co w ws hr
  exact ⟨c2, hr2, hz2, by simp [groupIter, h, hp, hk]⟩

theorem groupIter_same (keyFunc : E → K) (y : E → ρ → Bool × ρ) (fuel : Nat)
    (g : GroupVars K E) (r : ρ) (h : (y g.val r).1 = true) (w : E) (ws : List E)
    (hr : g.co.rest = w :: ws) (hk : keyFunc w = g.key) :
    ∃ c2, c2.rest = ws ∧ (g.co.ZeroEnd → c2.ZeroEnd) ∧
      groupIter keyFunc y (fuel + 1) (g, r)
        = groupIter keyFunc y fuel ({ g with co := c2, val := w, ok := true }, (y g.val r).2) := by
  obtain ⟨c2, hp, hr2, hz2⟩ := pull_cons_eq g.co w ws hr
  exact ⟨c2, hr2, hz2, by simp [groupIter, h, hp, hk]⟩

/-- A `yield` that never returns `false` makes `groupIter` walk to the end of the
run. -/
theorem groupIter_run (keyFunc : E → K) (y : E → ρ → Bool × ρ) (hy : ∀ v r, (y v r).1 = true)
    (fuel : Nat) (g : GroupVars K E) (r : ρ) (hz : g.co.ZeroEnd)
    (hf : g.co.rest.length < fuel) :
    ∃ g2, groupIter keyFunc y fuel (g, r)
        = some (true, g2,
            (g.val :: g.co.rest.takeWhile (fun e => keyFunc e = g.key)).foldl
              (fun r v => (y v r).2) r) ∧
      GroupDone keyFunc g.key g.advance g.co.rest g2 := by
  induction fuel generalizing g r with
  | zero => omega
  | succ fuel ih =>
    cases hr : g.co.rest with
    | nil =>
      refine ⟨_, by simpa using groupIter_end keyFunc y fuel g r (hy _ _) hz hr, ?_⟩
      exact ⟨trivial, Or.inl ⟨rfl, rfl, rfl, rfl, rfl⟩⟩
    | cons w ws =>
      by_cases hk : keyFunc w = g.key
      · obtain ⟨c2, hr2, hz2, he⟩ := groupIter_same keyFunc y fuel g r (hy _ _) w ws hr hk
        have hf2 : ({ g with co := c2, val := w, ok := true } : GroupVars K E).co.rest.length
            < fuel := by
          simp only [hr2]
          rw [hr] at hf
          simpa using hf
        obtain ⟨g2, h1, h2⟩ := ih { g with co := c2, val := w, ok := true } (y g.val r).2
          (hz2 hz) hf2
        refine ⟨g2, ?_, ?_⟩
        · rw [he, h1]
          simp [hr2, hk]
        · simpa [hr2, hk, GroupDone] using h2
      · obtain ⟨c2, hr2, hz2, he⟩ := groupIter_change keyFunc y fuel g r (hy _ _) w ws hr hk
        refine ⟨{ co := c2, val := w, ok := true, key := keyFunc w, advance := false }, ?_, ?_⟩
        · rw [he]
          simp [hk]
        · exact ⟨hz2 hz, Or.inr ⟨w, ws, by simp [hk], rfl, rfl, rfl, rfl, hr2⟩⟩

end GroupByLemmas

section GroupByUpTo

variable {K E : Type} [DecidableEq K] [Inhabited E]

/-- A consumer that breaks out of the group after `t` elements leaves
`groupIter` either at the end of the run or inside it. -/
theorem groupIter_upTo (keyFunc : E → K) (t fuel : Nat) (g : GroupVars K E) (acc : List E)
    (hz : g.co.ZeroEnd) (hf : g.co.rest.length < fuel) :
    ∃ b g1, groupIter keyFunc (collectUpTo t) fuel (g, acc)
        = some (b, g1,
            acc ++ (g.val :: g.co.rest.takeWhile (fun e => keyFunc e = g.key)).take
              (max (t - acc.length) 1)) ∧
      (GroupDone keyFunc g.key g.advance g.co.rest g1 ∨
        GroupMid keyFunc g.key g.advance g.co.rest g1) := by
  induction fuel generalizing g acc with
  | zero => omega
  | succ fuel ih =>
    by_cases h : acc.length + 1 < t
    · have hy : (collectUpTo t g.val acc).1 = true := by simp [collectUpTo, h]
      have hy2 : (collectUpTo t g.val acc).2 = acc ++ [g.val] := rfl
      obtain ⟨n, hn⟩ : ∃ n, t - acc.length = n + 2 := ⟨t - acc.length - 2, by omega⟩
      have hm : max (t - acc.length) 1 = n + 1 + 1 := by omega
      cases hr : g.co.rest with
      | nil =>
        refine ⟨true, { g with co := Coro.dead, val := default, ok := false }, ?_,
          Or.inl ⟨trivial, Or.inl ⟨rfl, rfl, rfl, rfl, rfl⟩⟩⟩
        rw [groupIter_end keyFunc _ fuel g acc hy hz hr, hy2, hm]
        simp
      | cons w ws =>
        by_cases hk : keyFunc w = g.key
        · obtain ⟨c2, hr2, hz2, he⟩ := groupIter_same keyFunc _ fuel g acc hy w ws hr hk
          have hf2 : ({ g with co := c2, val := w, ok := true } : GroupVars K E).co.rest.length
              < fuel := by
            simp only [hr2]
            rw [hr] at hf
            simpa using hf
          obtain ⟨b, g1, h1, h2⟩ := ih { g with co := c2, val := w, ok := true } (acc ++ [g.val])
            (hz2 hz) hf2
          have hm2 : max (t - (acc ++ [g.val]).length) 1 = n + 1 := by
            simp only [List.length_append, List.length_singleton]
            omega
          refine ⟨b, g1, ?_, ?_⟩
          · rw [he, hy2, h1, hm, hm2]
            simp [hr2, hk]
          · rcases h2 with h2 | h2
            · left
              simpa [hr2, hk, GroupDone] using h2
            · right
              obtain ⟨a1, a2, a3, a4, a5⟩ := h2
              refine ⟨a1, a2, a3, ?_, ?_⟩
              · simpa [hr2, hk] using a4
              · simp only [hr2] at a5
                simp only [List.length_cons]
                omega
        · obtain ⟨c2, hr2, hz2, he⟩ := groupIter_change keyFunc _ fuel g acc hy w ws hr hk
          refine ⟨true, { co := c2, val := w, ok := true, key := keyFunc w, advance := false },
            ?_, Or.inl ⟨hz2 hz, Or.inr ⟨w, ws, by simp [hk], rfl, rfl, rfl, rfl, hr2⟩⟩⟩
          rw [he, hy2, hm]
          simp [hk]
    · have hy : (collectUpTo t g.val acc).1 = false := by simp [collectUpTo, h]
      have hm : max (t - acc.length) 1 = 1 := by omega
      refine ⟨false, g, ?_, Or.inr ⟨hz, rfl, rfl, rfl, le_refl _⟩⟩
      rw [groupIter_stop keyFunc _ fuel g acc hy, hm]
      simp [collectUpTo]

end GroupByUpTo

theorem foldl_collectAll {E : Type} (xs acc : List E) :
    xs.foldl (fun r v => (collectAll v r).2) acc = acc ++ xs := by
  induction xs generalizing acc with
  | nil => simp
  | cons x xs ih =>
    simp only [List.foldl_cons]
    rw [ih]
    simp [collectAll]

section GroupByLoop

variable {K E : Type} [DecidableEq K] [Inhabited E]

/-- The internal `for range groupIter {}` brings the shared variables to the end
of the run, wherever the consumer left them. -/
theorem groupIter_forceDrain (keyFunc : E → K) (inner : Nat) (key : K) (rs : List E)
    (g1 : GroupVars K E)
    (h : GroupDone keyFunc key true rs g1 ∨ GroupMid keyFunc key true rs g1)
    (hin : rs.length < inner) (hadv : g1.advance = true) :
    ∃ g2 b u, groupIter keyFunc skipElem inner (g1, ()) = some (b, g2, u) ∧
      GroupDone keyFunc key true rs g2 := by
  rcases h with ⟨hz, h | h⟩ | ⟨hz, hk, ha, hd, hl⟩
  · obtain ⟨h1, h2, h3, h4, h5⟩ := h
    obtain ⟨g2, e, d⟩ := groupIter_run keyFunc skipElem (fun _ _ => rfl) inner g1 () hz
      (by rw [h3]; exact Nat.lt_of_le_of_lt (Nat.zero_le _) hin)
    refine ⟨g2, true, _, e, d.1, ?_⟩
    rw [h3, h4, h5] at d
    rcases d.2 with d2 | ⟨w, ws, d2, -⟩
    · exact Or.inl ⟨h1, d2.2.1, d2.2.2.1, d2.2.2.2.1, d2.2.2.2.2⟩
    · simp at d2
  · obtain ⟨w, ws, -, -, -, -, h5, -⟩ := h
    rw [hadv] at h5
    cases h5
  · obtain ⟨g2, e, d⟩ := groupIter_run keyFunc skipElem (fun _ _ => rfl) inner g1 () hz
      (by omega)
    refine ⟨g2, true, _, e, ?_⟩
    rw [hk, ha] at d
    simpa [GroupDone, hd] using d

/-- One pass of the outer loop of `GroupBy` with a recording consumer: the
consumer gets the key and its part of the run, and the loop goes on at the end
of the run. -/
theorem GroupBy.loop_pass (keyFunc : E → K) (use : Nat → GroupUse) (inner fuel : Nat)
    (g : GroupVars K E) (r : List (K × List E)) (hok : g.ok = true) (hz : g.co.ZeroEnd)
    (hin : g.co.rest.length < inner) :
    ∃ g2, GroupBy.loop keyFunc inner (groupConsumer use) (fuel + 1) (g, r)
        = GroupBy.loop keyFunc inner (groupConsumer use) fuel
            (g2, r ++ [(g.key, (use r.length).taken
              (g.val :: g.co.rest.takeWhile (fun e => keyFunc e = g.key)))]) ∧
      GroupDone keyFunc g.key true g.co.rest g2 := by
  cases hu : use r.length with
  | ignore =>
    obtain ⟨g2, b, u, e, d⟩ := groupIter_forceDrain keyFunc inner g.key g.co.rest
      { g with advance := true } (Or.inr ⟨hz, rfl, rfl, rfl, le_refl _⟩) hin rfl
    simp only [hok] at e
    refine ⟨g2, ?_, d⟩
    simp [GroupBy.loop, hok, groupConsumer, hu, e, GroupUse.taken]
  | drain =>
    obtain ⟨g1, e1, d1⟩ := groupIter_run keyFunc collectAll (fun _ _ => rfl) inner
      { g with advance := true } [] hz hin
    rw [foldl_collectAll] at e1
    simp only [List.nil_append, hok] at e1
    by_cases hadv : g1.advance = true
    · obtain ⟨g2, b, u, e, d⟩ := groupIter_forceDrain keyFunc inner g.key g.co.rest g1
        (Or.inl d1) hin hadv
      refine ⟨g2, ?_, d⟩
      simp [GroupBy.loop, hok, groupConsumer, hu, e1, hadv, e, GroupUse.taken]
    · refine ⟨g1, ?_, d1⟩
      simp [GroupBy.loop, hok, groupConsumer, hu, e1, hadv, GroupUse.taken]
  | upTo t =>
    obtain ⟨b1, g1, e1, d1⟩ := groupIter_upTo keyFunc t inner { g with advance := true } [] hz hin
    simp only [List.nil_append, List.length_nil, Nat.sub_zero, hok] at e1
    by_cases hadv : g1.advance = true
    · obtain ⟨g2, b, u, e, d⟩ := groupIter_forceDrain keyFunc inner g.key g.co.rest g1 d1 hin hadv
      refine ⟨g2, ?_, d⟩
      simp [GroupBy.loop, hok, groupConsumer, hu, e1, hadv, e, GroupUse.taken]
    · rcases d1 with d1 | ⟨-, -, ha, -, -⟩
      · refine ⟨g1, ?_, d1⟩
        simp [GroupBy.loop, hok, groupConsumer, hu, e1, hadv, GroupUse.taken]
      · exact absurd ha hadv

theorem GroupBy.loop_spec (keyFunc : E → K) (use : Nat → GroupUse) (inner fuel : Nat)
    (g : GroupVars K E) (r : List (K × List E)) (hok : g.ok = true) (hz : g.co.ZeroEnd)
    (hkey : g.key = keyFunc g.val) (hin : g.co.rest.length < inner)
    (hf : g.co.rest.length + 1 < fuel) :
    ∃ g2, GroupBy.loop keyFunc inner (groupConsumer use) fuel (g, r)
      = some (true, g2, r ++ seenRuns keyFunc use r.length (g.val :: g.co.rest)) := by
  induction fuel generalizing g r with
  | zero => omega
  | succ fuel ih =>
    obtain ⟨g2, e, hz2, d⟩ := GroupBy.loop_pass keyFunc use inner fuel g r hok hz hin
    have hlen : (g.co.rest.dropWhile (fun e => keyFunc e = g.key)).length ≤ g.co.rest.length :=
      List.Sublist.length_le (List.dropWhile_sublist _)
    rw [e, seenRuns, ← hkey]
    rcases d with ⟨h1, h2, -, -, -⟩ | ⟨w, ws, h1, h2, h3, h4, -, h6⟩
    · refine ⟨g2, ?_⟩
      obtain ⟨f, rfl⟩ : ∃ f, fuel = f + 1 := ⟨fuel - 1, by omega⟩
      simp [GroupBy.loop, h2, h1, seenRuns]
    · rw [h1] at hlen
      simp only [List.length_cons] at hlen
      obtain ⟨g3, e3⟩ := ih g2 (r ++ [(g.key, (use r.length).taken
        (g.val :: g.co.rest.takeWhile (fun e => keyFunc e = g.key)))]) h3 hz2
        (by rw [h4, h2]) (by rw [h6]; omega) (by rw [h6]; omega)
      refine ⟨g3, ?_⟩
      rw [e3, h1, h2, h6]
      simp

end GroupByLoop

theorem dropWhile_head_not {E : Type} (p : E → Bool) (xs : List E) (w : E) (ws : List E)
    (h : xs.dropWhile p = w :: ws) : p w = false := by
  induction xs with
  | nil => simp at h
  | cons x xs ih =>
    by_cases hx : p x = true
    · rw [List.dropWhile_cons_of_pos hx] at h
      exact ih h
    · rw [List.dropWhile_cons_of_neg hx] at h
      simp only [List.cons.injEq] at h
      rw [← h.1]
      simpa using hx

theorem runKeys_cons {K E : Type} [DecidableEq K] (keyFunc : E → K) (x : E) (xs : List E) :
    runKeys keyFunc (x :: xs)
      = keyFunc x :: runKeys keyFunc (xs.dropWhile (fun e => keyFunc e = keyFunc x)) := by
  induction xs generalizing x with
  | nil => simp [runKeys]
  | cons y ys ih =>
    by_cases h : keyFunc x = keyFunc y
    · have h2 : keyFunc y = keyFunc x := h.symm
      simp only [runKeys, h, if_true, ih y]
      simp [h2, List.dropWhile_cons]
    · have h2 : ¬ keyFunc y = keyFunc x := fun hc => h hc.symm
      simp [runKeys, h, h2, List.dropWhile_cons]

section SeenRuns

variable {K E : Type} [DecidableEq K]

theorem seenRuns_drain_props (keyFunc : E → K) (n : Nat) :
    ∀ (xs : List E) (j : Nat), xs.length ≤ n →
      (∀ p ∈ seenRuns keyFunc (fun _ => GroupUse.drain) j xs,
          p.2 ≠ [] ∧ ∀ e ∈ p.2, keyFunc e = p.1) ∧
      List.Chain' (fun p q => p.1 ≠ q.1) (seenRuns keyFunc (fun _ => GroupUse.drain) j xs) ∧
      ((seenRuns keyFunc (fun _ => GroupUse.drain) j xs).map (fun p => p.2)).flatten = xs ∧
      (∀ p ∈ (seenRuns keyFunc (fun _ => GroupUse.drain) j xs).head?,
          p.1 = (xs.head?.map keyFunc).getD p.1) := by
  induction n with
  | zero =>
    intro xs j hl
    have : xs = [] := List.eq_nil_of_length_eq_zero (Nat.le_zero.mp hl)
    subst this
    simp [seenRuns]
  | succ n ih =>
    intro xs j hl
    cases xs with
    | nil => simp [seenRuns]
    | cons x xs =>
      have hlen : (xs.dropWhile (fun e => keyFunc e = keyFunc x)).length ≤ n :=
        Nat.le_trans (List.Sublist.length_le (List.dropWhile_sublist _))
          (by simpa using hl)
      obtain ⟨h1, h2, h3, h4⟩ := ih (xs.dropWhile (fun e => keyFunc e = keyFunc x)) (j + 1) hlen
      rw [seenRuns]
      refine ⟨?_, ?_, ?_, ?_⟩
      · intro p hp
        rcases List.mem_cons.mp hp with hp | hp
        · subst hp
          refine ⟨by simp [GroupUse.taken], ?_⟩
          intro e he
          simp only [GroupUse.taken, List.mem_cons] at he
          rcases he with he | he
          · rw [he]
          · simpa using (List.mem_takeWhile_imp he)
        · exact h1 p hp
      · rw [List.chain'_cons']
        refine ⟨?_, h2⟩
        intro q hq
        have h5 := h4 q hq
        cases hd : xs.dropWhile (fun e => keyFunc e = keyFunc x) with
        | nil => rw [hd] at hq; simp [seenRuns] at hq
        | cons w ws =>
          have hw := dropWhile_head_not _ xs w ws hd
          rw [hd] at h5
          simp only [List.head?_cons, Option.map_some', Option.getD_some] at h5
          rw [h5]
          simp only [decide_eq_false_iff_not] at hw
          exact fun hc => hw hc.symm
      · simp only [List.map_cons, List.flatten_cons, h3, GroupUse.taken, List.cons_append,
          List.takeWhile_append_dropWhile]
      · simp

theorem seenRuns_keys (keyFunc : E → K) (use : Nat → GroupUse) (n : Nat) :
    ∀ (xs : List E) (j : Nat), xs.length ≤ n →
      (seenRuns keyFunc use j xs).map (fun p => p.1) = runKeys keyFunc xs := by
  induction n with
  | zero =>
    intro xs j hl
    have : xs = [] := List.eq_nil_of_length_eq_zero (Nat.le_zero.mp hl)
    subst this
    simp [seenRuns, runKeys]
  | succ n ih =>
    intro xs j hl
    cases xs with
    | nil => simp [seenRuns, runKeys]
    | cons x xs =>
      have hlen : (xs.dropWhile (fun e => keyFunc e = keyFunc x)).length ≤ n :=
        Nat.le_trans (List.Sublist.length_le (List.dropWhile_sublist _))
          (by simpa using hl)
      rw [seenRuns, runKeys_cons, List.map_cons, ih _ (j + 1) hlen]

end SeenRuns

section GroupByMain

variable {K E : Type} [DecidableEq K] [Inhabited E]

/-- What the recording consumer of `GroupBy` ends up with, for any treatment of
the groups: the runs of the source, each cut down to the part taken. -/
theorem GroupBy_seenRuns (S : Iter E) (keyFunc : E → K) (use : Nat → GroupUse)
    (fuel inner : Nat) (hf : (Co.elems S).length < fuel) (hin : (Co.elems S).length < inner) :
    ∃ co, GroupBy S keyFunc fuel inner (groupConsumer use) []
      = some (true, co, seenRuns keyFunc use 0 (Co.elems S)) := by
  cases hx : Co.elems S with
  | nil =>
    refine ⟨stop Coro.dead, ?_⟩
    have hr : (Pull S).rest = [] := by rw [Pull_rest, hx]
    simp [GroupBy, pull_nil (Pull S) (Pull_zeroEnd S) hr, seenRuns]
  | cons x xs =>
    have hr : (Pull S).rest = x :: xs := by rw [Pull_rest, hx]
    obtain ⟨c2, hp, hr2, hz2⟩ := pull_cons_eq (Pull S) x xs hr
    rw [hx] at hf hin
    simp only [List.length_cons] at hf hin
    obtain ⟨g2, e⟩ := GroupBy.loop_spec keyFunc use inner fuel
      { co := c2, val := x, ok := true, key := keyFunc x, advance := true } [] rfl
      (hz2 (Pull_zeroEnd S)) rfl (by simp only [hr2]; omega) (by simp only [hr2]; omega)
    refine ⟨stop g2.co, ?_⟩
    simp only [List.nil_append, List.length_nil, hr2] at e
    simp [GroupBy, hp, e]

/-- C6 (GroupBy grouping).  With enough fuel, a consumer that ranges over every
group to its end before going on receives pairs `(key, group)` in which every
group is non-empty and holds only elements of that key, adjacent pairs have
different keys, and the groups concatenated are the source sequence; for the
empty source it receives no pair.  `GroupBy` itself returns `true`. -/
theorem GroupBy_groups (S : Iter E) (keyFunc : E → K) (fuel inner : Nat)
    (hf : (Co.elems S).length < fuel) (hin : (Co.elems S).length < inner) :
    ∃ co out, GroupBy S keyFunc fuel inner (groupConsumer (fun _ => GroupUse.drain)) []
        = some (true, co, out) ∧
      (∀ p ∈ out, p.2 ≠ [] ∧ ∀ e ∈ p.2, keyFunc e = p.1) ∧
      List.Chain' (fun p q => p.1 ≠ q.1) out ∧
      (out.map (fun p => p.2)).flatten = Co.elems S ∧
      (Co.elems S = [] → out = []) := by
  obtain ⟨co, e⟩ := GroupBy_seenRuns S keyFunc (fun _ => GroupUse.drain) fuel inner hf hin
  obtain ⟨h1, h2, h3, -⟩ := seenRuns_drain_props keyFunc (Co.elems S).length (Co.elems S) 0
    (le_refl _)
  refine ⟨co, _, e, h1, h2, h3, ?_⟩
  intro h
  rw [h]
  simp [seenRuns]

/-- C7 (GroupBy force-drain).  With enough fuel, whatever the consumer does
with each group (never calls its iterator, breaks out of it after some
elements, or ranges over all of it), the keys it is handed are the keys of the
maximal equal-key runs of the source in order, and what it took of each group
is the beginning of the corresponding run. -/
theorem GroupBy_keys_any_use (S : Iter E) (keyFunc : E → K) (use : Nat → GroupUse)
    (fuel inner : Nat) (hf : (Co.elems S).length < fuel) (hin : (Co.elems S).length < inner) :
    ∃ co out, GroupBy S keyFunc fuel inner (groupConsumer use) [] = some (true, co, out) ∧
      out.map (fun p => p.1) = runKeys keyFunc (Co.elems S) ∧
      out = seenRuns keyFunc use 0 (Co.elems S) := by
  obtain ⟨co, e⟩ := GroupBy_seenRuns S keyFunc use fuel inner hf hin
  exact ⟨co, _, e, seenRuns_keys keyFunc use _ _ 0 (le_refl _), rfl⟩

end GroupByMain

/-- C6 on the example of the tests, `AAAABBBCCDAABBB` written with numbers. -/
theorem GroupBy_groups_witness :
    (Co.elems (FromSlice [1, 1, 1, 1, 2, 2, 2, 3, 3, 4, 1, 1, 2, 2, 2])).length < 16 ∧
    (Co.elems (FromSlice [1, 1, 1, 1, 2, 2, 2, 3, 3, 4, 1, 1, 2, 2, 2])).length < 16 ∧
    ∃ co out, GroupBy (FromSlice [1, 1, 1, 1, 2, 2, 2, 3, 3, 4, 1, 1, 2, 2, 2]) (fun e => e) 16 16
        (groupConsumer (fun _ => GroupUse.drain)) [] = some (true, co, out) ∧
      (∀ p ∈ out, p.2 ≠ [] ∧ ∀ e ∈ p.2, (fun e => e) e = p.1) ∧
      List.Chain' (fun p q => p.1 ≠ q.1) out ∧
      (out.map (fun p => p.2)).flatten
        = Co.elems (FromSlice [1, 1, 1, 1, 2, 2, 2, 3, 3, 4, 1, 1, 2, 2, 2]) ∧
      (Co.elems (FromSlice [1, 1, 1, 1, 2, 2, 2, 3, 3, 4, 1, 1, 2, 2, 2]) = [] → out = []) :=
  ⟨by decide, by decide,
    GroupBy_groups (FromSlice [1, 1, 1, 1, 2, 2, 2, 3, 3, 4, 1, 1, 2, 2, 2]) (fun e => e) 16 16
      (by decide) (by decide)⟩

/-- C7 on the example of the tests with a consumer that treats the groups in
three different ways. -/
theorem GroupBy_keys_any_use_witness :
    (Co.elems (FromSlice [1, 1, 1, 1, 2, 2, 2, 3, 3, 4, 1, 1, 2, 2, 2])).length < 16 ∧
    (Co.elems (FromSlice [1, 1, 1, 1, 2, 2, 2, 3, 3, 4, 1, 1, 2, 2, 2])).length < 16 ∧
    ∃ co out, GroupBy (FromSlice [1, 1, 1, 1, 2, 2, 2, 3, 3, 4, 1, 1, 2, 2, 2]) (fun e => e) 16 16
        (groupConsumer mixedUse) [] = some (true, co, out) ∧
      out.map (fun p => p.1)
        = runKeys (fun e => e) (Co.elems (FromSlice [1, 1, 1, 1, 2, 2, 2, 3, 3, 4, 1, 1, 2, 2, 2])) ∧
      out = seenRuns (fun e => e) mixedUse 0
        (Co.elems (FromSlice [1, 1, 1, 1, 2, 2, 2, 3, 3, 4, 1, 1, 2, 2, 2])) :=
  ⟨by decide, by decide,
    GroupBy_keys_any_use (FromSlice [1, 1, 1, 1, 2, 2, 2, 3, 3, 4, 1, 1, 2, 2, 2]) (fun e => e)
      mixedUse 16 16 (by decide) (by decide)⟩

/-! ## Tee -/

section HeapLemmas

variable {T : Type}

theorem heap_alloc_get (H : List (chunk T)) (a : Nat) (c1 z : chunk T) (ha : a < H.length)
    (b : Nat) :
    (H.set a c1 ++ [z])[b]?
      = if b = a then some c1 else if b = H.length then some z else H[b]? := by
  rw [List.getElem?_append, List.length_set, List.getElem?_set]
  by_cases h1 : b = a
  · subst h1
    simp [ha]
  · have h2 : ¬ a = b := fun h => h1 h.symm
    by_cases h3 : b < H.length
    · have h4 : b ≠ H.length := by omega
      simp [h1, h2, h3, h4]
    · by_cases h4 : b = H.length
      · have h5 : ¬ H.length = a := by omega
        simp [h4, h5]
      · have h5 : H.length ≤ b := by omega
        have h6 : 1 ≤ b - H.length := by omega
        simp [h1, h3, h4, List.getElem?_eq_none h5, h6]

theorem heap_lt_of_get (H : List (chunk T)) (a : Nat) (ch : chunk T) (h : H[a]? = some ch) :
    a < H.length := by
  obtain ⟨h1, -⟩ := List.getElem?_eq_some.mp h
  exact h1

theorem heap_set_get (H : List (chunk T)) (a : Nat) (c1 : chunk T) (ha : a < H.length)
    (b : Nat) : (H.set a c1)[b]? = if b = a then some c1 else H[b]? := by
  rw [List.getElem?_set]
  by_cases h1 : b = a
  · subst h1
    simp [ha]
  · have h2 : ¬ a = b := fun h => h1 h.symm
    simp [h1, h2]

end HeapLemmas

section TeeAdvance

variable {T : Type} [Inhabited T]

/-- The first statement of `nextFromChunk` keeps the invariant, pulls nothing,
and leaves the cursor at the same position of the source, on a chunk where the
rest of the body needs no further chunk. -/
theorem nextFromChunk.advance_spec (xs : List T) (s : TeeVars T) (hv : VarsOk xs s)
    (hc : CoOk xs s) (a : Nat) (ch : chunk T) (i : Nat) (ha : s.heap[a]? = some ch)
    (hi : i ≤ ch.size) :
    VarsOk xs (nextFromChunk.advance s a ch i).1 ∧
    CoOk xs (nextFromChunk.advance s a ch i).1 ∧
    HeapGrows s (nextFromChunk.advance s a ch i).1 ∧
    (nextFromChunk.advance s a ch i).1.co = s.co ∧
    (nextFromChunk.advance s a ch i).1.fetched = s.fetched ∧
    (nextFromChunk.advance s a ch i).1.nextCalls = s.nextCalls ∧
    (nextFromChunk.advance s a ch i).1.running = s.running ∧
    (nextFromChunk.advance s a ch i).1.stopCalls = s.stopCalls ∧
    (Exhausted s → Exhausted (nextFromChunk.advance s a ch i).1) ∧
    ∃ ch2, (nextFromChunk.advance s a ch i).1.heap[(nextFromChunk.advance s a ch i).2.1]?
        = some ch2 ∧
      (nextFromChunk.advance s a ch i).2.2 ≤ ch2.size ∧
      64 * (nextFromChunk.advance s a ch i).2.1 + (nextFromChunk.advance s a ch i).2.2
        = 64 * a + i ∧
      ((nextFromChunk.advance s a ch i).2.2 < ch2.size ∨ ch2.size < 64 ∨ ch2.done = true) := by
  have hcok := hv.chunks a ch ha
  have halt := heap_lt_of_get _ _ _ ha
  by_cases hcond : i ≥ ch.size ∧ ch.size ≥ 64 ∧ ch.done = false
  · obtain ⟨h1, h2, h3⟩ := hcond
    have hsz : ch.size = 64 := Nat.le_antisymm hcok.size_le h2
    have hi64 : i = 64 := by omega
    cases hn : ch.next with
    | none =>
      have hlast : a + 1 = s.heap.length := by
        by_contra hne
        have := (hcok.inner (by omega)).2.2
        rw [hn] at this
        cases this
      have hadv : nextFromChunk.advance s a ch i
          = ({ s with heap := s.heap.set a { ch with next := some s.heap.length } ++ [chunk.zero] },
              s.heap.length, 0) := by
        simp [nextFromChunk.advance, h1, h2, h3, hn]
      rw [hadv]
      have hget := heap_alloc_get s.heap a { ch with next := some s.heap.length } chunk.zero halt
      have hne : ¬ s.heap.length = a := by omega
      have hgL := hget s.heap.length
      simp only [hne, if_false, if_true] at hgL
      have htail := hv.tail a ch ha hlast
      refine ⟨⟨by simp, ?_, ?_⟩, ⟨hc.zeroEnd, ?_⟩, ?_, rfl, rfl, rfl, rfl, rfl, ?_, ?_⟩
      · intro b chb hb
        simp only [hget] at hb
        simp only [List.length_append, List.length_set, List.length_singleton]
        by_cases hba : b = a
        · simp only [hba, if_true, Option.some.injEq] at hb
          subst hb
          subst hba
          exact ⟨hcok.vals_len, hcok.size_le, hcok.in_src, hcok.vals_eq,
            fun _ => ⟨hsz, h3, by simp [hlast]⟩, fun h => by omega⟩
        · by_cases hbl : b = s.heap.length
          · subst hbl
            simp only [hba, if_false, if_true, Option.some.injEq] at hb
            subst hb
            refine ⟨by simp [chunk.zero], by simp [chunk.zero], ?_, ?_, fun h => by omega,
              fun _ => rfl⟩
            · have := hcok.in_src
              simp only [chunk.zero]
              omega
            · intro t ht
              simp [chunk.zero] at ht
          · simp only [hba, hbl, if_false] at hb
            have hold := hv.chunks b chb hb
            have hblt := heap_lt_of_get _ _ _ hb
            exact ⟨hold.vals_len, hold.size_le, hold.in_src, hold.vals_eq,
              fun _ => hold.inner (by omega), fun h => by omega⟩
      · intro b chb hb hbl
        simp only [List.length_append, List.length_set, List.length_singleton] at hbl
        have hbl2 : b = s.heap.length := by omega
        subst hbl2
        rw [hgL] at hb
        simp only [Option.some.injEq] at hb
        subst hb
        simp only [chunk.zero, Nat.add_zero, Bool.false_eq_true, if_false]
        refine ⟨?_, ?_, fun h => by cases h⟩
        · rw [htail.1, hsz, ← hlast, Nat.mul_add]
        · rw [htail.2.1, hsz, h3, ← hlast]
          simp [Nat.mul_add]
      · intro b chb hb hbl
        simp only [List.length_append, List.length_set, List.length_singleton] at hbl
        have hbl2 : b = s.heap.length := by omega
        subst hbl2
        rw [hgL] at hb
        simp only [Option.some.injEq] at hb
        subst hb
        simp only [chunk.zero, Nat.add_zero]
        rw [hc.rest a ch ha hlast, hsz, ← hlast, Nat.mul_add]
      · intro b chb hb
        have hblt := heap_lt_of_get _ _ _ hb
        simp only [hget]
        by_cases hba : b = a
        · subst hba
          rw [ha] at hb
          simp only [Option.some.injEq] at hb
          subst hb
          exact ⟨{ ch with next := some s.heap.length }, by simp, le_refl _⟩
        · have hbl : ¬ b = s.heap.length := by omega
          exact ⟨chb, by simp [hba, hbl, hb], le_refl _⟩
      · rintro ⟨b, chb, hb, hbl, hbd⟩
        have : b = a := by omega
        subst this
        rw [ha] at hb
        simp only [Option.some.injEq] at hb
        subst hb
        rw [h3] at hbd
        cases hbd
      · refine ⟨chunk.zero, hgL, by simp [chunk.zero], ?_,
          Or.inr (Or.inl (by simp [chunk.zero]))⟩
        show 64 * s.heap.length + 0 = 64 * a + i
        omega
    | some b =>
      have hinner : a + 1 < s.heap.length := by
        by_contra hne
        have := hcok.last (by omega)
        rw [hn] at this
        cases this
      have hb : b = a + 1 := by
        have := (hcok.inner hinner).2.2
        rw [hn] at this
        simpa using this
      subst hb
      have hadv : nextFromChunk.advance s a ch i = (s, a + 1, 0) := by
        simp [nextFromChunk.advance, h1, h2, h3, hn]
      rw [hadv]
      refine ⟨hv, hc, fun b chb hb => ⟨chb, hb, le_refl _⟩, rfl, rfl, rfl, rfl, rfl, id, ?_⟩
      refine ⟨s.heap[a + 1], List.getElem?_eq_getElem hinner, Nat.zero_le _, ?_, ?_⟩
      · show 64 * (a + 1) + 0 = 64 * a + i
        omega
      by_cases h0 : 0 < (s.heap[a + 1]).size
      · exact Or.inl h0
      · exact Or.inr (Or.inl (by omega))
  · have hadv : nextFromChunk.advance s a ch i = (s, a, i) := by
      simp only [nextFromChunk.advance, if_neg hcond]
    rw [hadv]
    refine ⟨hv, hc, fun b chb hb => ⟨chb, hb, le_refl _⟩, rfl, rfl, rfl, rfl, rfl, id, ch, ha,
      hi, rfl, ?_⟩
    by_cases h1 : i < ch.size
    · exact Or.inl h1
    · by_cases h2 : ch.size < 64
      · exact Or.inr (Or.inl h2)
      · right; right
        by_contra h3
        exact hcond ⟨by omega, by omega, by simpa using h3⟩

end TeeAdvance

section TeeFetch

variable {T : Type} [Inhabited T]

theorem drop_eq_cons_facts {α : Type} (xs : List α) (p : Nat) (x : α) (r : List α)
    (h : xs.drop p = x :: r) :
    xs[p]? = some x ∧ xs.drop (p + 1) = r ∧ p < xs.length ∧ xs.take (p + 1) = xs.take p ++ [x] := by
  have h1 : xs[p]? = some x := by
    rw [← List.head?_drop, h]
    rfl
  have h2 : xs.drop (p + 1) = r := by
    rw [← List.drop_drop 1 p xs, h]
    rfl
  have h3 : p < xs.length := (List.getElem?_eq_some.mp h1).1
  exact ⟨h1, h2, h3, by rw [List.take_succ, h1]; rfl⟩

/-- The rest of the body of `nextFromChunk` keeps the invariant; it either
hands out the element at the cursor, pulling it when no closure has done so
yet, or finds the source exhausted exactly at the cursor. -/
theorem nextFromChunk.fetch_spec (xs : List T) (s : TeeVars T) (hv : VarsOk xs s)
    (hc : CoOk xs s) (a : Nat) (ch : chunk T) (i : Nat) (ha : s.heap[a]? = some ch)
    (hi : i ≤ ch.size) (hcase : i < ch.size ∨ ch.size < 64 ∨ ch.done = true) :
    ∃ res s2, nextFromChunk.fetch s a i = some (res, s2) ∧ VarsOk xs s2 ∧ CoOk xs s2 ∧
      HeapGrows s s2 ∧ s2.running = s.running ∧ s2.stopCalls = s.stopCalls ∧
      (Exhausted s → Exhausted s2) ∧ (i < ch.size → s2 = s) ∧
      ((∃ v ch2, res = (v, i + 1, some a, true) ∧ s2.heap[a]? = some ch2 ∧ i + 1 ≤ ch2.size ∧
          xs[64 * a + i]? = some v) ∨
        (res = (default, 0, none, false) ∧ 64 * a + i = xs.length ∧ Exhausted s2)) := by
  have hcok := hv.chunks a ch ha
  have halt := heap_lt_of_get _ _ _ ha
  have hga : s.heap.get? a = some ch := by simpa using ha
  by_cases h1 : i < ch.size
  · obtain ⟨v, hvv⟩ : ∃ v, xs[64 * a + i]? = some v :=
      ⟨_, List.getElem?_eq_getElem (by have := hcok.in_src; omega)⟩
    have hval : ch.vals.get? i = some v := by
      rw [List.get?_eq_getElem?, hcok.vals_eq i h1, hvv]
    refine ⟨(v, i + 1, some a, true), s, ?_, hv, hc, fun b chb hb => ⟨chb, hb, le_refl _⟩, rfl,
      rfl, id, fun _ => rfl, Or.inl ⟨v, ch, rfl, ha, h1, hvv⟩⟩
    have h2 : ¬ i ≥ ch.size := by omega
    simp only [nextFromChunk.fetch, hga, if_neg h2, hval]
  · have hieq : i = ch.size := by omega
    have h2 : i ≥ ch.size := by omega
    by_cases hd : ch.done = true
    · have hlast : a + 1 = s.heap.length := by
        by_contra hne
        have := (hcok.inner (by omega)).2.1
        rw [hd] at this
        cases this
      have hex : Exhausted s := ⟨a, ch, ha, hlast, hd⟩
      refine ⟨(default, 0, none, false), s, ?_, hv, hc, fun b chb hb => ⟨chb, hb, le_refl _⟩,
        rfl, rfl, id, fun _ => rfl, Or.inr ⟨rfl, ?_, hex⟩⟩
      · simp only [nextFromChunk.fetch, hga, if_pos h2, hd, if_true]
      · rw [hieq]
        exact (hv.tail a ch ha hlast).2.2 hd
    · have hdf : ch.done = false := by simpa using hd
      have hlt : ch.size < 64 := by
        rcases hcase with h | h | h
        · exact absurd h h1
        · exact h
        · exact absurd h hd
      have hlast : a + 1 = s.heap.length := by
        by_contra hne
        have := (hcok.inner (by omega)).1
        omega
      have hrest := hc.rest a ch ha hlast
      have htail := hv.tail a ch ha hlast
      cases hr : s.co.rest with
      | nil =>
        have hpull := pull_nil s.co hc.zeroEnd hr
        have hlen : 64 * a + ch.size = xs.length := by
          rw [hr] at hrest
          have := List.drop_eq_nil_iff.mp hrest.symm
          have := hcok.in_src
          omega
        have hget := heap_set_get s.heap a
          { ch with vals := ch.vals.set ch.size default, done := true } halt
        have hex : Exhausted
            { s with co := Coro.dead, nextCalls := s.nextCalls + 1,
                     heap := s.heap.set a
                       { ch with vals := ch.vals.set ch.size default, done := true } } :=
          ⟨a, { ch with vals := ch.vals.set ch.size default, done := true },
            by simp [hget], by simpa using hlast, rfl⟩
        refine ⟨(default, 0, none, false),
          { s with co := Coro.dead, nextCalls := s.nextCalls + 1,
                   heap := s.heap.set a
                     { ch with vals := ch.vals.set ch.size default, done := true } },
          ?_, ⟨by simpa using hv.nonempty, ?_, ?_⟩, ⟨trivial, ?_⟩, ?_, rfl, rfl, fun _ => hex,
          fun h => absurd h h1, Or.inr ⟨rfl, by rw [hieq]; exact hlen, hex⟩⟩
        · simp [nextFromChunk.fetch, ha, h2, hdf, hpull, hlt]
        · intro b chb hb
          simp only [hget] at hb
          simp only [List.length_set]
          by_cases hba : b = a
          · simp only [hba, if_true, Option.some.injEq] at hb
            subst hb
            subst hba
            refine ⟨by simpa using hcok.vals_len, hcok.size_le, hcok.in_src, ?_,
              fun h => by omega, hcok.last⟩
            intro t ht
            have ht2 : t < ch.size := ht
            have hne : ¬ ch.size = t := by omega
            simp only [List.getElem?_set, hne, if_false]
            exact hcok.vals_eq t ht2
          · simp only [hba, if_false] at hb
            exact hv.chunks b chb hb
        · intro b chb hb hbl
          simp only [List.length_set] at hbl
          have hba : b = a := by omega
          subst hba
          simp only [hget, if_true, Option.some.injEq] at hb
          subst hb
          refine ⟨htail.1, ?_, fun _ => hlen⟩
          simp only [if_true]
          rw [htail.2.1, hdf]
          simp
        · intro b chb hb hbl
          simp only [List.length_set] at hbl
          have hba : b = a := by omega
          subst hba
          simp only [hget, if_true, Option.some.injEq] at hb
          subst hb
          simp only [Coro.rest]
          rw [hlen]
          simp
        · intro b chb hb
          simp only [hget]
          by_cases hba : b = a
          · subst hba
            rw [ha] at hb
            simp only [Option.some.injEq] at hb
            subst hb
            exact ⟨{ ch with vals := ch.vals.set ch.size default, done := true }, by simp,
              le_refl _⟩
          · exact ⟨chb, by simp [hba, hb], le_refl _⟩
      | cons x r =>
        obtain ⟨c2, hpull, hr2, hz2⟩ := pull_cons_eq s.co x r hr
        rw [hr] at hrest
        obtain ⟨hx1, hx2, hx3, hx4⟩ := drop_eq_cons_facts xs _ x r hrest.symm
        have hget := heap_set_get s.heap a
          { ch with vals := ch.vals.set ch.size x, size := ch.size + 1 } halt
        have hvl : ch.size < ch.vals.length := by rw [hcok.vals_len]; exact hlt
        refine ⟨(x, i + 1, some a, true),
          { s with co := c2, nextCalls := s.nextCalls + 1,
                   heap := s.heap.set a
                     { ch with vals := ch.vals.set ch.size x, size := ch.size + 1 },
                   fetched := s.fetched ++ [x] },
          ?_, ⟨by simpa using hv.nonempty, ?_, ?_⟩, ⟨hz2 hc.zeroEnd, ?_⟩, ?_, rfl, rfl, ?_,
          fun h => absurd h h1,
          Or.inl ⟨x, { ch with vals := ch.vals.set ch.size x, size := ch.size + 1 }, rfl,
            by simp [hget], by simp [hieq], by rw [hieq]; exact hx1⟩⟩
        · have hrd : (ch.vals.set ch.size x)[i]? = some x := by
            rw [hieq, List.getElem?_set_self hvl]
          simp [nextFromChunk.fetch, ha, h2, hdf, hpull, hlt, hrd]
        · intro b chb hb
          simp only [hget] at hb
          simp only [List.length_set]
          by_cases hba : b = a
          · simp only [hba, if_true, Option.some.injEq] at hb
            subst hb
            subst hba
            refine ⟨by simpa using hcok.vals_len, Nat.succ_le_of_lt hlt, Nat.succ_le_of_lt hx3, ?_,
              fun h => by omega, hcok.last⟩
            intro t ht
            have ht2 : t < ch.size + 1 := ht
            by_cases hts : t = ch.size
            · subst hts
              simp only [List.getElem?_set_self hvl]
              exact hx1.symm
            · have hne : ¬ ch.size = t := fun h => hts h.symm
              simp only [List.getElem?_set, hne, if_false]
              exact hcok.vals_eq t (by omega)
          · simp only [hba, if_false] at hb
            exact hv.chunks b chb hb
        · intro b chb hb hbl
          simp only [List.length_set] at hbl
          have hba : b = a := by omega
          subst hba
          simp only [hget, if_true, Option.some.injEq] at hb
          subst hb
          refine ⟨?_, ?_, fun h => by rw [hdf] at h; cases h⟩
          · simp only
            rw [htail.1, ← Nat.add_assoc, hx4]
          · simp only
            rw [htail.2.1, hdf]
            simp
            omega
        · intro b chb hb hbl
          simp only [List.length_set] at hbl
          have hba : b = a := by omega
          subst hba
          simp only [hget, if_true, Option.some.injEq] at hb
          subst hb
          simp only
          rw [hr2, ← Nat.add_assoc, hx2]
        · intro b chb hb
          simp only [hget]
          by_cases hba : b = a
          · subst hba
            rw [ha] at hb
            simp only [Option.some.injEq] at hb
            subst hb
            exact ⟨{ ch with vals := ch.vals.set ch.size x, size := ch.size + 1 }, by simp,
              Nat.le_succ _⟩
          · exact ⟨chb, by simp [hba, hb], le_refl _⟩
        · rintro ⟨b, chb, hb, hbl, hbd⟩
          have : b = a := by omega
          subst this
          rw [ha] at hb
          simp only [Option.some.injEq] at hb
          subst hb
          rw [hdf] at hbd
          cases hbd

end TeeFetch

theorem VarsOk.fetched_length {T : Type} {xs : List T} {s : TeeVars T} (hv : VarsOk xs s) (a : Nat)
    (ch : chunk T) (ha : s.heap[a]? = some ch) (hl : a + 1 = s.heap.length) :
    s.fetched.length = 64 * a + ch.size := by
  rw [(hv.tail a ch ha hl).1, List.length_take]
  exact Nat.min_eq_left (hv.chunks a ch ha).in_src

section TeeNext

variable {T : Type} [Inhabited T]

theorem nextFromChunk.advance_fetched (xs : List T) (s : TeeVars T) (hv : VarsOk xs s) (a : Nat)
    (ch : chunk T) (i : Nat) (ha : s.heap[a]? = some ch)
    (hlt : 64 * a + i < s.fetched.length) : (nextFromChunk.advance s a ch i).1 = s := by
  have hcok := hv.chunks a ch ha
  have halt := heap_lt_of_get _ _ _ ha
  by_cases hcond : i ≥ ch.size ∧ ch.size ≥ 64 ∧ ch.done = false
  · cases hn : ch.next with
    | none =>
      have hlast : a + 1 = s.heap.length := by
        by_contra hne
        have := (hcok.inner (by omega)).2.2
        rw [hn] at this
        cases this
      have := hv.fetched_length a ch ha hlast
      omega
    | some b => simp [nextFromChunk.advance, hcond, hn]
  · simp only [nextFromChunk.advance, if_neg hcond]

/-- The closure `nextFromChunk`, called at a cursor of a closure that has not
returned: it does not panic, keeps the invariant, and either hands out the
element of the source at the cursor or reports the end of the source. -/
theorem nextFromChunk_spec (xs : List T) (s : TeeVars T) (hv : VarsOk xs s) (hc : CoOk xs s)
    (a : Nat) (ch : chunk T) (i : Nat) (ha : s.heap[a]? = some ch) (hi : i ≤ ch.size) :
    ∃ res s2, nextFromChunk s (some a) i = some (res, s2) ∧ VarsOk xs s2 ∧ CoOk xs s2 ∧
      HeapGrows s s2 ∧ s2.running = s.running ∧ s2.stopCalls = s.stopCalls ∧
      (Exhausted s → Exhausted s2) ∧ (64 * a + i < s.fetched.length → s2 = s) ∧
      ((∃ v a2 i2 ch2, res = (v, i2 + 1, some a2, true) ∧ s2.heap[a2]? = some ch2 ∧
          i2 + 1 ≤ ch2.size ∧ 64 * a2 + i2 = 64 * a + i ∧ xs[64 * a + i]? = some v) ∨
        (res = (default, 0, none, false) ∧ 64 * a + i = xs.length ∧ Exhausted s2)) := by
  obtain ⟨hv1, hc1, hg1, hco1, hf1, hn1, hr1, hs1, he1, ch1, hch1, hi1, hpos1, hcase1⟩ :=
    nextFromChunk.advance_spec xs s hv hc a ch i ha hi
  obtain ⟨res, s2, e2, hv2, hc2, hg2, hr2, hs2, he2, hsame2, hres2⟩ :=
    nextFromChunk.fetch_spec xs _ hv1 hc1 _ ch1 _ hch1 hi1 hcase1
  have hga : s.heap.get? a = some ch := by simpa using ha
  refine ⟨res, s2, ?_, hv2, hc2, ?_, by rw [hr2, hr1], by rw [hs2, hs1],
    fun h => he2 (he1 h), ?_, ?_⟩
  · simp only [nextFromChunk, hga, e2]
  · intro b chb hb
    obtain ⟨c1, h1, h2⟩ := hg1 b chb hb
    obtain ⟨c2, h3, h4⟩ := hg2 b c1 h1
    exact ⟨c2, h3, Nat.le_trans h2 h4⟩
  · intro hlt
    have hadv := nextFromChunk.advance_fetched xs s hv a ch i ha hlt
    have hlt1 : (nextFromChunk.advance s a ch i).2.2 < ch1.size := by
      by_contra hnot
      have hcok1 := hv1.chunks _ ch1 hch1
      have hlast : (nextFromChunk.advance s a ch i).2.1 + 1
          = (nextFromChunk.advance s a ch i).1.heap.length := by
        by_contra hne
        have hlt2 := heap_lt_of_get _ _ _ hch1
        have hin := hcok1.inner (by omega)
        rcases hcase1 with h | h | h
        · exact hnot h
        · omega
        · rw [hin.2.1] at h
          cases h
      have hfl := hv1.fetched_length _ ch1 hch1 hlast
      rw [hf1] at hfl
      omega
    rw [hsame2 hlt1, hadv]
  · rcases hres2 with ⟨v, ch2, h1, h2, h3, h4⟩ | ⟨h1, h2, h3⟩
    · exact Or.inl ⟨v, _, _, ch2, h1, h2, h3, hpos1, by rw [← hpos1]; exact h4⟩
    · exact Or.inr ⟨h1, by rw [← hpos1]; exact h2, h3⟩

end TeeNext

section TeeResume

variable {T : Type} [Inhabited T]

theorem teeDeferred_heap (s : TeeVars T) : (teeDeferred s).heap = s.heap := by
  unfold teeDeferred
  simp only
  split <;> rfl

theorem teeDeferred_fetched (s : TeeVars T) :
    (teeDeferred s).fetched = s.fetched ∧ (teeDeferred s).nextCalls = s.nextCalls := by
  unfold teeDeferred
  simp only
  split <;> exact ⟨rfl, rfl⟩

theorem teeDeferred_counts (s : TeeVars T) :
    (teeDeferred s).running = s.running - 1 ∧
    (teeDeferred s).stopCalls = s.stopCalls + (if s.running - 1 = 0 then 1 else 0) ∧
    (s.running - 1 ≠ 0 → (teeDeferred s).co = s.co) := by
  unfold teeDeferred
  simp only
  by_cases h : s.running - 1 = 0
  · simp [h]
  · simp [h]

theorem teeDeferred_varsOk (xs : List T) (s : TeeVars T) (hv : VarsOk xs s) :
    VarsOk xs (teeDeferred s) := by
  obtain ⟨hf, hn⟩ := teeDeferred_fetched s
  refine ⟨by rw [teeDeferred_heap]; exact hv.nonempty, ?_, ?_⟩
  · intro a ch ha
    rw [teeDeferred_heap] at ha ⊢
    exact hv.chunks a ch ha
  · intro a ch ha hl
    rw [teeDeferred_heap] at ha hl
    rw [hf, hn]
    exact hv.tail a ch ha hl

theorem teeDeferred_coOk (xs : List T) (s : TeeVars T) (hc : CoOk xs s)
    (h : s.running - 1 ≠ 0) : CoOk xs (teeDeferred s) := by
  have hco := (teeDeferred_counts s).2.2 h
  refine ⟨by rw [hco]; exact hc.zeroEnd, ?_⟩
  intro a ch ha hl
  rw [teeDeferred_heap] at ha hl
  rw [hco]
  exact hc.rest a ch ha hl

theorem teeDeferred_exhausted (s : TeeVars T) (h : Exhausted s) : Exhausted (teeDeferred s) := by
  obtain ⟨a, ch, h1, h2, h3⟩ := h
  exact ⟨a, ch, by rw [teeDeferred_heap]; exact h1, by rw [teeDeferred_heap]; exact h2, h3⟩

theorem teeDeferred_grows (s : TeeVars T) : HeapGrows s (teeDeferred s) := by
  intro b chb hb
  exact ⟨chb, by rw [teeDeferred_heap]; exact hb, le_refl _⟩

/-- One pass of the loop of a closure, started at a cursor that satisfies the
invariant. -/
theorem teeLoop_spec (xs : List T) (s : TeeVars T) (hv : VarsOk xs s) (hc : CoOk xs s)
    (k : Consumer T) (a : Nat) (ch : chunk T) (i : Nat) (hkc : k.c = some a)
    (ha : s.heap[a]? = some ch) (hi : i ≤ ch.size) (hout : k.out = xs.take (64 * a + i)) :
    ∃ s2 k2, teeLoop s k i = some (s2, k2) ∧ VarsOk xs s2 ∧ HeapGrows s s2 ∧
      (Exhausted s → Exhausted s2) ∧ ConsumerOk xs s2 k2 ∧
      (k.out.length < s.fetched.length → s2 = s) ∧
      ((k2.isReturned = false ∧ CoOk xs s2 ∧ s2.running = s.running ∧
          s2.stopCalls = s.stopCalls ∧ (∃ j, k2.phase = Phase.waiting j) ∧
          k2.out.length = k.out.length + 1) ∨
        (k2.phase = Phase.returned true ∧ s2.running = s.running - 1 ∧
          s2.stopCalls = s.stopCalls + (if s.running - 1 = 0 then 1 else 0) ∧
          (s.running - 1 ≠ 0 → CoOk xs s2))) := by
  obtain ⟨res, s1, e1, hv1, hc1, hg1, hr1, hs1, he1, hsame1, hres1⟩ :=
    nextFromChunk_spec xs s hv hc a ch i ha hi
  have hlen : k.out.length = 64 * a + i := by
    rw [hout, List.length_take]
    have := (hv.chunks a ch ha).in_src
    omega
  rcases hres1 with ⟨v, a2, i2, ch2, h1, h2, h3, h4, h5⟩ | ⟨h1, h2, h3⟩
  · refine ⟨s1, { c := some a2, phase := Phase.waiting (i2 + 1), out := k.out ++ [v] }, ?_, hv1,
      hg1, he1, ?_, ?_, Or.inl ⟨rfl, hc1, hr1, hs1, ⟨_, rfl⟩, by simp⟩⟩
    · simp [teeLoop, hkc, e1, h1]
    · refine ⟨a2, ch2, rfl, h2, h3, ?_⟩
      show k.out ++ [v] = xs.take (64 * a2 + (i2 + 1))
      rw [hout, ← Nat.add_assoc, h4, List.take_succ, h5]
      rfl
    · intro hlt
      exact hsame1 (by omega)
  · obtain ⟨d1, d2, d3⟩ := teeDeferred_counts s1
    refine ⟨teeDeferred s1, { k with c := none, phase := Phase.returned true }, ?_,
      teeDeferred_varsOk xs s1 hv1, ?_, fun h => teeDeferred_exhausted _ (he1 h), ?_, ?_,
      Or.inr ⟨rfl, by rw [d1, hr1], by rw [d2, hs1, hr1], ?_⟩⟩
    · simp [teeLoop, hkc, e1, h1]
    · intro b chb hb
      obtain ⟨c1, g1, g2⟩ := hg1 b chb hb
      exact ⟨c1, by rw [teeDeferred_heap]; exact g1, g2⟩
    · refine ⟨?_, teeDeferred_exhausted _ h3⟩
      show k.out = xs
      rw [hout, h2]
      exact List.take_length xs
    · intro hlt
      have hfl : s.fetched.length ≤ xs.length := by
        obtain ⟨l, hl⟩ : ∃ l, l + 1 = s.heap.length := ⟨s.heap.length - 1, by
          have := hv.nonempty
          omega⟩
        have hlg : s.heap[l]? = some s.heap[l] := List.getElem?_eq_getElem (by omega)
        rw [(hv.tail l _ hlg hl).1, List.length_take]
        exact Nat.min_le_right _ _
      omega
    · intro hne
      rw [← hr1] at hne
      exact teeDeferred_coOk xs s1 hc1 hne

end TeeResume

section TeeCounting

variable {T : Type}

theorem ConsumerOk.mono (xs : List T) (s s2 : TeeVars T) (k : Consumer T) (hg : HeapGrows s s2)
    (he : Exhausted s → Exhausted s2) (hk : ConsumerOk xs s k) : ConsumerOk xs s2 k := by
  cases hp : k.phase with
  | fresh =>
    simp only [ConsumerOk, hp] at hk ⊢
    exact hk
  | waiting i =>
    simp only [ConsumerOk, hp] at hk ⊢
    obtain ⟨a, ch, hkc, ha, hi, hout⟩ := hk
    obtain ⟨ch2, h1, h2⟩ := hg a ch ha
    exact ⟨a, ch2, hkc, h1, Nat.le_trans hi h2, hout⟩
  | returned b =>
    cases b with
    | true =>
      simp only [ConsumerOk, hp] at hk ⊢
      exact ⟨hk.1, he hk.2⟩
    | false =>
      simp only [ConsumerOk, hp] at hk ⊢
      exact hk

theorem countP_lt_of_get (l : List (Consumer T)) (nn : Nat) (k : Consumer T)
    (h : l[nn]? = some k) (hnr : k.isReturned = false) :
    l.countP Consumer.isReturned < l.length := by
  obtain ⟨hlt, hget⟩ := List.getElem?_eq_some.mp h
  have h1 := List.countP_set Consumer.isReturned l nn
    { k with phase := Phase.returned true } hlt
  have h2 := List.countP_le_length Consumer.isReturned
    (l := l.set nn { k with phase := Phase.returned true })
  rw [h1, hget, hnr, List.length_set] at h2
  simp [Consumer.isReturned] at h2
  omega

theorem countP_set_of_get (l : List (Consumer T)) (nn : Nat) (k k2 : Consumer T)
    (h : l[nn]? = some k) (hnr : k.isReturned = false) :
    (l.set nn k2).countP Consumer.isReturned
      = l.countP Consumer.isReturned + (if k2.isReturned = true then 1 else 0) := by
  obtain ⟨hlt, hget⟩ := List.getElem?_eq_some.mp h
  rw [List.countP_set Consumer.isReturned l nn k2 hlt, hget, hnr]
  simp

theorem set_of_get {α : Type} (l : List α) (nn : Nat) (k : α) (h : l[nn]? = some k) :
    l.set nn k = l := by
  obtain ⟨hlt, -⟩ := List.getElem?_eq_some.mp h
  apply List.ext_getElem?
  intro j
  rw [List.getElem?_set]
  by_cases hj : nn = j
  · subst hj
    simp [h, hlt]
  · simp [hj]

end TeeCounting

section TeeStep

variable {T : Type} [Inhabited T]

/-- Letting a closure that has not returned run keeps the invariant of the
shared variables and of the closure. -/
theorem teeResume_spec (xs : List T) (s : TeeVars T) (hv : VarsOk xs s) (hc : CoOk xs s)
    (k : Consumer T) (hk : ConsumerOk xs s k) (hnr : k.isReturned = false) (ans : Bool) :
    ∃ s2 k2, teeResume s k ans = some (s2, k2) ∧ VarsOk xs s2 ∧ HeapGrows s s2 ∧
      (Exhausted s → Exhausted s2) ∧ ConsumerOk xs s2 k2 ∧
      (ans = true → k.out.length < s.fetched.length → s2 = s) ∧
      ((k2.isReturned = false ∧ CoOk xs s2 ∧ s2.running = s.running ∧
          s2.stopCalls = s.stopCalls ∧ (∃ j, k2.phase = Phase.waiting j) ∧
          k2.out.length = k.out.length + 1) ∨
        (∃ b, k2.phase = Phase.returned b ∧ (b = false → ans = false) ∧
          s2.running = s.running - 1 ∧
          s2.stopCalls = s.stopCalls + (if s.running - 1 = 0 then 1 else 0) ∧
          (s.running - 1 ≠ 0 → CoOk xs s2))) := by
  cases hp : k.phase with
  | fresh =>
    simp only [ConsumerOk, hp] at hk
    obtain ⟨ch0, h0⟩ : ∃ ch0, s.heap[0]? = some ch0 :=
      ⟨_, List.getElem?_eq_getElem hv.nonempty⟩
    obtain ⟨s2, k2, e, h1, h2, h3, h4, h5, h6⟩ := teeLoop_spec xs s hv hc k 0 ch0 0 hk.1 h0
      (Nat.zero_le _) (by rw [hk.2]; simp)
    refine ⟨s2, k2, by simp only [teeResume, hp, e], h1, h2, h3, h4, fun _ => h5, ?_⟩
    rcases h6 with h6 | h6
    · exact Or.inl h6
    · exact Or.inr ⟨true, h6.1, fun h => Bool.noConfusion h, h6.2⟩
  | waiting i =>
    simp only [ConsumerOk, hp] at hk
    obtain ⟨a, ch, hkc, ha, hi, hout⟩ := hk
    cases ans with
    | true =>
      obtain ⟨s2, k2, e, h1, h2, h3, h4, h5, h6⟩ := teeLoop_spec xs s hv hc k a ch i hkc ha hi hout
      refine ⟨s2, k2, by simp [teeResume, hp, e], h1, h2, h3, h4, fun _ => h5, ?_⟩
      rcases h6 with h6 | h6
      · exact Or.inl h6
      · exact Or.inr ⟨true, h6.1, fun h => Bool.noConfusion h, h6.2⟩
    | false =>
      obtain ⟨d1, d2, d3⟩ := teeDeferred_counts s
      refine ⟨teeDeferred s, { k with phase := Phase.returned false }, by simp [teeResume, hp],
        teeDeferred_varsOk xs s hv, teeDeferred_grows s, teeDeferred_exhausted s, ?_,
        fun h => Bool.noConfusion h, Or.inr ⟨false, rfl, fun _ => rfl, d1, d2,
          fun h => teeDeferred_coOk xs s hc h⟩⟩
      exact ⟨64 * a + i, hout⟩
  | returned b =>
    simp [Consumer.isReturned, hp] at hnr

end TeeStep

section TeeStateStep

variable {T : Type} [Inhabited T]

/-- Every step of a caller keeps the invariant and does not panic.  The closure
that ran either was done already (nothing changes), or it received one more
element, or it returned. -/
theorem TeeState.step_spec (xs : List T) (st : TeeState T) (hinv : TeeInv xs st) (nn : Nat)
    (ans : Bool) :
    ∃ st2, st.step nn ans = some st2 ∧ TeeInv xs st2 ∧ st2.iters.length = st.iters.length ∧
      (∀ m, m ≠ nn → st2.iters[m]? = st.iters[m]?) ∧
      (st.iters[nn]? = none → st2 = st) ∧
      (∀ k, st.iters[nn]? = some k → ∃ k2, st2.iters[nn]? = some k2 ∧
        ((k.isReturned = true ∧ k2 = k ∧ st2 = st) ∨
          (k.isReturned = false ∧
            (((∃ j, k2.phase = Phase.waiting j) ∧ k2.out.length = k.out.length + 1) ∨
              (∃ b, k2.phase = Phase.returned b ∧ (b = false → ans = false)))))) ∧
      (∀ k, st.iters[nn]? = some k → ans = true → k.out.length < st.vars.fetched.length →
        st2.vars = st.vars) := by
  cases hget : st.iters[nn]? with
  | none =>
    refine ⟨st, ?_, hinv, rfl, fun _ _ => rfl, fun _ => rfl, ?_, ?_⟩
    · simp [TeeState.step, hget]
    · intro k hk
      cases hk
    · intro k hk
      cases hk
  | some k =>
    have hlt : nn < st.iters.length := (List.getElem?_eq_some.mp hget).1
    by_cases hret : k.isReturned = true
    · have hres : teeResume st.vars k ans = some (st.vars, k) := by
        cases hp : k.phase with
        | fresh => simp [Consumer.isReturned, hp] at hret
        | waiting i => simp [Consumer.isReturned, hp] at hret
        | returned b => simp [teeResume, hp]
      have hst : ({ vars := st.vars, iters := st.iters.set nn k } : TeeState T) = st := by
        rw [set_of_get st.iters nn k hget]
      refine ⟨st, ?_, hinv, rfl, fun _ _ => rfl, (fun h => by cases h), ?_, fun _ _ _ _ => rfl⟩
      · simp [TeeState.step, hget, hres, hst]
      · intro k1 hk1
        simp only [Option.some.injEq] at hk1
        subst hk1
        exact ⟨k, hget, Or.inl ⟨hret, rfl, rfl⟩⟩
    · have hnr : k.isReturned = false := by simpa using hret
      have hcnt := countP_lt_of_get st.iters nn k hget hnr
      obtain ⟨s2, k2, e, hv2, hg2, he2, hk2, hsame, hcase⟩ :=
        teeResume_spec xs st.vars hinv.vars (hinv.co hcnt) k
          (hinv.consumers nn k hget) hnr ans
      have hgetset : ∀ m, (st.iters.set nn k2)[m]? = if m = nn then some k2 else st.iters[m]? := by
        intro m
        rw [List.getElem?_set]
        by_cases hm : m = nn
        · subst hm
          simp [hlt]
        · have hm2 : ¬ nn = m := fun h => hm h.symm
          simp [hm, hm2]
      have hcp := countP_set_of_get st.iters nn k k2 hget hnr
      have hrun := hinv.running
      have hstops := hinv.stops
      have hstop0 : st.vars.stopCalls = 0 := by
        rw [hstops]
        have : ¬ (List.countP Consumer.isReturned st.iters = st.iters.length ∧
            0 < st.iters.length) := fun h => by omega
        rw [if_neg this]
      refine ⟨{ vars := s2, iters := st.iters.set nn k2 }, ?_, ?_, by simp, ?_,
        (fun h => by cases h), ?_, ?_⟩
      · simp [TeeState.step, hget, e]
      · refine ⟨hv2, ?_, ?_, ?_, ?_⟩
        · intro hlt2
          simp only [List.length_set, hcp] at hlt2
          rcases hcase with h | ⟨b, h1, -, h3, h4, h5⟩
          · exact h.2.1
          · apply h5
            have hr2 : k2.isReturned = true := by simp [Consumer.isReturned, h1]
            simp only [hr2, if_true] at hlt2
            omega
        · intro m km hm
          simp only [hgetset] at hm
          by_cases hmn : m = nn
          · simp only [hmn, if_true, Option.some.injEq] at hm
            subst hm
            exact hk2
          · simp only [hmn, if_false] at hm
            exact ConsumerOk.mono xs st.vars s2 km hg2 he2 (hinv.consumers m km hm)
        · simp only [List.length_set, hcp]
          rcases hcase with h | ⟨b, h1, -, h3, h4, h5⟩
          · simp only [h.1, Bool.false_eq_true, if_false, h.2.2.1, hrun]
            simp
          · have hr2 : k2.isReturned = true := by simp [Consumer.isReturned, h1]
            simp only [hr2, if_true, h3, hrun]
            push_cast
            omega
        · simp only [List.length_set, hcp]
          rcases hcase with h | ⟨b, h1, -, h3, h4, h5⟩
          · simp only [h.1, Bool.false_eq_true, if_false, h.2.2.2.1, hstop0, Nat.add_zero]
            have : ¬ (List.countP Consumer.isReturned st.iters = st.iters.length ∧
                0 < st.iters.length) := fun h => by omega
            rw [if_neg this]
          · have hr2 : k2.isReturned = true := by simp [Consumer.isReturned, h1]
            simp only [hr2, if_true, h4, hstop0, Nat.zero_add, hrun]
            by_cases hall : List.countP Consumer.isReturned st.iters + 1 = st.iters.length
            · have h0 : (st.iters.length : Int)
                  - (List.countP Consumer.isReturned st.iters : Int) - 1 = 0 := by omega
              have hpos : 0 < st.iters.length := by omega
              rw [if_pos h0, if_pos ⟨hall, hpos⟩]
            · have h0 : ¬ (st.iters.length : Int)
                  - (List.countP Consumer.isReturned st.iters : Int) - 1 = 0 := by omega
              rw [if_neg h0, if_neg (fun h => hall h.1)]
      · intro m hm
        simp [hgetset, hm]
      · intro k1 hk1
        simp only [Option.some.injEq] at hk1
        subst hk1
        refine ⟨k2, by simp [hgetset], Or.inr ⟨hnr, ?_⟩⟩
        rcases hcase with h | ⟨b, h1, h2, -⟩
        · exact Or.inl ⟨h.2.2.2.2.1, h.2.2.2.2.2⟩
        · exact Or.inr ⟨b, h1, h2⟩
      · intro k1 hk1 hans hlen
        simp only [Option.some.injEq] at hk1
        subst hk1
        exact hsame hans hlen

end TeeStateStep

section TeeReach

variable {T : Type} [Inhabited T]

theorem TeeState.run_append (st : TeeState T) (l1 l2 : List (Nat × Bool)) :
    st.run (l1 ++ l2) = (st.run l1).bind (fun st2 => st2.run l2) := by
  induction l1 generalizing st with
  | nil => rfl
  | cons e l1 ih =>
    obtain ⟨nn, ans⟩ := e
    simp only [List.cons_append, TeeState.run]
    cases st.step nn ans with
    | none => rfl
    | some st2 => exact ih st2

theorem TeeState.run_single (st : TeeState T) (nn : Nat) (ans : Bool) :
    st.run [(nn, ans)] = st.step nn ans := by
  simp only [TeeState.run]
  cases st.step nn ans <;> rfl

theorem Tee_init_inv (S : Iter T) (n : Nat) : TeeInv (Co.elems S) (Tee S n) := by
  have hcount : List.countP Consumer.isReturned
      (List.replicate n ({ c := some 0, phase := Phase.fresh, out := [] } : Consumer T)) = 0 := by
    rw [List.countP_eq_zero]
    intro k hk
    rw [(List.mem_replicate.mp hk).2]
    simp [Consumer.isReturned]
  have hheap : ∀ (a : Nat) (ch : chunk T), [(chunk.zero : chunk T)][a]? = some ch →
      a = 0 ∧ ch = chunk.zero := by
    intro a ch h
    cases a with
    | zero => exact ⟨rfl, by simpa using h.symm⟩
    | succ a => simp at h
  have hvars : VarsOk (Co.elems S) (Tee S n).vars := by
    refine ⟨by simp [Tee], ?_, ?_⟩
    · intro a ch ha
      obtain ⟨rfl, rfl⟩ := hheap a ch ha
      exact ⟨by simp [chunk.zero], by simp [chunk.zero], by simp [chunk.zero],
        fun t ht => by simp [chunk.zero] at ht, fun h => by simp [Tee] at h, fun _ => rfl⟩
    · intro a ch ha _
      obtain ⟨rfl, rfl⟩ := hheap a ch ha
      simp [Tee, chunk.zero]
  refine ⟨hvars, fun _ => ⟨Pull_zeroEnd S, ?_⟩, ?_, ?_, ?_⟩
  · intro a ch ha _
    obtain ⟨rfl, rfl⟩ := hheap a ch ha
    simp [Tee, chunk.zero, Pull_rest]
  · intro nn k hk
    have hmem : k ∈ (Tee S n).iters := List.getElem?_mem hk
    rw [(List.mem_replicate.mp hmem).2]
    exact ⟨rfl, rfl⟩
  · simp only [Tee, hcount, List.length_replicate]
    simp
  · simp only [Tee, hcount, List.length_replicate]
    have : ¬ (0 = n ∧ 0 < n) := fun h => by omega
    rw [if_neg this]

/-- Every schedule runs without a panic and ends in a state that satisfies the
invariant.  A closure whose own `yield` calls all returned `true` has received
one element per resumption until it returned, and it returned `true`. -/
theorem Tee_reachable (S : Iter T) (n : Nat) (sched : List (Nat × Bool)) :
    ∃ st, (Tee S n).run sched = some st ∧ TeeInv (Co.elems S) st ∧ st.iters.length = n ∧
      ∀ nn k, st.iters[nn]? = some k → (∀ e ∈ sched, e.1 = nn → e.2 = true) →
        (k.phase = Phase.fresh → resumes nn sched = 0) ∧
        (∀ j, k.phase = Phase.waiting j → k.out.length = resumes nn sched) ∧
        (∀ b, k.phase = Phase.returned b → b = true) := by
  induction sched using List.reverseRecOn with
  | nil =>
    refine ⟨Tee S n, rfl, Tee_init_inv S n, by simp [Tee], ?_⟩
    intro nn k hk _
    have hmem : k ∈ (Tee S n).iters := List.getElem?_mem hk
    have hkeq := (List.mem_replicate.mp hmem).2
    refine ⟨fun _ => rfl, ?_, ?_⟩
    · intro j hj
      rw [hkeq] at hj
      cases hj
    · intro b hb
      rw [hkeq] at hb
      cases hb
  | append_singleton sched e ih =>
    obtain ⟨m, ans⟩ := e
    obtain ⟨st, hrun, hinv, hlen, hprog⟩ := ih
    obtain ⟨st2, hstep, hinv2, hlen2, hothers, hnone, hself, -⟩ :=
      TeeState.step_spec (Co.elems S) st hinv m ans
    refine ⟨st2, ?_, hinv2, by rw [hlen2, hlen], ?_⟩
    · rw [TeeState.run_append, hrun]
      simp only [Option.bind]
      rw [TeeState.run_single, hstep]
    · intro nn k2 hk2 hall
      have hall1 : ∀ e ∈ sched, e.1 = nn → e.2 = true :=
        fun e he => hall e (List.mem_append_left _ he)
      by_cases hnm : nn = m
      · subst hnm
        have hans : ans = true := hall (nn, ans) (by simp) rfl
        have hres : resumes nn (sched ++ [(nn, ans)]) = resumes nn sched + 1 := by
          simp [resumes]
        cases hk : st.iters[nn]? with
        | none =>
          rw [hnone hk, hk] at hk2
          cases hk2
        | some k =>
          obtain ⟨hp1, hp2, hp3⟩ := hprog nn k hk hall1
          obtain ⟨k3, hk3, hrel⟩ := hself k hk
          rw [hk2] at hk3
          simp only [Option.some.injEq] at hk3
          subst hk3
          rcases hrel with ⟨hret, heq, -⟩ | ⟨hnr, hrel⟩
          · subst heq
            refine ⟨?_, ?_, hp3⟩
            · intro hf
              simp [Consumer.isReturned, hf] at hret
            · intro j hj
              simp [Consumer.isReturned, hj] at hret
          · rcases hrel with ⟨⟨j, hj⟩, hl⟩ | ⟨b, hb, hbf⟩
            · refine ⟨?_, ?_, ?_⟩
              · intro hf
                rw [hj] at hf
                cases hf
              · intro j2 _
                rw [hl, hres]
                cases hp : k.phase with
                | fresh =>
                  have hout := hinv.consumers nn k hk
                  simp only [ConsumerOk, hp] at hout
                  rw [hout.2, hp1 hp]
                  rfl
                | waiting i => rw [hp2 i hp]
                | returned b => simp [Consumer.isReturned, hp] at hnr
              · intro b hb
                rw [hj] at hb
                cases hb
            · refine ⟨?_, ?_, ?_⟩
              · intro hf
                rw [hb] at hf
                cases hf
              · intro j hj
                rw [hb] at hj
                cases hj
              · intro b2 hb2
                rw [hb] at hb2
                simp only [Phase.returned.injEq] at hb2
                subst hb2
                cases b with
                | true => rfl
                | false =>
                  rw [hbf rfl] at hans
                  cases hans
      · have hres : resumes nn (sched ++ [(m, ans)]) = resumes nn sched := by
          have : ¬ m = nn := fun h => hnm h.symm
          simp [resumes, List.count_singleton, this]
        rw [hothers nn hnm] at hk2
        rw [hres]
        exact hprog nn k2 hk2 hall1

end TeeReach

section TeeFacts

variable {T : Type}

theorem ConsumerOk.out_prefix (xs : List T) (s : TeeVars T) (k : Consumer T)
    (hk : ConsumerOk xs s k) : ∃ j, k.out = xs.take j := by
  cases hp : k.phase with
  | fresh =>
    simp only [ConsumerOk, hp] at hk
    exact ⟨0, by rw [hk.2]; rfl⟩
  | waiting i =>
    simp only [ConsumerOk, hp] at hk
    obtain ⟨a, ch, -, -, -, hout⟩ := hk
    exact ⟨_, hout⟩
  | returned b =>
    cases b with
    | true =>
      simp only [ConsumerOk, hp] at hk
      exact ⟨xs.length, by rw [hk.1, List.take_length]⟩
    | false =>
      simp only [ConsumerOk, hp] at hk
      exact hk

theorem VarsOk.fetched_facts (xs : List T) (s : TeeVars T) (hv : VarsOk xs s) :
    (∃ j, s.fetched = xs.take j) ∧ s.nextCalls ≤ s.fetched.length + 1 ∧
    (Exhausted s → s.fetched = xs ∧ s.nextCalls = xs.length + 1) := by
  obtain ⟨l, hl⟩ : ∃ l, l + 1 = s.heap.length := ⟨s.heap.length - 1, by
    have := hv.nonempty
    omega⟩
  obtain ⟨ch, hch⟩ : ∃ ch, s.heap[l]? = some ch := ⟨_, List.getElem?_eq_getElem (by omega)⟩
  obtain ⟨h1, h2, h3⟩ := hv.tail l ch hch hl
  have hfl := hv.fetched_length l ch hch hl
  refine ⟨⟨_, h1⟩, ?_, ?_⟩
  · rw [h2, hfl]
    split <;> omega
  · rintro ⟨a, ch2, ha, hal, hd⟩
    have hal2 : a = l := by omega
    subst hal2
    rw [hch] at ha
    simp only [Option.some.injEq] at ha
    subst ha
    have hlen := h3 hd
    refine ⟨by rw [h1, hlen, List.take_length], ?_⟩
    rw [h2, hd, hlen]
    rfl

end TeeFacts

section TeeOut

variable {T : Type} [Inhabited T]

theorem teeLoop_returned_out (s : TeeVars T) (k : Consumer T) (i : Nat) (s2 : TeeVars T)
    (k2 : Consumer T) (h : teeLoop s k i = some (s2, k2)) (hr : k2.isReturned = true) :
    k2.out = k.out := by
  cases hn : nextFromChunk s k.c i with
  | none => simp [teeLoop, hn] at h
  | some r =>
    obtain ⟨⟨v, i2, c2, ok⟩, s3⟩ := r
    simp only [teeLoop, hn] at h
    cases ok with
    | false =>
      simp only [Bool.not_false, if_true, Option.some.injEq, Prod.mk.injEq] at h
      rw [← h.2]
    | true =>
      simp only [Bool.not_true, Bool.false_eq_true, if_false, Option.some.injEq,
        Prod.mk.injEq] at h
      rw [← h.2] at hr
      simp [Consumer.isReturned] at hr

theorem teeResume_returned_out (s : TeeVars T) (k : Consumer T) (ans : Bool) (s2 : TeeVars T)
    (k2 : Consumer T) (h : teeResume s k ans = some (s2, k2)) (hr : k2.isReturned = true) :
    k2.out = k.out := by
  cases hp : k.phase with
  | fresh =>
    simp only [teeResume, hp] at h
    exact teeLoop_returned_out s k 0 s2 k2 h hr
  | waiting i =>
    simp only [teeResume, hp] at h
    cases ans with
    | false =>
      simp only [Bool.not_false, if_true, Option.some.injEq, Prod.mk.injEq] at h
      rw [← h.2]
    | true =>
      simp only [Bool.not_true, Bool.false_eq_true, if_false] at h
      exact teeLoop_returned_out s k i s2 k2 h hr
  | returned b =>
    simp only [teeResume, hp, Option.some.injEq, Prod.mk.injEq] at h
    rw [← h.2]

theorem TeeState.step_returned_out (st : TeeState T) (nn : Nat) (ans : Bool) (st2 : TeeState T)
    (k k2 : Consumer T) (h : st.step nn ans = some st2) (hk : st.iters[nn]? = some k)
    (hk2 : st2.iters[nn]? = some k2) (hr : k2.isReturned = true) : k2.out = k.out := by
  have hget : st.iters.get? nn = some k := by rw [List.get?_eq_getElem?]; exact hk
  have hlt : nn < st.iters.length := (List.getElem?_eq_some.mp hk).1
  simp only [TeeState.step, hget] at h
  cases hres : teeResume st.vars k ans with
  | none => simp [hres] at h
  | some r =>
    obtain ⟨s2, k3⟩ := r
    simp only [hres, Option.some.injEq] at h
    rw [← h] at hk2
    simp only [List.getElem?_set_self hlt, Option.some.injEq] at hk2
    rw [← hk2] at hr ⊢
    exact teeResume_returned_out st.vars k ans s2 k3 hres hr

end TeeOut

section TeeOutFacts

variable {T : Type}

theorem ConsumerOk.out_le_fetched (xs : List T) (s : TeeVars T) (hv : VarsOk xs s)
    (k : Consumer T) (hk : ConsumerOk xs s k) (hb : ∀ b, k.phase = Phase.returned b → b = true) :
    k.out <+: s.fetched := by
  obtain ⟨l, hl⟩ : ∃ l, l + 1 = s.heap.length := ⟨s.heap.length - 1, by
    have := hv.nonempty
    omega⟩
  obtain ⟨chl, hchl⟩ : ∃ ch, s.heap[l]? = some ch := ⟨_, List.getElem?_eq_getElem (by omega)⟩
  obtain ⟨hfetched, -, -⟩ := hv.tail l chl hchl hl
  cases hp : k.phase with
  | fresh =>
    simp only [ConsumerOk, hp] at hk
    rw [hk.2]
    exact List.nil_prefix
  | waiting i =>
    simp only [ConsumerOk, hp] at hk
    obtain ⟨a, ch, -, ha, hi, hout⟩ := hk
    have halt := heap_lt_of_get _ _ _ ha
    have hle : 64 * a + i ≤ 64 * l + chl.size := by
      by_cases hal : a = l
      · subst hal
        rw [hchl] at ha
        simp only [Option.some.injEq] at ha
        subst ha
        omega
      · have := ((hv.chunks a ch ha).inner (by omega)).1
        omega
    have e : k.out = s.fetched.take (64 * a + i) := by
      rw [hout, hfetched, List.take_take, Nat.min_eq_left hle]
    rw [e]
    exact List.take_prefix _ _
  | returned b =>
    have := hb b hp
    subst this
    simp only [ConsumerOk, hp] at hk
    rw [hk.1, ((VarsOk.fetched_facts xs s hv).2.2 hk.2).1]

end TeeOutFacts

section TeeClaims

variable {T : Type} [Inhabited T]

/-- C1 (Tee fan-out equivalence).  For every source `S`, every `n` and every
schedule in which all `yield` calls return `true`, the run does not panic;
every closure has received a prefix of the elements of `S` in order; one that
has returned has received exactly the elements of `S`; and a closure that was
resumed more often than `S` has elements has returned. -/
theorem Tee_fanout (S : Iter T) (n : Nat) (sched : List (Nat × Bool))
    (hall : ∀ e ∈ sched, e.2 = true) :
    ∃ st, (Tee S n).run sched = some st ∧ st.iters.length = n ∧
      ∀ (nn : Nat) (k : Consumer T), st.iters[nn]? = some k →
        (∃ j, k.out = (Co.elems S).take j) ∧
        (k.isReturned = true → k.out = Co.elems S) ∧
        ((Co.elems S).length < resumes nn sched → k.isReturned = true) := by
  obtain ⟨st, hrun, hinv, hlen, hprog⟩ := Tee_reachable S n sched
  refine ⟨st, hrun, hlen, ?_⟩
  intro nn k hk
  obtain ⟨hp1, hp2, hp3⟩ := hprog nn k hk (fun e he _ => hall e he)
  have hok := hinv.consumers nn k hk
  obtain ⟨j, hj⟩ := ConsumerOk.out_prefix _ _ k hok
  refine ⟨⟨j, hj⟩, ?_, ?_⟩
  · intro hret
    cases hp : k.phase with
    | fresh => simp [Consumer.isReturned, hp] at hret
    | waiting i => simp [Consumer.isReturned, hp] at hret
    | returned b =>
      have hb := hp3 b hp
      subst hb
      simp only [ConsumerOk, hp] at hok
      exact hok.1
  · intro hlt
    cases hp : k.phase with
    | fresh =>
      have := hp1 hp
      omega
    | waiting i =>
      have h1 := hp2 i hp
      have h2 : k.out.length ≤ (Co.elems S).length := by
        rw [hj, List.length_take]
        exact Nat.min_le_right _ _
      omega
    | returned b => simp [Consumer.isReturned, hp]

/-- C4 (single upstream fetch).  For every source `S`, every `n` and every
schedule in which all `yield` calls return `true`: the values the calls of
`next()` delivered are a prefix of the elements of `S`, each once and in order,
and there was at most one call of `next()` more than that; once some closure has
returned they are exactly the elements of `S`, after exactly one further call;
a closure that was resumed more often than `S` has elements has returned with
all of `S`, so that draining any number of closures pulls `|S|` elements with
`|S| + 1` calls of `next()` in all; what a closure has received is a prefix of
what has been pulled; and a closure that is behind what has been fetched
receives on its next step the element of `S` at its position without any change
to the shared variables, so without a call of `next()`. -/
theorem Tee_single_fetch (S : Iter T) (n : Nat) (sched : List (Nat × Bool))
    (hall : ∀ e ∈ sched, e.2 = true) :
    ∃ st, (Tee S n).run sched = some st ∧
      (∃ j, st.vars.fetched = (Co.elems S).take j) ∧
      st.vars.nextCalls ≤ st.vars.fetched.length + 1 ∧
      (∀ (nn : Nat) (k : Consumer T), st.iters[nn]? = some k → k.isReturned = true →
        st.vars.fetched = Co.elems S ∧ st.vars.nextCalls = (Co.elems S).length + 1) ∧
      (∀ (nn : Nat) (k : Consumer T), st.iters[nn]? = some k →
        (Co.elems S).length < resumes nn sched →
        k.isReturned = true ∧ k.out = Co.elems S ∧ st.vars.fetched = Co.elems S ∧
          st.vars.nextCalls = (Co.elems S).length + 1) ∧
      (∀ (nn : Nat) (k : Consumer T), st.iters[nn]? = some k → k.out <+: st.vars.fetched) ∧
      (∀ (nn : Nat) (k : Consumer T), st.iters[nn]? = some k →
        k.out.length < st.vars.fetched.length →
        ∃ st2 k2 x, st.step nn true = some st2 ∧ st2.vars = st.vars ∧
          st2.iters[nn]? = some k2 ∧ (Co.elems S)[k.out.length]? = some x ∧
          k2.out = k.out ++ [x]) := by
  obtain ⟨st, hrun, hinv, hlen, hprog⟩ := Tee_reachable S n sched
  obtain ⟨hf1, hf2, hf3⟩ := VarsOk.fetched_facts _ _ hinv.vars
  have hfl : st.vars.fetched.length ≤ (Co.elems S).length := by
    obtain ⟨j, hj⟩ := hf1
    rw [hj, List.length_take]
    exact Nat.min_le_right _ _
  have hreturned : ∀ (nn : Nat) (k : Consumer T), st.iters[nn]? = some k →
      k.isReturned = true → k.out = Co.elems S ∧ Exhausted st.vars := by
    intro nn k hk hret
    obtain ⟨-, -, hp3⟩ := hprog nn k hk (fun e he _ => hall e he)
    have hok := hinv.consumers nn k hk
    cases hp : k.phase with
    | fresh => simp [Consumer.isReturned, hp] at hret
    | waiting i => simp [Consumer.isReturned, hp] at hret
    | returned b =>
      have hb := hp3 b hp
      subst hb
      simp only [ConsumerOk, hp] at hok
      exact hok
  refine ⟨st, hrun, hf1, hf2, ?_, ?_, ?_, ?_⟩
  · intro nn k hk hret
    exact hf3 (hreturned nn k hk hret).2
  · intro nn k hk hlt
    obtain ⟨hp1, hp2, -⟩ := hprog nn k hk (fun e he _ => hall e he)
    obtain ⟨j, hj⟩ := ConsumerOk.out_prefix _ _ k (hinv.consumers nn k hk)
    have hret : k.isReturned = true := by
      cases hp : k.phase with
      | fresh =>
        have := hp1 hp
        omega
      | waiting i =>
        have h1 := hp2 i hp
        have h2 : k.out.length ≤ (Co.elems S).length := by
          rw [hj, List.length_take]
          exact Nat.min_le_right _ _
        omega
      | returned b => simp [Consumer.isReturned, hp]
    obtain ⟨h1, h2⟩ := hreturned nn k hk hret
    exact ⟨hret, h1, hf3 h2⟩
  · intro nn k hk
    exact ConsumerOk.out_le_fetched _ _ hinv.vars k (hinv.consumers nn k hk)
      (hprog nn k hk (fun e he _ => hall e he)).2.2
  · intro nn k hk hlt
    obtain ⟨st2, hstep, hinv2, -, -, -, hk2spec, hsame⟩ :=
      TeeState.step_spec (Co.elems S) st hinv nn true
    obtain ⟨k2, hk2, hcase⟩ := hk2spec k hk
    have hpre : k.out <+: Co.elems S := by
      obtain ⟨j, hj⟩ := ConsumerOk.out_prefix _ _ k (hinv.consumers nn k hk)
      rw [hj]
      exact List.take_prefix _ _
    have hpre2 : k2.out <+: Co.elems S := by
      obtain ⟨j, hj⟩ := ConsumerOk.out_prefix _ _ k2 (hinv2.consumers nn k2 hk2)
      rw [hj]
      exact List.take_prefix _ _
    have hgrow : k2.out.length = k.out.length + 1 := by
      rcases hcase with ⟨hret, -, -⟩ | ⟨-, ⟨-, hl⟩ | ⟨b, hb, hbf⟩⟩
      · have := (hreturned nn k hk hret).1
        rw [this] at hlt
        omega
      · exact hl
      · have hr2 : k2.isReturned = true := by simp [Consumer.isReturned, hb]
        have hout := TeeState.step_returned_out st nn true st2 k k2 hstep hk hk2 hr2
        have hok2 := hinv2.consumers nn k2 hk2
        cases b with
        | false => exact absurd (hbf rfl) (by decide)
        | true =>
          simp only [ConsumerOk, hb] at hok2
          rw [← hout, hok2.1] at hlt
          omega
    have hle2 : k.out.length + 1 ≤ (Co.elems S).length := by
      rw [← hgrow]
      exact hpre2.length_le
    have e1 := List.prefix_iff_eq_take.mp hpre
    have e2 := List.prefix_iff_eq_take.mp hpre2
    rw [hgrow, List.take_succ, ← e1] at e2
    refine ⟨st2, k2, (Co.elems S)[k.out.length], hstep, hsame k hk rfl hlt, hk2,
      List.getElem?_eq_getElem (by omega), ?_⟩
    rw [e2, List.getElem?_eq_getElem (by omega)]
    rfl

/-- C5 (last-one-out release in Tee).  For every source `S`, every `n ≥ 1` and
every schedule, whatever the `yield` calls return: `stop()` has been called
once if all `n` closures have returned and not at all otherwise; and a closure
whose own `yield` never returned `false` still receives every element of `S`,
however the other closures ended. -/
theorem Tee_last_one_out (S : Iter T) (n : Nat) (hn : 0 < n) (sched : List (Nat × Bool)) :
    ∃ st, (Tee S n).run sched = some st ∧ st.iters.length = n ∧
      st.vars.stopCalls = (if st.iters.all Consumer.isReturned then 1 else 0) ∧
      ∀ (nn : Nat) (k : Consumer T), st.iters[nn]? = some k →
        (∀ e ∈ sched, e.1 = nn → e.2 = true) →
        (k.isReturned = true → k.out = Co.elems S) ∧
        ((Co.elems S).length < resumes nn sched → k.isReturned = true) := by
  obtain ⟨st, hrun, hinv, hlen, hprog⟩ := Tee_reachable S n sched
  refine ⟨st, hrun, hlen, ?_, ?_⟩
  · rw [hinv.stops]
    by_cases hall : st.iters.all Consumer.isReturned = true
    · have hc : List.countP Consumer.isReturned st.iters = st.iters.length :=
        List.countP_eq_length.mpr (List.all_eq_true.mp hall)
      rw [if_pos ⟨hc, by omega⟩, if_pos hall]
    · have hc : ¬ (List.countP Consumer.isReturned st.iters = st.iters.length ∧
          0 < st.iters.length) :=
        fun h => hall (List.all_eq_true.mpr (List.countP_eq_length.mp h.1))
      rw [if_neg hc, if_neg hall]
  · intro nn k hk hown
    obtain ⟨hp1, hp2, hp3⟩ := hprog nn k hk hown
    have hok := hinv.consumers nn k hk
    obtain ⟨j, hj⟩ := ConsumerOk.out_prefix _ _ k hok
    refine ⟨?_, ?_⟩
    · intro hret
      cases hp : k.phase with
      | fresh => simp [Consumer.isReturned, hp] at hret
      | waiting i => simp [Consumer.isReturned, hp] at hret
      | returned b =>
        have hb := hp3 b hp
        subst hb
        simp only [ConsumerOk, hp] at hok
        exact hok.1
    · intro hlt
      cases hp : k.phase with
      | fresh =>
        have := hp1 hp
        omega
      | waiting i =>
        have h1 := hp2 i hp
        have h2 : k.out.length ≤ (Co.elems S).length := by
          rw [hj, List.length_take]
          exact Nat.min_le_right _ _
        omega
      | returned b => simp [Consumer.isReturned, hp]

end TeeClaims

theorem roundRobin_all_true (n rounds : Nat) : ∀ e ∈ roundRobin n rounds, e.2 = true := by
  intro e he
  simp only [roundRobin, List.mem_flatten, List.mem_replicate] at he
  obtain ⟨l, ⟨-, hl⟩, he2⟩ := he
  rw [hl, List.mem_flatMap] at he2
  obtain ⟨i, -, hi⟩ := he2
  rw [(List.mem_replicate.mp hi).2]

/-- C1 on the pattern of `TestTee`: a source of 130 elements (more than two
chunks), three closures, closure `i` taking `i + 1` elements per round. -/
theorem Tee_fanout_witness :
    (∀ e ∈ roundRobin 3 131, e.2 = true) ∧
    ∃ st, (Tee (FromSlice (List.range 130)) 3).run (roundRobin 3 131) = some st ∧
      st.iters.length = 3 ∧
      ∀ (nn : Nat) (k : Consumer Nat), st.iters[nn]? = some k →
        (∃ j, k.out = (Co.elems (FromSlice (List.range 130))).take j) ∧
        (k.isReturned = true → k.out = Co.elems (FromSlice (List.range 130))) ∧
        ((Co.elems (FromSlice (List.range 130))).length < resumes nn (roundRobin 3 131) →
          k.isReturned = true) :=
  ⟨roundRobin_all_true 3 131,
    Tee_fanout (FromSlice (List.range 130)) 3 (roundRobin 3 131) (roundRobin_all_true 3 131)⟩

/-- C4 on a source of exactly one chunk (64 elements) and two closures. -/
theorem Tee_single_fetch_witness :
    (∀ e ∈ roundRobin 2 65, e.2 = true) ∧
    ∃ st, (Tee (FromSlice (List.range 64)) 2).run (roundRobin 2 65) = some st ∧
      (∃ j, st.vars.fetched = (Co.elems (FromSlice (List.range 64))).take j) ∧
      st.vars.nextCalls ≤ st.vars.fetched.length + 1 ∧
      (∀ (nn : Nat) (k : Consumer Nat), st.iters[nn]? = some k → k.isReturned = true →
        st.vars.fetched = Co.elems (FromSlice (List.range 64)) ∧
        st.vars.nextCalls = (Co.elems (FromSlice (List.range 64))).length + 1) ∧
      (∀ (nn : Nat) (k : Consumer Nat), st.iters[nn]? = some k →
        (Co.elems (FromSlice (List.range 64))).length < resumes nn (roundRobin 2 65) →
        k.isReturned = true ∧ k.out = Co.elems (FromSlice (List.range 64)) ∧
          st.vars.fetched = Co.elems (FromSlice (List.range 64)) ∧
          st.vars.nextCalls = (Co.elems (FromSlice (List.range 64))).length + 1) ∧
      (∀ (nn : Nat) (k : Consumer Nat), st.iters[nn]? = some k → k.out <+: st.vars.fetched) ∧
      (∀ (nn : Nat) (k : Consumer Nat), st.iters[nn]? = some k →
        k.out.length < st.vars.fetched.length →
        ∃ st2 k2 x, st.step nn true = some st2 ∧ st2.vars = st.vars ∧
          st2.iters[nn]? = some k2 ∧
          (Co.elems (FromSlice (List.range 64)))[k.out.length]? = some x ∧
          k2.out = k.out ++ [x]) :=
  ⟨roundRobin_all_true 2 65,
    Tee_single_fetch (FromSlice (List.range 64)) 2 (roundRobin 2 65) (roundRobin_all_true 2 65)⟩

/-- C5 with three closures, two of which stop early. -/
theorem Tee_last_one_out_witness :
    0 < 3 ∧
    ∃ st, (Tee (FromSlice [1, 2, 3]) 3).run
        [(0, true), (1, true), (0, false), (1, true), (2, true), (1, false), (2, true),
          (2, true), (2, true)] = some st ∧
      st.iters.length = 3 ∧
      st.vars.stopCalls = (if st.iters.all Consumer.isReturned then 1 else 0) ∧
      ∀ (nn : Nat) (k : Consumer Nat), st.iters[nn]? = some k →
        (∀ e ∈ [(0, true), (1, true), (0, false), (1, true), (2, true), (1, false), (2, true),
          (2, true), (2, true)], e.1 = nn → e.2 = true) →
        (k.isReturned = true → k.out = Co.elems (FromSlice [1, 2, 3])) ∧
        ((Co.elems (FromSlice [1, 2, 3])).length
            < resumes nn [(0, true), (1, true), (0, false), (1, true), (2, true), (1, false),
              (2, true), (2, true), (2, true)] →
          k.isReturned = true) :=
  ⟨by decide, Tee_last_one_out (FromSlice [1, 2, 3]) 3 (by decide) _⟩

/-! ## CountBy with other steps -/

theorem CountBy.loop_nonneg (ty : IntType) (start step : Int) (k extra : Nat) (hstep : 0 ≤ step)
    (hrep : ∀ i : Nat, i ≤ k → ty.wrap (start + i * step) = start + i * step) (d : Nat) :
    ∀ (j : Nat) (acc : List Int), j + d = k → acc.length = j →
      Co.drive (collectUpTo (k + 1)) (CountBy.loop ty start step (d + 1 + extra) (start + j * step))
          acc
        = (some false, acc ++ (List.range' j (d + 1)).map (fun i : Nat => start + i * step)) := by
  induction d with
  | zero =>
    intro j acc hj hacc
    have hge : start + (j : Int) * step ≥ start := by nlinarith
    have h1 : 0 + 1 + extra = extra + 1 := by omega
    have hnot : ¬ (acc.length + 1 < k + 1) := by omega
    rw [h1, CountBy.loop, if_pos hge]
    simp [Co.drive, collectUpTo, hnot]
  | succ d ih =>
    intro j acc hj hacc
    have hge : start + (j : Int) * step ≥ start := by nlinarith
    have h1 : d + 1 + 1 + extra = (d + 1 + extra) + 1 := by omega
    have hlt : acc.length + 1 < k + 1 := by omega
    have hw : ty.wrap (start + (j : Int) * step + step) = start + ((j + 1 : Nat) : Int) * step := by
      have := hrep (j + 1) (by omega)
      rw [← this]
      congr 1
      push_cast
      ring
    rw [h1, CountBy.loop, if_pos hge]
    simp only [Co.drive, collectUpTo, List.length_append, List.length_singleton, hlt,
      decide_True, Bool.not_true, Bool.false_eq_true, if_false, hw]
    rw [ih (j + 1) (acc ++ [start + (j : Int) * step]) (by omega) (by simp [hacc])]
    simp [List.range'_succ]

/-- For a step that is not negative, a consumer that stops after `k + 1`
elements receives `start, start + step, ..., start + k * step`, provided these
values are stored unchanged in the element type. -/
theorem CountBy_nonneg_step (ty : IntType) (start step : Int) (k extra : Nat) (hstep : 0 ≤ step)
    (hrep : ∀ i : Nat, i ≤ k → ty.wrap (start + i * step) = start + i * step) :
    Co.drive (collectUpTo (k + 1)) (CountBy ty start step (k + 1 + extra)) []
      = (some false, (List.range (k + 1)).map (fun i : Nat => start + i * step)) := by
  have h := CountBy.loop_nonneg ty start step k extra hstep hrep k 0 [] (by omega) rfl
  simp only [Nat.cast_zero, zero_mul, add_zero, List.nil_append] at h
  rw [CountBy, h, List.range_eq_range']

/-- For every negative step the iterator ends by itself after its first
element: the second value is below `start`. -/
theorem CountBy_negative_step (ty : IntType) (start step : Int) (limit fuel : Nat)
    (hstep : step < 0) (hrep : ty.wrap (start + step) = start + step) (hl : 2 ≤ limit) :
    Co.drive (collectUpTo limit) (CountBy ty start step (fuel + 2)) [] = (some true, [start]) := by
  have h1 : start ≥ start := le_refl _
  have h2 : ¬ start + step ≥ start := by omega
  have h3 : 1 < limit := by omega
  rw [CountBy, CountBy.loop, if_pos h1]
  simp only [Co.drive, collectUpTo, List.nil_append, List.length_singleton, h3, decide_True,
    Bool.not_true, Bool.false_eq_true, if_false, hrep]
  rw [CountBy.loop, if_neg h2]
  rfl

/-! ## Range-over-func loops -/

section GenLemmas

variable {T O R R2 : Type}

theorem Co.elems_bind (t : Co Bool O R) (f : R → Co Bool O R2) :
    Co.elems (Co.bind t f) = Co.elems t ++ Co.elems (f (Co.result t)) := by
  induction t with
  | ret r => rfl
  | yield o k ih => simp [Co.bind, Co.elems, Co.result, ih]

theorem Co.result_bind (t : Co Bool O R) (f : R → Co Bool O R2) :
    Co.result (Co.bind t f) = Co.result (f (Co.result t)) := by
  induction t with
  | ret r => rfl
  | yield o k ih => simp [Co.bind, Co.result, ih]

theorem Iter.gen_elems (S : Iter T) : Co.elems (Iter.gen S) = Co.elems S := by
  induction S with
  | ret b => rfl
  | yield v k ih => simp [Iter.gen, Co.elems, ih]

theorem Iter.gen_finite (S : Iter T) : Gen.Finite (Iter.gen S) := by
  induction S with
  | ret b => simp [Gen.Finite, Iter.gen, Co.result]
  | yield v k ih => simpa [Gen.Finite, Iter.gen, Co.result] using ih true

theorem Iter.gen_stops (S : Iter T) (h : Co.WellBehaved S) : Gen.Stops (Iter.gen S) := by
  induction S with
  | ret b => trivial
  | yield v k ih =>
    obtain ⟨⟨r, hr⟩, hk⟩ := h
    exact ⟨⟨r, by simp [hr, Iter.gen]⟩, ih true hk⟩

theorem Gen.truncate_elems (n : Nat) (seq : Gen T) :
    Co.elems (Gen.truncate n seq) = (Co.elems seq).take n := by
  induction n generalizing seq with
  | zero => simp [Gen.truncate, Co.elems]
  | succ n ih =>
    cases seq with
    | ret r => simp [Gen.truncate, Co.elems]
    | yield v k => simp [Gen.truncate, Co.elems, ih]

theorem Gen.truncate_stops (n : Nat) (seq : Gen T) (h : Gen.Stops seq) :
    Gen.Stops (Gen.truncate n seq) := by
  induction n generalizing seq with
  | zero => trivial
  | succ n ih =>
    cases seq with
    | ret r => trivial
    | yield v k =>
      obtain ⟨⟨b, hb⟩, hk⟩ := h
      exact ⟨⟨b, by simp [hb]⟩, by simpa using ih (k true) hk⟩

theorem Gen.truncate_finite (n : Nat) (seq : Gen T) (h : Gen.Finite seq)
    (hn : (Co.elems seq).length < n) : Gen.Finite (Gen.truncate n seq) := by
  induction n generalizing seq with
  | zero => omega
  | succ n ih =>
    cases seq with
    | ret r => exact h
    | yield v k =>
      simp only [Co.elems, List.length_cons] at hn
      have := ih (k true) h (by omega)
      simpa [Gen.Finite, Gen.truncate, Co.result] using this

end GenLemmas

/-! ## Chain and ChainFromIter -/

section RangeUnfold

variable {T R0 U σ R R2 : Type}

theorem forRange_yield (v : T) (k : Bool → Co Bool T (Option R0))
    (body : T → σ → Co Bool U (Flow σ R)) (s : σ) :
    forRange (Co.yield v k) body s
      = Co.bind (body v s) (fun f =>
          match f with
          | Flow.next s2 => forRange (k true) body s2
          | Flow.brk s2 => Co.ret (leaveRange (k false) (Flow.next s2))
          | Flow.ret r => Co.ret (leaveRange (k false) (Flow.ret r))
          | Flow.stuck => Co.ret Flow.stuck) := rfl

theorem yieldOrReturn_bind (v : U) (s : σ) (cont : Flow σ Bool → Co Bool U R2) :
    Co.bind (yieldOrReturn v s) cont
      = Co.yield v (fun b => if b then cont (Flow.next s) else cont (Flow.ret false)) := by
  simp only [yieldOrReturn, Co.bind]
  congr 1
  funext b
  cases b <;> rfl

end RangeUnfold

section ChainLemmas

variable {T : Type}

/-- The inner loop of `ChainFromIter` over one well-behaved input, with a
consumer that stops at its `k`-th element. -/
theorem chainInner_stop (S : Iter T) (hS : Co.WellBehaved S) (k : Nat) (acc : List T)
    (hacc : acc.length < k) :
    Co.drive (collectUpTo k)
        (forRange (R := Bool) (Iter.gen S) (fun v (u : Unit) => yieldOrReturn v u) ()) acc
      = if acc.length + (Co.elems S).length < k then (Flow.next (), acc ++ Co.elems S)
        else (Flow.ret false, acc ++ (Co.elems S).take (k - acc.length)) := by
  induction S generalizing acc with
  | ret b => simp [Iter.gen, forRange, Co.drive, Co.elems, hacc]
  | yield v kS ih =>
    obtain ⟨⟨r, hr⟩, hk⟩ := hS
    rw [Iter.gen, forRange_yield, yieldOrReturn_bind]
    by_cases h1 : acc.length + 1 < k
    · have h2 := ih true hk (acc ++ [v]) (by simpa using h1)
      simp only [Co.drive, collectUpTo, List.length_append, List.length_singleton, h1,
        decide_True, if_true]
      rw [h2]
      have e0 : (acc ++ [v]).length = acc.length + 1 := by simp
      have e1 : acc.length + 1 + (Co.elems (kS true)).length
          = acc.length + ((Co.elems (kS true)).length + 1) := by omega
      obtain ⟨d, hd⟩ : ∃ d, k - acc.length = d + 1 := ⟨k - acc.length - 1, by omega⟩
      have e2 : k - (acc.length + 1) = d := by omega
      rw [e0, e1, e2]
      simp only [Co.elems, List.length_cons, hd]
      simp
    · have h3 : k - acc.length = 1 := by omega
      have h4 : ¬ acc.length + ((Co.elems (kS true)).length + 1) < k := by omega
      simp [Co.drive, collectUpTo, h1, hr, Iter.gen, leaveRange, Co.elems, h3, h4]

/-- The inner loop of `ChainFromIter` over one input, never stopped. -/
theorem chainInner_drain (S : Iter T) :
    Co.result (forRange (R := Bool) (Iter.gen S) (fun v (u : Unit) => yieldOrReturn v u) ())
        = Flow.next () ∧
    Co.elems (forRange (R := Bool) (Iter.gen S) (fun v (u : Unit) => yieldOrReturn v u) ())
        = Co.elems S := by
  induction S with
  | ret b => simp [Iter.gen, forRange, Co.result, Co.elems]
  | yield v kS ih =>
    rw [Iter.gen, forRange_yield, yieldOrReturn_bind]
    simp only [Co.result, Co.elems, if_true]
    exact ⟨(ih true).1, by rw [(ih true).2]⟩

end ChainLemmas

section ChainMain

variable {T : Type}

/-- The outer loop of `ChainFromIter` with a consumer that stops at its `k`-th
element, which lies in one of the inputs `pre`: the inputs `later` are never
ranged over. -/
theorem chainOuter_stop (pre : List (Iter T)) (hpre : ∀ S ∈ pre, Co.WellBehaved S)
    (later : List (Gen T)) (k : Nat) :
    ∀ (outer : Gen (Gen T)) (acc : List T), Gen.Stops outer →
      Co.elems outer = pre.map Iter.gen ++ later → acc.length < k →
      k ≤ acc.length + ((pre.map Co.elems).flatten).length →
      Co.drive (collectUpTo k)
          (forRange (R := Bool) outer
            (fun it (u : Unit) => forRange it (fun v (u : Unit) => yieldOrReturn v u) u) ()) acc
        = (Flow.ret false, acc ++ ((pre.map Co.elems).flatten).take (k - acc.length)) := by
  induction pre with
  | nil =>
    intro outer acc _ _ h1 h2
    simp at h2
    omega
  | cons S pre ih =>
    intro outer acc hstops helems hacc hk
    cases outer with
    | ret r => simp [Co.elems] at helems
    | yield it kO =>
      simp only [Co.elems, List.map_cons, List.cons_append, List.cons.injEq] at helems
      obtain ⟨hit, hrest⟩ := helems
      obtain ⟨⟨b, hb⟩, hstops2⟩ := hstops
      have hin := chainInner_stop S (hpre S (List.mem_cons_self _ _)) k acc hacc
      rw [forRange_yield, Co.drive_bind, hit, hin]
      simp only [List.map_cons, List.flatten_cons, List.length_append] at hk ⊢
      by_cases hlt : acc.length + (Co.elems S).length < k
      · rw [if_pos hlt]
        have := ih (fun S2 h2 => hpre S2 (List.mem_cons_of_mem _ h2)) (kO true)
          (acc ++ Co.elems S) hstops2 hrest (by simpa using hlt)
          (by simp only [List.length_append]; omega)
        simp only [this, List.length_append, List.append_assoc]
        have e : k - acc.length = (Co.elems S).length + (k - (acc.length + (Co.elems S).length)) := by
          omega
        rw [e, List.take_append]
      · rw [if_neg hlt]
        simp only [hb, leaveRange, Co.drive]
        rw [List.take_append_of_le_length (by omega)]

/-- `ChainFromIter` over finite inputs with a consumer that never stops. -/
theorem chainOuter_drain (its : List (Iter T)) :
    ∀ (outer : Gen (Gen T)), Gen.Finite outer → Co.elems outer = its.map Iter.gen →
      Co.result (forRange (R := Bool) outer
          (fun it (u : Unit) => forRange it (fun v (u : Unit) => yieldOrReturn v u) u) ())
        = Flow.next () ∧
      Co.elems (forRange (R := Bool) outer
          (fun it (u : Unit) => forRange it (fun v (u : Unit) => yieldOrReturn v u) u) ())
        = (its.map Co.elems).flatten := by
  induction its with
  | nil =>
    intro outer hfin helems
    cases outer with
    | ret r =>
      cases r with
      | none => simp [Gen.Finite, Co.result] at hfin
      | some b => simp [forRange, Co.result, Co.elems]
    | yield it kO => simp [Co.elems] at helems
  | cons S its ih =>
    intro outer hfin helems
    cases outer with
    | ret r => simp [Co.elems] at helems
    | yield it kO =>
      simp only [Co.elems, List.map_cons, List.cons.injEq] at helems
      obtain ⟨hit, hrest⟩ := helems
      obtain ⟨h1, h2⟩ := chainInner_drain S
      obtain ⟨h3, h4⟩ := ih (kO true) hfin hrest
      rw [forRange_yield, Co.result_bind, Co.elems_bind, hit, h1, h2]
      simp only [h3, h4, List.map_cons, List.flatten_cons, and_self]

theorem FromSlice_gen_stops {α : Type} (l : List α) : Gen.Stops (Iter.gen (FromSlice l)) :=
  Iter.gen_stops _ (FromSlice_wellBehaved l)

theorem FromSlice_gen_elems {α : Type} (l : List α) : Co.elems (Iter.gen (FromSlice l)) = l := by
  rw [Iter.gen_elems, FromSlice_elems]

/-- C11 (early-stop propagation through Chain/ChainFromIter).  Let the inputs
that `iters` delivers be the well-behaved finite iterators `pre` followed by
any further inputs `later`.  A consumer whose `yield` returns `false` at its
`k`-th call, for an element within `pre`, is called exactly `k` times, with the
first `k` elements of the concatenation in order, and `ChainFromIter` returns
`false`, whatever `later` is: these inputs are not ranged over.  With finite
inputs only and a consumer that never stops, it returns `true`.  The same holds
for `Chain`. -/
theorem Chain_early_stop (iters : Gen (Gen T)) (hstops : Gen.Stops iters) (pre : List (Iter T))
    (hpre : ∀ S ∈ pre, Co.WellBehaved S) (later : List (Gen T))
    (helems : Co.elems iters = pre.map Iter.gen ++ later) (k : Nat) (hk1 : 1 ≤ k)
    (hk2 : k ≤ ((pre.map Co.elems).flatten).length) :
    Co.drive (collectUpTo k) (ChainFromIter iters) []
      = (some false, ((pre.map Co.elems).flatten).take k) ∧
    Co.drive (collectUpTo k) (Chain (pre.map Iter.gen ++ later)) []
      = (some false, ((pre.map Co.elems).flatten).take k) ∧
    (Gen.Finite iters → later = [] →
      (Co.drive collectAll (ChainFromIter iters) []).1 = some true) := by
  refine ⟨?_, ?_, ?_⟩
  · have h := chainOuter_stop pre hpre later k iters [] hstops helems (by simpa using hk1)
      (by simpa using hk2)
    simp only [ChainFromIter, Co.drive_bind, h]
    simp [endWith, Co.drive]
  · have h := chainOuter_stop pre hpre later k (Iter.gen (FromSlice (pre.map Iter.gen ++ later))) []
      (FromSlice_gen_stops _) (FromSlice_gen_elems _) (by simpa using hk1) (by simpa using hk2)
    simp only [Chain, ChainFromIter, Co.drive_bind, h]
    simp [endWith, Co.drive]
  · intro hfin hlater
    subst hlater
    obtain ⟨h1, h2⟩ := chainOuter_drain pre iters hfin (by simpa using helems)
    simp only [Co.drive_collectAll, ChainFromIter, Co.result_bind, h1]
    rfl

/-- C16 (Chain is concatenation).  For finite inputs, a consumer that never
stops `Chain(it_0, ..., it_{m-1})` receives the elements of `it_0`, then those
of `it_1`, and so on, and `Chain` returns `true`; `Chain` is `ChainFromIter`
applied to `FromSlice` of the list of inputs. -/
theorem Chain_concat (its : List (Iter T)) :
    Co.drive collectAll (Chain (its.map Iter.gen)) []
      = (some true, (its.map Co.elems).flatten) ∧
    Chain (its.map Iter.gen) = ChainFromIter (Iter.gen (FromSlice (its.map Iter.gen))) := by
  obtain ⟨h1, h2⟩ := chainOuter_drain its (Iter.gen (FromSlice (its.map Iter.gen)))
    (Iter.gen_finite _) (FromSlice_gen_elems _)
  refine ⟨?_, rfl⟩
  simp only [Co.drive_collectAll, Chain, ChainFromIter, Co.result_bind, Co.elems_bind, h1, h2,
    List.nil_append]
  simp [endWith, Co.result, Co.elems]

end ChainMain

/-! ## TakeWhile -/

section TakeWhileLemmas

variable {T : Type}

theorem takeWhile_loop (pred : T → Bool) (seq : Gen T) (hs : Gen.Stops seq)
    (h : Gen.Finite seq ∨ ∃ x ∈ Co.elems seq, pred x = false) :
    Co.result (forRange (R := Bool) seq (fun v (u : Unit) =>
        if !pred v then Co.ret (Flow.brk u) else yieldOrReturn v u) ()) = Flow.next () ∧
    Co.elems (forRange (R := Bool) seq (fun v (u : Unit) =>
        if !pred v then Co.ret (Flow.brk u) else yieldOrReturn v u) ())
      = (Co.elems seq).takeWhile pred := by
  induction seq with
  | ret r =>
    cases r with
    | none =>
      rcases h with h | ⟨x, hx, -⟩
      · simp [Gen.Finite, Co.result] at h
      · simp [Co.elems] at hx
    | some b => simp [forRange, Co.result, Co.elems]
  | yield v k ih =>
    obtain ⟨⟨b, hb⟩, hk⟩ := hs
    rw [forRange_yield]
    by_cases hp : pred v = true
    · have h2 : Gen.Finite (k true) ∨ ∃ x ∈ Co.elems (k true), pred x = false := by
        rcases h with h | ⟨x, hx, hxp⟩
        · exact Or.inl h
        · simp only [Co.elems, List.mem_cons] at hx
          rcases hx with hx | hx
          · rw [hx, hp] at hxp
            cases hxp
          · exact Or.inr ⟨x, hx, hxp⟩
      obtain ⟨h3, h4⟩ := ih true hk h2
      simp only [hp, Bool.not_true, Bool.false_eq_true, if_false, yieldOrReturn_bind, Co.result,
        Co.elems, if_true, h3, h4, List.takeWhile_cons_of_pos, true_and]
    · have hp2 : pred v = false := by simpa using hp
      simp [hp2, Co.bind, hb, leaveRange, Co.result, Co.elems]

theorem take_takeWhile_succ (pred : T → Bool) (xs : List T) (h : ∃ x ∈ xs, pred x = false) :
    (∃ x ∈ xs.take ((xs.takeWhile pred).length + 1), pred x = false) ∧
    (xs.take ((xs.takeWhile pred).length + 1)).takeWhile pred = xs.takeWhile pred := by
  induction xs with
  | nil =>
    obtain ⟨x, hx, -⟩ := h
    simp at hx
  | cons y ys ih =>
    by_cases hp : pred y = true
    · have h2 : ∃ x ∈ ys, pred x = false := by
        obtain ⟨x, hx, hxp⟩ := h
        rcases List.mem_cons.mp hx with hx | hx
        · rw [hx, hp] at hxp
          cases hxp
        · exact ⟨x, hx, hxp⟩
      obtain ⟨⟨x, hx, hxp⟩, h4⟩ := ih h2
      simp only [List.takeWhile_cons_of_pos hp, List.length_cons, List.take_succ_cons]
      exact ⟨⟨x, List.mem_cons_of_mem _ hx, hxp⟩, by rw [h4]⟩
    · have hp2 : pred y = false := by simpa using hp
      simp [List.takeWhile_cons_of_neg hp, hp2]

/-- C12 (TakeWhile).  For a well-behaved `seq` that is finite or has, within
the fuel, an element failing `pred`: a consumer that never stops receives
exactly the longest prefix of `seq` whose elements all satisfy `pred`, and
`TakeWhile` returns `true`.  When an element fails `pred`, the same holds with
`seq` cut off right after the first such element: nothing beyond it is taken. -/
theorem TakeWhile_prefix (seq : Gen T) (pred : T → Bool) (hs : Gen.Stops seq)
    (h : Gen.Finite seq ∨ ∃ x ∈ Co.elems seq, pred x = false) :
    Co.drive collectAll (TakeWhile seq pred) [] = (some true, (Co.elems seq).takeWhile pred) ∧
    ((∃ x ∈ Co.elems seq, pred x = false) →
      Co.drive collectAll
          (TakeWhile (Gen.truncate (((Co.elems seq).takeWhile pred).length + 1) seq) pred) []
        = (some true, (Co.elems seq).takeWhile pred)) := by
  have main : ∀ (s2 : Gen T), Gen.Stops s2 →
      (Gen.Finite s2 ∨ ∃ x ∈ Co.elems s2, pred x = false) →
      Co.drive collectAll (TakeWhile s2 pred) [] = (some true, (Co.elems s2).takeWhile pred) := by
    intro s2 hs2 h2
    obtain ⟨h3, h4⟩ := takeWhile_loop pred s2 hs2 h2
    simp only [Co.drive_collectAll, TakeWhile, Co.result_bind, Co.elems_bind, h3, h4,
      List.nil_append]
    simp [endWith, Co.result, Co.elems]
  refine ⟨main seq hs h, ?_⟩
  intro hex
  obtain ⟨h5, h6⟩ := take_takeWhile_succ pred (Co.elems seq) hex
  have := main (Gen.truncate (((Co.elems seq).takeWhile pred).length + 1) seq)
    (Gen.truncate_stops _ _ hs) (Or.inr (by rw [Gen.truncate_elems]; exact h5))
  rw [this, Gen.truncate_elems, h6]

end TakeWhileLemmas

/-! ## DropWhile -/

section DropWhileLemmas

variable {T : Type}

theorem dropWhile_loop_ok (q : T → Bool) (S : Iter T) (log : List T) :
    Co.result (forRange (Iter.gen S) (DropWhile.body (recording q)) (true, log))
        = Flow.next (true, log) ∧
    Co.elems (forRange (Iter.gen S) (DropWhile.body (recording q)) (true, log)) = Co.elems S := by
  induction S with
  | ret b => simp [Iter.gen, forRange, Co.result, Co.elems]
  | yield v k ih =>
    obtain ⟨h1, h2⟩ := ih true
    rw [Iter.gen, forRange_yield]
    simp [DropWhile.body, Co.bind, Co.result, Co.elems, h1, h2]

theorem dropWhile_loop (q : T → Bool) (S : Iter T) (log : List T) :
    (∃ b, Co.result (forRange (Iter.gen S) (DropWhile.body (recording q)) (false, log))
        = Flow.next (b, log ++ (Co.elems S).take (((Co.elems S).takeWhile q).length + 1))) ∧
    Co.elems (forRange (Iter.gen S) (DropWhile.body (recording q)) (false, log))
      = (Co.elems S).dropWhile q := by
  induction S generalizing log with
  | ret b => exact ⟨⟨false, by simp [Iter.gen, forRange, Co.result, Co.elems]⟩,
      by simp [Iter.gen, forRange, Co.elems]⟩
  | yield v k ih =>
    rw [Iter.gen, forRange_yield]
    by_cases hq : q v = true
    · obtain ⟨⟨b, h1⟩, h2⟩ := ih true (log ++ [v])
      refine ⟨⟨b, ?_⟩, ?_⟩
      · simp [DropWhile.body, recording, hq, Co.bind, Co.result, Co.elems, h1]
      · simp [DropWhile.body, recording, hq, Co.bind, Co.elems, h2]
    · have hq2 : q v = false := by simpa using hq
      obtain ⟨h1, h2⟩ := dropWhile_loop_ok q (k true) (log ++ [v])
      refine ⟨⟨true, ?_⟩, ?_⟩
      · simp [DropWhile.body, recording, hq2, Co.bind, Co.result, Co.elems, h1]
      · simp [DropWhile.body, recording, hq2, Co.bind, Co.elems, h2]

/-- C13 (DropWhile).  For a finite `seq` and a predicate `q` whose calls are
recorded, a consumer that never stops receives `seq` without its longest prefix
of elements satisfying `q`, in order, later elements that satisfy `q` included;
`DropWhile` returns `true`; and `q` has been called on the elements up to and
including the first that fails it, and on no later one. -/
theorem DropWhile_suffix (S : Iter T) (q : T → Bool) :
    Co.drive collectAll (DropWhile (Iter.gen S) (recording q) []) []
      = (some (true, (Co.elems S).take (((Co.elems S).takeWhile q).length + 1)),
          (Co.elems S).dropWhile q) := by
  obtain ⟨⟨b, h1⟩, h2⟩ := dropWhile_loop q S []
  simp only [Co.drive_collectAll, DropWhile, Co.result_bind, Co.elems_bind, h1, h2,
    List.nil_append]
  simp [endWithState, Co.result, Co.elems]

end DropWhileLemmas

/-! ## Enumerate and Slice -/

section SliceLemmas

variable {T : Type}

theorem Enumerate.loop_yield (i : Int) (v : T) (k : Bool → Gen T) :
    Enumerate.loop i (Co.yield v k)
      = Co.yield (i, v) (fun b =>
          if b then Enumerate.loop (i + 1) (k true)
          else endWith true (leaveRange (σ := Int) (k false) (Flow.ret false))) := by
  rw [Enumerate.loop, forRange_yield, yieldOrReturn_bind]
  simp only [Co.bind]
  congr 1
  funext b
  cases b <;> rfl

theorem slice_loop (start stopAt : Int) (seq : Gen T) (hs : Gen.Stops seq) (i : Nat)
    (h : Gen.Finite seq ∨
      max i (max start.toNat stopAt.toNat) - i < (Co.elems seq).length) :
    Co.result (forRange (Enumerate.loop (i : Int) seq) (Slice.body start stopAt) ())
        = Flow.next () ∧
    Co.elems (forRange (Enumerate.loop (i : Int) seq) (Slice.body start stopAt) ())
      = ((Co.elems seq).take (stopAt.toNat - i)).drop (start.toNat - i) := by
  induction seq generalizing i with
  | ret r =>
    cases r with
    | none =>
      rcases h with h | h
      · simp [Gen.Finite, Co.result] at h
      · simp [Co.elems] at h
    | some b => simp [Enumerate.loop, forRange, Co.bind, endWith, Co.result, Co.elems]
  | yield v k ih =>
    obtain ⟨⟨b, hb⟩, hk⟩ := hs
    have hcast : ((i : Int) + 1) = ((i + 1 : Nat) : Int) := by push_cast; rfl
    rw [Enumerate.loop_yield, forRange_yield]
    simp only [Co.elems, List.length_cons] at h ⊢
    by_cases h1 : (i : Int) < start
    · have h2 : Gen.Finite (k true) ∨
          max (i + 1) (max start.toNat stopAt.toNat) - (i + 1) < (Co.elems (k true)).length := by
        rcases h with h | h
        · exact Or.inl h
        · exact Or.inr (by omega)
      obtain ⟨h3, h4⟩ := ih true hk (i + 1) h2
      simp only [Slice.body, h1, if_true, Co.bind, hcast, h3, h4, true_and]
      obtain ⟨d, hd⟩ : ∃ d, start.toNat - i = d + 1 := ⟨start.toNat - i - 1, by omega⟩
      have e1 : start.toNat - (i + 1) = d := by omega
      rw [hd, e1]
      by_cases h5 : stopAt.toNat - i = 0
      · have e2 : stopAt.toNat - (i + 1) = 0 := by omega
        rw [h5, e2]
        simp
      · obtain ⟨c, hc⟩ : ∃ c, stopAt.toNat - i = c + 1 := ⟨stopAt.toNat - i - 1, by omega⟩
        have e2 : stopAt.toNat - (i + 1) = c := by omega
        rw [hc, e2]
        simp
    · by_cases h5 : (i : Int) ≥ stopAt
      · have e2 : stopAt.toNat - i = 0 := by omega
        simp [Slice.body, h1, h5, Co.bind, hb, leaveRange, endWith, Co.result, Co.elems, e2]
      · have h2 : Gen.Finite (k true) ∨
            max (i + 1) (max start.toNat stopAt.toNat) - (i + 1)
              < (Co.elems (k true)).length := by
          rcases h with h | h
          · exact Or.inl h
          · exact Or.inr (by omega)
        obtain ⟨h3, h4⟩ := ih true hk (i + 1) h2
        obtain ⟨c, hc⟩ : ∃ c, stopAt.toNat - i = c + 1 := ⟨stopAt.toNat - i - 1, by omega⟩
        have e1 : start.toNat - i = 0 := by omega
        have e2 : stopAt.toNat - (i + 1) = c := by omega
        have e3 : start.toNat - (i + 1) = 0 := by omega
        rw [e2, e3] at h4
        simp only [Slice.body, h1, h5, if_false, yieldOrReturn_bind, Co.result, Co.elems,
          if_true, hcast, h3, h4, e1, hc, true_and]
        simp

end SliceLemmas

section SliceMain

variable {T : Type}

/-- C14 as the code has it (Slice).  For a well-behaved `seq` that is finite or
has, within the fuel, more than `max(start, end, 0)` elements: a consumer that
never stops receives the elements of `seq` at the positions `i` with
`start ≤ i < end`, in order, and `Slice` returns `true`; and the same holds
with `seq` cut off after `max(start, end, 0) + 1` elements, so no more than
that many elements are taken from `seq`. -/
theorem Slice_positions (seq : Gen T) (start stopAt : Int) (hs : Gen.Stops seq)
    (h : Gen.Finite seq ∨ max start.toNat stopAt.toNat < (Co.elems seq).length) :
    Co.drive collectAll (Slice seq start stopAt) []
      = (some true, ((Co.elems seq).take stopAt.toNat).drop start.toNat) ∧
    Co.drive collectAll
        (Slice (Gen.truncate (max start.toNat stopAt.toNat + 1) seq) start stopAt) []
      = (some true, ((Co.elems seq).take stopAt.toNat).drop start.toNat) := by
  have main : ∀ (s2 : Gen T), Gen.Stops s2 →
      (Gen.Finite s2 ∨ max start.toNat stopAt.toNat < (Co.elems s2).length) →
      Co.drive collectAll (Slice s2 start stopAt) []
        = (some true, ((Co.elems s2).take stopAt.toNat).drop start.toNat) := by
    intro s2 hs2 h2
    have h3 : Gen.Finite s2 ∨
        max 0 (max start.toNat stopAt.toNat) - 0 < (Co.elems s2).length := by
      rcases h2 with h2 | h2
      · exact Or.inl h2
      · exact Or.inr (by omega)
    obtain ⟨h4, h5⟩ := slice_loop start stopAt s2 hs2 0 h3
    simp only [Nat.cast_zero, Nat.sub_zero] at h4 h5
    simp only [Co.drive_collectAll, Slice, Enumerate, Co.result_bind, Co.elems_bind, h4, h5,
      List.nil_append]
    simp [endWith, Co.result, Co.elems]
  refine ⟨main seq hs h, ?_⟩
  have h2 : Gen.Finite (Gen.truncate (max start.toNat stopAt.toNat + 1) seq) ∨
      max start.toNat stopAt.toNat
        < (Co.elems (Gen.truncate (max start.toNat stopAt.toNat + 1) seq)).length := by
    by_cases hlen : max start.toNat stopAt.toNat < (Co.elems seq).length
    · right
      rw [Gen.truncate_elems, List.length_take]
      omega
    · left
      rcases h with h | h
      · exact Gen.truncate_finite _ _ h (by omega)
      · exact absurd h hlen
  rw [main _ (Gen.truncate_stops _ _ hs) h2, Gen.truncate_elems, List.take_take]
  have e : min stopAt.toNat (max start.toNat stopAt.toNat + 1) = stopAt.toNat := by omega
  rw [e]

/-- C14 as stated fails for a negative `start` and `end`: `max(-2, -1) + 1` is
`0`, yet `Slice(seq, -2, -1)` takes the first element of `seq` before it
leaves the loop.  On a source cut off after 0 elements it does not return; on
the whole source it returns `true` without a yield. -/
theorem Slice_negative_bounds_take_one :
    Co.drive collectAll
        (Slice (Gen.truncate (max (-2 : Int) (-1) + 1).toNat (Iter.gen (FromSlice [7])))
          (-2) (-1)) [] = (none, []) ∧
    Co.drive collectAll (Slice (Iter.gen (FromSlice [7])) (-2) (-1)) [] = (some true, []) := by
  decide

end SliceMain

/-! ## Accumulate -/

section AccumulateLemmas

variable {T : Type}

theorem accumulate_loop (f : T → T → T) (S : Iter T) (i : Int) (hi : 1 ≤ i) (acc : T) :
    Co.result (forRange (Enumerate.loop i (Iter.gen S)) (Accumulate.body f) acc)
        = Flow.next ((Co.elems S).foldl f acc) ∧
    Co.elems (forRange (Enumerate.loop i (Iter.gen S)) (Accumulate.body f) acc)
      = accumulated f acc (Co.elems S) := by
  induction S generalizing i acc with
  | ret b =>
    simp [Iter.gen, Enumerate.loop, forRange, Co.bind, endWith, Co.result, Co.elems, accumulated]
  | yield v k ih =>
    have hne : ¬ i = 0 := by omega
    obtain ⟨h1, h2⟩ := ih true (i + 1) (by omega) (f acc v)
    rw [Iter.gen, Enumerate.loop_yield, forRange_yield]
    simp only [Accumulate.body, hne, if_false, yieldOrReturn_bind]
    simp only [Co.result, Co.elems, if_true, h1, h2, List.foldl_cons, accumulated, and_self]

theorem accumulated_length (f : T → T → T) (acc : T) (xs : List T) :
    (accumulated f acc xs).length = xs.length := by
  induction xs generalizing acc with
  | nil => rfl
  | cons x xs ih => simp [accumulated, ih]

theorem accumulated_get (f : T → T → T) (p0 : T) (ps : List T) (k : Nat) (hk : k ≤ ps.length) :
    (p0 :: accumulated f p0 ps)[k]? = some ((ps.take k).foldl f p0) := by
  induction ps generalizing p0 k with
  | nil =>
    have : k = 0 := by simpa using hk
    subst this
    rfl
  | cons p ps ih =>
    cases k with
    | zero => rfl
    | succ k =>
      have := ih (f p0 p) k (by simpa using hk)
      simpa [accumulated] using this

end AccumulateLemmas

section AccumulateMain

variable {T : Type} [Inhabited T]

/-- C15 (Accumulate).  For a finite sequence `p_0 .. p_{m-1}`, a consumer that
never stops receives exactly `m` values, the `k`-th of which is the left fold
of `f` over `p_0 .. p_k` seeded with `p_0` (so the first is `p_0` itself), and
`Accumulate` returns `true`; nothing is yielded for the empty sequence. -/
theorem Accumulate_prefix_folds (S : Iter T) (f : T → T → T) :
    ∃ out, Co.drive collectAll (Accumulate (Iter.gen S) f) [] = (some true, out) ∧
      out.length = (Co.elems S).length ∧
      ∀ k, k < (Co.elems S).length → out[k]? = prefixFold f ((Co.elems S).take (k + 1)) := by
  cases S with
  | ret b =>
    refine ⟨[], ?_, rfl, fun k hk => by simp [Co.elems] at hk⟩
    simp [Accumulate, Enumerate, Enumerate.loop, Iter.gen, forRange, Co.bind, endWith, Co.drive]
  | yield v k =>
    obtain ⟨h1, h2⟩ := accumulate_loop f (k true) 1 (le_refl _) v
    refine ⟨v :: accumulated f v (Co.elems (k true)), ?_, ?_, ?_⟩
    · rw [Co.drive_collectAll, Accumulate, Enumerate, Iter.gen, Enumerate.loop_yield,
        forRange_yield]
      simp only [Accumulate.body, if_true, yieldOrReturn_bind]
      simp only [Co.bind, Co.result, Co.elems, if_true, zero_add, Co.result_bind, Co.elems_bind,
        h1, h2, List.nil_append]
      simp [endWith, Co.result, Co.elems]
    · simp [Co.elems, accumulated_length]
    · intro j hj
      simp only [Co.elems, List.length_cons] at hj
      rw [accumulated_get f v _ j (by omega)]
      simp [Co.elems, prefixFold]

end AccumulateMain

/-! ## Pairwise -/

section PairwiseLemmas

variable {T : Type}

theorem pairwise_loop (S : Iter T) (last : T) :
    (∃ s, Co.result (forRange (R := Bool) (Iter.gen S) Pairwise.body (false, last))
        = Flow.next s) ∧
    Co.elems (forRange (R := Bool) (Iter.gen S) Pairwise.body (false, last))
      = (last :: Co.elems S).zip (Co.elems S) := by
  induction S generalizing last with
  | ret b => exact ⟨⟨(false, last), by simp [Iter.gen, forRange, Co.result]⟩,
      by simp [Iter.gen, forRange, Co.elems]⟩
  | yield v k ih =>
    obtain ⟨⟨s, h1⟩, h2⟩ := ih true v
    rw [Iter.gen, forRange_yield]
    simp only [Pairwise.body, Bool.not_false, if_true, yieldOrReturn_bind]
    refine ⟨⟨s, ?_⟩, ?_⟩
    · simp only [Co.result, if_true, h1]
    · simp only [Co.elems, if_true, h2, List.zip_cons_cons]

end PairwiseLemmas

section PairwiseMain

variable {T : Type} [Inhabited T]

/-- C17 (Pairwise).  For a finite sequence `p_0 .. p_{m-1}`, a consumer that
never stops receives exactly the pairs `(p_i, p_{i+1})` for `0 ≤ i < m - 1` in
increasing `i`, that is `m - 1` pairs when `m ≥ 2` and none when `m ≤ 1`, and
`Pairwise` returns `true`. -/
theorem Pairwise_adjacent (S : Iter T) :
    Co.drive collectAll (Pairwise (Iter.gen S)) []
      = (some true, (Co.elems S).zip (Co.elems S).tail) ∧
    ((Co.elems S).zip (Co.elems S).tail).length = (Co.elems S).length - 1 := by
  refine ⟨?_, by simp⟩
  cases S with
  | ret b =>
    simp [Pairwise, Iter.gen, forRange, Co.bind, endWith, Co.drive, Co.elems]
  | yield v k =>
    obtain ⟨⟨s, h1⟩, h2⟩ := pairwise_loop (k true) v
    rw [Co.drive_collectAll, Pairwise, Iter.gen, forRange_yield]
    simp only [Pairwise.body, Bool.not_true, Bool.false_eq_true, if_false, Co.bind, Co.result_bind,
      Co.elems_bind, h1, h2, Co.elems, List.tail_cons, List.nil_append]
    simp [endWith, Co.result, Co.elems]

end PairwiseMain

/-! ## Witnesses for the range-over-func combinators -/

theorem CountBy.loop_stops (ty : IntType) (start step : Int) (fuel : Nat) (n : Int) :
    Gen.Stops (CountBy.loop ty start step fuel n) := by
  induction fuel generalizing n with
  | zero => trivial
  | succ fuel ih =>
    rw [CountBy.loop]
    split
    · exact ⟨⟨false, by simp⟩, by simpa using ih _⟩
    · trivial

theorem chainInputs_wellBehaved : ∀ S ∈ chainInputs, Co.WellBehaved S := by
  intro S hS
  simp only [chainInputs, List.mem_cons, List.mem_singleton, List.mem_nil_iff, or_false] at hS
  rcases hS with rfl | rfl <;> exact FromSlice_wellBehaved _

/-- C11 on two inputs `[1, 2]`, `[3, 4]` followed by an input that never
returns, with a consumer that stops at its third element. -/
theorem Chain_early_stop_witness :
    Gen.Stops (Iter.gen (FromSlice (chainInputs.map Iter.gen ++ [stuckInput]))) ∧
    (∀ S ∈ chainInputs, Co.WellBehaved S) ∧
    Co.elems (Iter.gen (FromSlice (chainInputs.map Iter.gen ++ [stuckInput])))
      = chainInputs.map Iter.gen ++ [stuckInput] ∧
    1 ≤ 3 ∧ 3 ≤ ((chainInputs.map Co.elems).flatten).length ∧
    (Co.drive (collectUpTo 3)
        (ChainFromIter (Iter.gen (FromSlice (chainInputs.map Iter.gen ++ [stuckInput])))) []
      = (some false, ((chainInputs.map Co.elems).flatten).take 3) ∧
    Co.drive (collectUpTo 3) (Chain (chainInputs.map Iter.gen ++ [stuckInput])) []
      = (some false, ((chainInputs.map Co.elems).flatten).take 3) ∧
    (Gen.Finite (Iter.gen (FromSlice (chainInputs.map Iter.gen ++ [stuckInput]))) →
      [stuckInput] = [] →
      (Co.drive collectAll
        (ChainFromIter (Iter.gen (FromSlice (chainInputs.map Iter.gen ++ [stuckInput])))) []).1
        = some true)) :=
  ⟨FromSlice_gen_stops _, chainInputs_wellBehaved, FromSlice_gen_elems _, by decide, by decide,
    Chain_early_stop _ (FromSlice_gen_stops _) chainInputs chainInputs_wellBehaved [stuckInput]
      (FromSlice_gen_elems _) 3 (by decide) (by decide)⟩

/-- C12 on the endless `Count(1)` (run with fuel 10) and the predicate
`x < 5`. -/
theorem TakeWhile_prefix_witness :
    Gen.Stops (Count IntType.int 1 10) ∧
    (Gen.Finite (Count IntType.int 1 10) ∨
      ∃ x ∈ Co.elems (Count IntType.int 1 10), decide (x < 5) = false) ∧
    (Co.drive collectAll (TakeWhile (Count IntType.int 1 10) (fun x => decide (x < 5))) []
        = (some true, (Co.elems (Count IntType.int 1 10)).takeWhile (fun x => decide (x < 5))) ∧
      ((∃ x ∈ Co.elems (Count IntType.int 1 10), (fun x => decide (x < 5)) x = false) →
        Co.drive collectAll
            (TakeWhile
              (Gen.truncate
                (((Co.elems (Count IntType.int 1 10)).takeWhile
                  (fun x => decide (x < 5))).length + 1)
                (Count IntType.int 1 10))
              (fun x => decide (x < 5))) []
          = (some true,
              (Co.elems (Count IntType.int 1 10)).takeWhile (fun x => decide (x < 5))))) :=
  ⟨CountBy.loop_stops _ _ _ _ _, Or.inr ⟨5, by decide, by decide⟩,
    TakeWhile_prefix (Count IntType.int 1 10) (fun x => decide (x < 5))
      (CountBy.loop_stops _ _ _ _ _) (Or.inr ⟨5, by decide, by decide⟩)⟩

/-- C14 (amended) on the endless `Count(0)` (run with fuel 11), `start = 5` and
`end = 10`. -/
theorem Slice_positions_witness :
    Gen.Stops (Count IntType.int 0 11) ∧
    (Gen.Finite (Count IntType.int 0 11) ∨
      max (5 : Int).toNat (10 : Int).toNat < (Co.elems (Count IntType.int 0 11)).length) ∧
    (Co.drive collectAll (Slice (Count IntType.int 0 11) 5 10) []
        = (some true,
            ((Co.elems (Count IntType.int 0 11)).take (10 : Int).toNat).drop (5 : Int).toNat) ∧
      Co.drive collectAll
          (Slice (Gen.truncate (max (5 : Int).toNat (10 : Int).toNat + 1) (Count IntType.int 0 11))
            5 10) []
        = (some true,
            ((Co.elems (Count IntType.int 0 11)).take (10 : Int).toNat).drop (5 : Int).toNat)) :=
  ⟨CountBy.loop_stops _ _ _ _ _, Or.inr (by decide),
    Slice_positions (Count IntType.int 0 11) 5 10 (CountBy.loop_stops _ _ _ _ _)
      (Or.inr (by decide))⟩

/-! ## Count up to the greatest value of the type -/

theorem IntType.span (ty : IntType) (hb : 1 ≤ ty.bits) :
    ty.maxVal - ty.minVal + 1 = 2 ^ ty.bits := by
  obtain ⟨b, hb2⟩ : ∃ b, ty.bits = b + 1 := ⟨ty.bits - 1, by omega⟩
  unfold IntType.maxVal IntType.minVal
  cases ty.signed with
  | true =>
    simp only [if_true, hb2, Nat.add_sub_cancel, pow_succ]
    ring
  | false =>
    simp only [Bool.false_eq_true, if_false]
    ring

theorem IntType.wrap_id (ty : IntType) (hb : 1 ≤ ty.bits) (x : Int) (h1 : ty.minVal ≤ x)
    (h2 : x ≤ ty.maxVal) : ty.wrap x = x := by
  have hs := ty.span hb
  unfold IntType.wrap
  rw [Int.emod_eq_of_lt (by omega) (by omega)]
  omega

theorem IntType.wrap_max_succ (ty : IntType) (hb : 1 ≤ ty.bits) :
    ty.wrap (ty.maxVal + 1) = ty.minVal := by
  have hs := ty.span hb
  unfold IntType.wrap
  have e : ty.maxVal + 1 - ty.minVal = 2 ^ ty.bits := by omega
  rw [e, Int.emod_self]
  omega

theorem Count.loop_to_max (ty : IntType) (hb : 1 ≤ ty.bits) (start : Int)
    (h1 : ty.minVal < start) (extra d : Nat) :
    ∀ n : Int, start ≤ n → n + d = ty.maxVal →
      Co.result (CountBy.loop ty start 1 (d + 2 + extra) n) = some true ∧
      Co.elems (CountBy.loop ty start 1 (d + 2 + extra) n)
        = (List.range (d + 1)).map (fun i : Nat => n + i) := by
  induction d with
  | zero =>
    intro n hn hd
    have hmax : n = ty.maxVal := by simpa using hd
    have e1 : 0 + 2 + extra = (extra + 1) + 1 := by omega
    have hge : n ≥ start := hn
    have hlt : ¬ ty.minVal ≥ start := by omega
    rw [e1, CountBy.loop, if_pos hge]
    simp only [Co.result, Co.elems, Bool.not_true, Bool.false_eq_true, if_false, hmax,
      ty.wrap_max_succ hb]
    rw [CountBy.loop, if_neg hlt]
    simp [Co.result, Co.elems, List.range_succ]
  | succ d ih =>
    intro n hn hd
    have e1 : d + 1 + 2 + extra = (d + 2 + extra) + 1 := by omega
    have hge : n ≥ start := hn
    have hw : ty.wrap (n + 1) = n + 1 := ty.wrap_id hb _ (by omega) (by push_cast at hd; omega)
    obtain ⟨h3, h4⟩ := ih (n + 1) (by omega) (by push_cast at hd ⊢; omega)
    rw [e1, CountBy.loop, if_pos hge]
    simp only [Co.result, Co.elems, Bool.not_true, Bool.false_eq_true, if_false, hw, h3, h4,
      true_and]
    rw [List.range_succ_eq_map (d + 1)]
    simp only [List.map_cons, List.map_map, Nat.cast_zero, add_zero, List.cons.injEq, true_and]
    apply List.map_congr_left
    intro i _
    simp only [Function.comp, Nat.succ_eq_add_one]
    push_cast
    ring

/-- C20 (Count ends at the greatest value).  For a type of at least one bit and
a `start` above the least value of the type, with fuel for every value from
`start` to the greatest value `MAX`: a consumer that never stops receives
`start, start + 1, ..., MAX`, each once and in order, and `Count` returns
`true`. -/
theorem Count_ends_at_max (ty : IntType) (hb : 1 ≤ ty.bits) (start : Int)
    (h1 : ty.minVal < start) (h2 : start ≤ ty.maxVal) (extra : Nat) :
    Co.drive collectAll (Count ty start ((ty.maxVal - start).toNat + 2 + extra)) []
      = (some true,
          (List.range ((ty.maxVal - start).toNat + 1)).map (fun i : Nat => start + i)) := by
  obtain ⟨h3, h4⟩ := Count.loop_to_max ty hb start h1 extra (ty.maxVal - start).toNat start
    (le_refl _) (by omega)
  rw [Co.drive_collectAll, Count, CountBy, h3, h4]
  rfl

/-- C20 for `int8` from 120: the values 120 to 127. -/
theorem Count_ends_at_max_witness :
    1 ≤ (IntType.mk 8 true).bits ∧ (IntType.mk 8 true).minVal < 120 ∧
    120 ≤ (IntType.mk 8 true).maxVal ∧
    Co.drive collectAll
        (Count (IntType.mk 8 true) 120 (((IntType.mk 8 true).maxVal - 120).toNat + 2 + 0)) []
      = (some true,
          (List.range (((IntType.mk 8 true).maxVal - 120).toNat + 1)).map
            (fun i : Nat => (120 : Int) + i)) :=
  ⟨by decide, by decide, by decide,
    Count_ends_at_max (IntType.mk 8 true) (by decide) 120 (by decide) (by decide) 0⟩

/-- C18 (a group iterator invoked twice inside its window). On the source
1, 1, 2 grouped by the identity key, a consumer that ranges over the first
group twice before the outer iteration goes on gets 1, 1 from the first
invocation and 2 from the second, although the group was yielded with key 1;
the outer iteration then ends without ever yielding a group with key 2. -/
theorem GroupBy_second_invocation_foreign_key :
    (GroupBy (FromSlice [1, 1, 2]) (fun e => e) 5 5 groupTwice []).map (fun r => (r.1, r.2.2))
      = some (true, [(1, [1, 1], [2])]) := by
  decide

section TeeChain

variable {T : Type}

theorem chunkChain_none (heap : List (chunk T)) (fuel : Nat) : chunkChain heap fuel none = [] := by
  cases fuel <;> rfl

theorem ChunkOk.contents {xs : List T} {len a : Nat} {ch : chunk T} (hc : ChunkOk xs len a ch) :
    ch.vals.take ch.size = (xs.drop (64 * a)).take ch.size := by
  apply List.ext_getElem?
  intro t
  by_cases ht : t < ch.size
  · rw [List.getElem?_take_of_lt ht, List.getElem?_take_of_lt ht, hc.vals_eq t ht,
      List.getElem?_drop]
  · rw [List.getElem?_eq_none (by rw [List.length_take]; omega),
      List.getElem?_eq_none (by rw [List.length_take]; omega)]

theorem chunkChain_spec (xs : List T) (heap : List (chunk T))
    (hchunks : ∀ a ch, heap[a]? = some ch → ChunkOk xs heap.length a ch) :
    ∀ (d a fuel : Nat), a + d + 1 = heap.length → d + 1 ≤ fuel →
      ∃ chl, heap[heap.length - 1]? = some chl ∧
        chunkChain heap fuel (some a)
          = (xs.take (64 * (heap.length - 1) + chl.size)).drop (64 * a) := by
  intro d
  induction d with
  | zero =>
    intro a fuel ha hf
    obtain ⟨ch, hch⟩ : ∃ ch, heap[a]? = some ch := ⟨_, List.getElem?_eq_getElem (by omega)⟩
    have hc := hchunks a ch hch
    have hal : heap.length - 1 = a := by omega
    refine ⟨ch, by rw [hal]; exact hch, ?_⟩
    obtain ⟨f, rfl⟩ : ∃ f, fuel = f + 1 := ⟨fuel - 1, by omega⟩
    have hget : heap.get? a = some ch := by rw [List.get?_eq_getElem?]; exact hch
    simp only [chunkChain, hget]
    rw [hc.last (by omega), chunkChain_none, List.append_nil, hal, hc.contents,
      List.drop_take]
    congr 1
    omega
  | succ d ih =>
    intro a fuel ha hf
    obtain ⟨ch, hch⟩ : ∃ ch, heap[a]? = some ch := ⟨_, List.getElem?_eq_getElem (by omega)⟩
    have hc := hchunks a ch hch
    obtain ⟨hsz, _, hnext⟩ := hc.inner (by omega)
    obtain ⟨f, rfl⟩ : ∃ f, fuel = f + 1 := ⟨fuel - 1, by omega⟩
    obtain ⟨chl, hl, hrec⟩ := ih (a + 1) f (by omega) (by omega)
    refine ⟨chl, hl, ?_⟩
    have hget : heap.get? a = some ch := by rw [List.get?_eq_getElem?]; exact hch
    simp only [chunkChain, hget]
    rw [hnext, hrec, hc.contents, hsz, List.drop_take, List.drop_take]
    have e1 : 64 * (heap.length - 1) + chl.size - 64 * a
        = 64 + (64 * (heap.length - 1) + chl.size - 64 * (a + 1)) := by omega
    have e2 : 64 * (a + 1) = 64 * a + 64 := by omega
    rw [e1, e2, List.take_add, ← List.drop_drop]

end TeeChain

section TeeDoneOrder

variable {T : Type}

theorem DoneKept.refl (s : TeeVars T) : DoneKept s s := fun _ _ h _ => h

theorem DoneKept.trans {s s2 s3 : TeeVars T} (h1 : DoneKept s s2) (h2 : DoneKept s2 s3) :
    DoneKept s s3 := fun b chb hb hd => h2 b chb (h1 b chb hb hd) hd

theorem DoneKept.of_heap {s s2 s3 : TeeVars T} (h1 : DoneKept s s2) (h2 : s3.heap = s2.heap) :
    DoneKept s s3 := fun b chb hb hd => by
  rw [h2]
  exact h1 b chb hb hd

end TeeDoneOrder

section TeeDone

variable {T : Type} [Inhabited T]

theorem nextFromChunk.advance_doneKept (s : TeeVars T) (a : Nat) (ch : chunk T) (i : Nat)
    (ha : s.heap[a]? = some ch) : DoneKept s (nextFromChunk.advance s a ch i).1 := by
  have halt := heap_lt_of_get _ _ _ ha
  by_cases hcond : i ≥ ch.size ∧ ch.size ≥ 64 ∧ ch.done = false
  · cases hn : ch.next with
    | none =>
      intro b chb hb hd
      have hblt := heap_lt_of_get _ _ _ hb
      have hba : b ≠ a := by
        rintro rfl
        rw [ha] at hb
        simp only [Option.some.injEq] at hb
        subst hb
        rw [hcond.2.2] at hd
        cases hd
      have hbl : b ≠ s.heap.length := by omega
      simp only [nextFromChunk.advance, hcond, hn, and_self, if_true]
      rw [heap_alloc_get _ _ _ _ halt, if_neg hba, if_neg hbl]
      exact hb
    | some b =>
      simp only [nextFromChunk.advance, hcond, hn, and_self, if_true]
      exact DoneKept.refl s
  · simp only [nextFromChunk.advance, if_neg hcond]
    exact DoneKept.refl s

theorem nextFromChunk.fetch_doneKept (s : TeeVars T) (a i : Nat)
    (res : T × Nat × Option Nat × Bool) (s2 : TeeVars T)
    (h : nextFromChunk.fetch s a i = some (res, s2)) : DoneKept s s2 := by
  cases hget : s.heap.get? a with
  | none =>
    have ha : s.heap[a]? = none := by simpa using hget
    simp [nextFromChunk.fetch, ha] at h
  | some ch =>
    have ha : s.heap[a]? = some ch := by simpa using hget
    have halt := heap_lt_of_get _ _ _ ha
    have hset : ∀ (c1 : chunk T) (s3 : TeeVars T), ch.done = false →
        s3.heap = s.heap.set a c1 → DoneKept s s3 := by
      intro c1 s3 hdf h3 b chb hb hd
      have hba : b ≠ a := by
        rintro rfl
        rw [ha] at hb
        simp only [Option.some.injEq] at hb
        subst hb
        rw [hdf] at hd
        cases hd
      rw [h3, heap_set_get _ _ _ halt, if_neg hba]
      exact hb
    simp only [nextFromChunk.fetch, hget] at h
    by_cases h1 : i ≥ ch.size
    · rw [if_pos h1] at h
      cases hd : ch.done with
      | true =>
        simp only [hd, if_true, Option.some.injEq, Prod.mk.injEq] at h
        rw [← h.2]
        exact DoneKept.refl s
      | false =>
        simp only [hd, Bool.false_eq_true, if_false] at h
        by_cases h2 : ch.size < 64
        · rw [if_pos h2] at h
          cases hp : (pull s.co).1.2 with
          | false =>
            simp only [hp, Bool.not_false, if_true, Option.some.injEq, Prod.mk.injEq] at h
            exact hset _ s2 hd (by rw [← h.2])
          | true =>
            simp only [hp, Bool.not_true, Bool.false_eq_true, if_false] at h
            split at h
            · cases h
            · simp only [Option.some.injEq, Prod.mk.injEq] at h
              exact hset _ s2 hd (by rw [← h.2])
        · rw [if_neg h2] at h
          cases h
    · rw [if_neg h1] at h
      split at h
      · cases h
      · simp only [Option.some.injEq, Prod.mk.injEq] at h
        rw [← h.2]
        exact DoneKept.refl s

theorem nextFromChunk_doneKept (s : TeeVars T) (c : Option Nat) (i : Nat)
    (res : T × Nat × Option Nat × Bool) (s2 : TeeVars T)
    (h : nextFromChunk s c i = some (res, s2)) : DoneKept s s2 := by
  cases c with
  | none => simp [nextFromChunk] at h
  | some a =>
    cases hget : s.heap.get? a with
    | none =>
      have ha : s.heap[a]? = none := by simpa using hget
      simp [nextFromChunk, ha] at h
    | some ch =>
      have ha : s.heap[a]? = some ch := by simpa using hget
      simp only [nextFromChunk, hget] at h
      exact (nextFromChunk.advance_doneKept s a ch i ha).trans
        (nextFromChunk.fetch_doneKept _ _ _ res s2 h)

theorem teeLoop_doneKept (s : TeeVars T) (k : Consumer T) (i : Nat) (s2 : TeeVars T)
    (k2 : Consumer T) (h : teeLoop s k i = some (s2, k2)) : DoneKept s s2 := by
  cases hn : nextFromChunk s k.c i with
  | none => simp [teeLoop, hn] at h
  | some r =>
    obtain ⟨⟨v, i2, c2, ok⟩, s3⟩ := r
    have hk := nextFromChunk_doneKept s k.c i _ s3 hn
    simp only [teeLoop, hn] at h
    cases ok with
    | false =>
      simp only [Bool.not_false, if_true, Option.some.injEq, Prod.mk.injEq] at h
      exact hk.of_heap (by rw [← h.1, teeDeferred_heap])
    | true =>
      simp only [Bool.not_true, Bool.false_eq_true, if_false, Option.some.injEq,
        Prod.mk.injEq] at h
      rw [← h.1]
      exact hk

theorem teeResume_doneKept (s : TeeVars T) (k : Consumer T) (ans : Bool) (s2 : TeeVars T)
    (k2 : Consumer T) (h : teeResume s k ans = some (s2, k2)) : DoneKept s s2 := by
  cases hp : k.phase with
  | fresh =>
    simp only [teeResume, hp] at h
    exact teeLoop_doneKept s k 0 s2 k2 h
  | waiting i =>
    simp only [teeResume, hp] at h
    cases ans with
    | false =>
      simp only [Bool.not_false, if_true, Option.some.injEq, Prod.mk.injEq] at h
      exact (DoneKept.refl s).of_heap (by rw [← h.1, teeDeferred_heap])
    | true =>
      simp only [Bool.not_true, Bool.false_eq_true, if_false] at h
      exact teeLoop_doneKept s k i s2 k2 h
  | returned b =>
    simp only [teeResume, hp, Option.some.injEq, Prod.mk.injEq] at h
    rw [← h.1]
    exact DoneKept.refl s

theorem TeeState.step_doneKept (st : TeeState T) (nn : Nat) (ans : Bool) (st2 : TeeState T)
    (h : st.step nn ans = some st2) : DoneKept st.vars st2.vars := by
  cases hk : st.iters.get? nn with
  | none =>
    simp only [TeeState.step, hk, Option.some.injEq] at h
    rw [← h]
    exact DoneKept.refl _
  | some k =>
    simp only [TeeState.step, hk] at h
    cases hr : teeResume st.vars k ans with
    | none => simp [hr] at h
    | some r =>
      obtain ⟨s2, k2⟩ := r
      simp only [hr, Option.some.injEq] at h
      rw [← h]
      exact teeResume_doneKept st.vars k ans s2 k2 hr

theorem TeeState.run_doneKept (more : List (Nat × Bool)) :
    ∀ (st st2 : TeeState T), st.run more = some st2 → DoneKept st.vars st2.vars := by
  induction more with
  | nil =>
    intro st st2 h
    simp only [TeeState.run, Option.some.injEq] at h
    rw [← h]
    exact DoneKept.refl _
  | cons e more ih =>
    intro st st2 h
    obtain ⟨nn, ans⟩ := e
    cases hs : st.step nn ans with
    | none => simp [TeeState.run, hs] at h
    | some st1 =>
      simp only [TeeState.run, hs] at h
      exact (TeeState.step_doneKept st nn ans st1 hs).trans (ih st1 st2 h)

end TeeDone

section TeeChainClaim

variable {T : Type} [Inhabited T]

/-- C19 (Tee buffer-chain invariant).  For every source `S`, every `n` and every
schedule of consumer steps (a closure that has returned is not invoked again),
the run does not panic, so the write at index `c.size` in `nextFromChunk` was
always inside the 64-slot array; and in the state reached every chunk has 64
slots and holds at most 64 elements, a chunk with a successor is full and not
done, the contents of the chunks read along the `next` pointers from the head
are the values pulled so far, which are a prefix of the elements of `S`, and
after any further steps a chunk that is marked done is the same chunk: it has
gained neither an element nor a successor. -/
theorem Tee_chunk_chain (S : Iter T) (n : Nat) (sched : List (Nat × Bool)) :
    ∃ st, (Tee S n).run sched = some st ∧
      (∀ (a : Nat) (ch : chunk T), st.vars.heap[a]? = some ch →
        ch.vals.length = 64 ∧ ch.size ≤ 64 ∧
        (ch.next ≠ none → ch.size = 64 ∧ ch.done = false)) ∧
      chunkChain st.vars.heap st.vars.heap.length (some 0) = st.vars.fetched ∧
      st.vars.fetched = (Co.elems S).take st.vars.fetched.length ∧
      ∀ more st2, st.run more = some st2 →
        ∀ (a : Nat) (ch : chunk T), st.vars.heap[a]? = some ch → ch.done = true →
          st2.vars.heap[a]? = some ch := by
  obtain ⟨st, hrun, hinv, -, -⟩ := Tee_reachable S n sched
  have hv := hinv.vars
  refine ⟨st, hrun, ?_, ?_, ?_, ?_⟩
  · intro a ch ha
    have hc := hv.chunks a ch ha
    refine ⟨hc.vals_len, hc.size_le, ?_⟩
    intro hnext
    have hlt := heap_lt_of_get _ _ _ ha
    have hin : a + 1 < st.vars.heap.length := by
      by_contra hne
      exact hnext (hc.last (by omega))
    exact ⟨(hc.inner hin).1, (hc.inner hin).2.1⟩
  · have hne := hv.nonempty
    obtain ⟨chl, hl, hchain⟩ := chunkChain_spec (Co.elems S) st.vars.heap hv.chunks
      (st.vars.heap.length - 1) 0 st.vars.heap.length (by omega) (by omega)
    rw [hchain, (hv.tail _ chl hl (by omega)).1]
    rfl
  · obtain ⟨j, hj⟩ := (VarsOk.fetched_facts (Co.elems S) st.vars hv).1
    rw [hj, List.length_take]
    by_cases hle : j ≤ (Co.elems S).length
    · rw [Nat.min_eq_left hle]
    · rw [Nat.min_eq_right (by omega), List.take_of_length_le (by omega),
        List.take_of_length_le (Nat.le_refl _)]
  · intro more st2 h2 a ch ha hd
    exact TeeState.run_doneKept more st st2 h2 a ch ha hd

end TeeChainClaim

end Itertools
